import Mathlib

/-!
# A shallow embedding of the deltafs PLFS I/O filter layer

This file embeds, in Lean 4, the filter family of the deltafs PLFS I/O engine
(`src/libdeltafs/deltafs_plfsio_filter.cc`,
`src/libdeltafs/plfsio/v1/deltafs_plfsio_cuckoo.cc`, and the `FT_TYPE`
environment parsing of `src/libdeltafs/deltafs_plfsio_test.cc`) and proves or
refutes the specification claims about it.

Modelling conventions:
* bytes are `Nat` values in `[0, 256)`; byte strings are `List Nat`; range
  invariants are carried by proofs, not by the types;
* C++ unsigned fixed-width arithmetic is modelled with explicit `% 2^w`
  (`u32`, `u64`); `char` is modelled as signed (the x86 default) exactly at the
  places where the source reads a byte through a plain `char` without an
  `unsigned char` cast;
* out-of-range `operator[]` reads (undefined behaviour in C++) are modelled
  with `List.getD _ _ 0`; every theorem that evaluates such a read proves the
  access in range, so the default is never observable;
* hash functions (`BloomHash`, `CuckooHash`, the fingerprint hash) live in
  pdlfs-common, outside this repository; they are universally quantified
  parameters, so every theorem holds for the real hash functions;
* the two `double` computations of the filter layer (the Bloom probe count
  `bits_per_key * 0.69` and the cuckoo bucket count
  `ceil(1.0/frac * (num_keys+3) / 4)`) are modelled in exact arithmetic: the
  literal `0.69` is replaced by the exact rational value of its `double`
  representation, and the cuckoo expression by exact rational arithmetic.
-/

/-- A byte value; invariants (`< 256`) are tracked in proofs. -/
abbrev Byte := Nat

/-- C++ `uint32_t` truncation. -/
def u32 (n : Nat) : Nat := n % 4294967296

/-- C++ `uint64_t` / `size_t` truncation. -/
def u64 (n : Nat) : Nat := n % 18446744073709551616

/-- `size_t distance = *it - last_one` on 64-bit `size_t`: wraps on underflow. -/
def dist64 (x lastOne : Nat) : Nat := (18446744073709551616 + x - lastOne) % 18446744073709551616

/-- The value of a byte when the source reads it through a plain (signed) `char`
and lets it promote to `int`. -/
def asSigned (b : Byte) : Int := if b < 128 then (b : Int) else (b : Int) - 256

/-- `space[i] |= m`: bitwise-or a mask into the byte at index `i`. -/
def orByte (sp : List Byte) (i m : Nat) : List Byte := sp.set i (sp.getD i 0 ||| m)

/-- `PutFixed32`: append a `uint32` as four little-endian bytes (pdlfs-common
coding, little-endian per spec §6). -/
def putFixed32 (v : Nat) : List Byte :=
  [u32 v % 256, u32 v / 256 % 256, u32 v / 65536 % 256, u32 v / 16777216 % 256]

/-- `DecodeFixed32`: read four little-endian bytes. -/
def decodeFixed32 (bs : List Byte) : Nat :=
  bs.getD 0 0 + bs.getD 1 0 * 256 + bs.getD 2 0 * 65536 + bs.getD 3 0 * 16777216

/-! ## Bloom filter (`BloomBlock`, `BloomKeyMayMatch`)

Keys enter the Bloom code only through `BloomHash` (pdlfs-common, outside this
repository), so a key is represented here by its 32-bit hash value. -/

/-- Numerator of the exact value of the C++ `double` literal `0.69`:
`0.69` rounds to `6214967485771284 / 2^53`. -/
def d069num : Nat := 6214967485771284

/-- Denominator (`2^53`) of the exact value of the `double` literal `0.69`. -/
def d069den : Nat := 9007199254740992

/-- `BloomBlock::BloomBlock`: `k_ = uint32(bits_per_key * 0.69)`, clamped to
`[1, 30]`.  `⌊bpk * (m/2^53)⌋ = bpk * m / 2^53` in exact arithmetic; the
double multiplication's rounding never moves the clamped result (the product is
never within an ulp of an integer in `[1,30]`). -/
def bloomK (bitsPerKey : Nat) : Nat :=
  min 30 (max 1 (bitsPerKey * d069num / d069den))

/-- The spec's formula for the probe count, with a real `0.69 = 69/100`
(spec §4.B.1): `k = max(1, min(30, floor(bits_per_key * 0.69)))`. -/
def bloomKSpec (bitsPerKey : Nat) : Nat :=
  max 1 (min 30 (bitsPerKey * 69 / 100))

/-- State of a `BloomBlock` between `Reset` and `Finish`: the byte buffer
`space_` (whose last byte stores `k_`), the finalized bit count `bits_`, and
the probe count `k_`. -/
structure BloomState where
  space : List Byte
  bits : Nat
  k : Nat

/-- `BloomBlock::Reset(num_keys)`: `bits_ = uint32(num_keys * bits_per_key_)`,
clamped below by 64; `bytes = (bits_ + 7) / 8` in `uint32`; the buffer is
`bytes` zero bytes plus one trailing byte holding `k_`; finally
`bits_ = bytes * 8`. -/
def bloomReset (bitsPerKey numKeys : Nat) : BloomState :=
  let bits0 := u32 (numKeys * bitsPerKey)
  let bits1 := if bits0 < 64 then 64 else bits0
  let bytes := u32 (bits1 + 7) / 8
  { space := List.replicate bytes 0 ++ [bloomK bitsPerKey]
    bits := bytes * 8
    k := bloomK bitsPerKey }

/-- `delta = (h >> 17) | (h << 15)` on `uint32` (rotate right 17). -/
def bloomDelta (h : Nat) : Nat := (h >>> 17) ||| u32 (h <<< 15)

/-- The probe bit positions of one key: `j` iterations of
`b = h % bits; h += delta` (all on `uint32`). -/
def bloomProbes (h delta bits : Nat) : Nat → List Nat
  | 0 => []
  | Nat.succ j => h % bits :: bloomProbes (u32 (h + delta)) delta bits j

/-- `BloomBlock::AddKey`: set bit `b` (i.e. `space_[b/8] |= 1 << (b%8)`) for
each probe position of the key's hash `h`. -/
def bloomAddKey (st : BloomState) (h : Nat) : BloomState :=
  let h0 := u32 h
  let probes := bloomProbes h0 (bloomDelta h0) st.bits st.k
  { st with space := probes.foldl (fun sp b => orByte sp (b / 8) (1 <<< (b % 8))) st.space }

/-- `BloomBlock::Finish`: return the buffer. -/
def bloomFinish (st : BloomState) : List Byte := st.space

/-- The probe loop of `BloomKeyMayMatch`: false as soon as a probed bit is
clear. -/
def bloomCheck (h delta bits : Nat) (input : List Byte) : Nat → Bool
  | 0 => true
  | Nat.succ j =>
    let b := h % bits
    if input.getD (b / 8) 0 &&& (1 <<< (b % 8)) == 0 then false
    else bloomCheck (u32 (h + delta)) delta bits input j

/-- `BloomKeyMayMatch(key, input)` with the key represented by its
`BloomHash` value `h`. -/
def bloomKeyMayMatch (h : Nat) (input : List Byte) : Bool :=
  if input.length < 2 then true
  else
    let bits := (input.length - 1) * 8
    let k := input.getD (input.length - 1) 0
    if k > 30 then true
    else
      let h0 := u32 h
      bloomCheck h0 (bloomDelta h0) bits input k

/-! ## Benchmark `FT_TYPE` parsing (`deltafs_plfsio_test.cc`)

The `else if (strcmp(env, "x"))` conditions of the source take the *nonzero*
`strcmp` result as true, i.e. they fire exactly when the strings differ. -/

/-- Filter kinds selected by the benchmark (`FilterType`; the numeric codes of
the missing `deltafs_plfsio_types.h` are irrelevant to the claims). -/
inductive FilterType where
  | kNoFilter
  | kBloomFilter
  | kBitmapFilter
deriving DecidableEq

/-- Bitmap wire-format ids (`BitmapFormatType`).  Modelled from the spec: the
enum lives in `deltafs_plfsio_format.h`, outside `src/`; the claims depend only
on the writer and the reader using the same six distinct ids. -/
inductive BitmapFormatType where
  | kUncompressedBitmap
  | kRoaringBitmap
  | kPRoaringBitmap
  | kVarintBitmap
  | kVarintPlusBitmap
  | kPForDeltaBitmap
deriving DecidableEq

/-- The byte stored for each bitmap format id (distinct values; the concrete
numbers of the missing header are opaque, any distinct assignment below 256
yields the same claims). -/
def bitmapFormatByte : BitmapFormatType → Byte
  | .kUncompressedBitmap => 0
  | .kRoaringBitmap => 1
  | .kPRoaringBitmap => 2
  | .kVarintBitmap => 3
  | .kVarintPlusBitmap => 4
  | .kPForDeltaBitmap => 5

/-- `PlfsIoBench::GetFilterType`: dispatch on `getenv("FT_TYPE")`.  Each
`else if (strcmp(env, s))` branch fires when `env ≠ s`. -/
def getFilterType (env : Option String) (deftype : FilterType) : FilterType :=
  match env with
  | none => deftype
  | some s =>
    if s = "" then deftype
    else if s ≠ "bf" then FilterType.kBloomFilter
    else if s ≠ "bmp" then FilterType.kBitmapFilter
    else if s ≠ "vb" then FilterType.kBitmapFilter
    else if s ≠ "vbp" then FilterType.kBitmapFilter
    else if s ≠ "r" then FilterType.kBitmapFilter
    else if s ≠ "pr" then FilterType.kBitmapFilter
    else if s ≠ "pfdelta" then FilterType.kBitmapFilter
    else FilterType.kNoFilter

/-- `PlfsIoBench::GetBitmapFilterFormat`, same `strcmp`-as-boolean structure. -/
def getBitmapFilterFormat (env : Option String) (deffmt : BitmapFormatType) :
    BitmapFormatType :=
  match env with
  | none => deffmt
  | some s =>
    if s = "" then deffmt
    else if s ≠ "bmp" then BitmapFormatType.kUncompressedBitmap
    else if s ≠ "vb" then BitmapFormatType.kVarintBitmap
    else if s ≠ "vbp" then BitmapFormatType.kVarintPlusBitmap
    else if s ≠ "r" then BitmapFormatType.kRoaringBitmap
    else if s ≠ "pr" then BitmapFormatType.kPRoaringBitmap
    else if s ≠ "pfdelta" then BitmapFormatType.kPForDeltaBitmap
    else deffmt

/-- Modelled from the spec (§6, §9): the documented `FT_TYPE` → filter-type
table ("bf" → Bloom, the six bitmap names → bitmap, unset/empty → default). -/
def documentedFilterType (env : Option String) (deftype : FilterType) : FilterType :=
  match env with
  | none => deftype
  | some s =>
    if s = "" then deftype
    else if s = "bf" then FilterType.kBloomFilter
    else if s = "bmp" ∨ s = "vb" ∨ s = "vbp" ∨ s = "r" ∨ s = "pr" ∨ s = "pfdelta" then
      FilterType.kBitmapFilter
    else FilterType.kNoFilter

/-- Modelled from the spec (§6, §9): the documented `FT_TYPE` → bitmap-format
table (bmp→uncompressed, vb→varint, vbp→varint-plus, r→roaring, pr→partitioned
roaring, pfdelta→pForDelta). -/
def documentedBitmapFormat (env : Option String) (deffmt : BitmapFormatType) :
    BitmapFormatType :=
  match env with
  | none => deffmt
  | some s =>
    if s = "" then deffmt
    else if s = "bmp" then BitmapFormatType.kUncompressedBitmap
    else if s = "vb" then BitmapFormatType.kVarintBitmap
    else if s = "vbp" then BitmapFormatType.kVarintPlusBitmap
    else if s = "r" then BitmapFormatType.kRoaringBitmap
    else if s = "pr" then BitmapFormatType.kPRoaringBitmap
    else if s = "pfdelta" then BitmapFormatType.kPForDeltaBitmap
    else deffmt

/-! ## Cuckoo filter (`deltafs_plfsio_cuckoo.cc`)

`CuckooHash`, `CuckooFingerprint` and `CuckooAlt` live in
`deltafs_plfsio_cuckoo.h` / pdlfs-common, outside `src/`; the two hash
functions are abstract parameters and `CuckooFingerprint`/`CuckooAlt` are
modelled from the spec (§4.B.3).  The bucket array is serialized through a
bit-field struct whose exact in-memory layout is implementation-defined but
identical for the writer (`CuckooTable::Write`) and the reader
(`CuckooReader::Read`); the serialized bucket array is therefore modelled as
the bucket-indexed map it round-trips to. -/

/-- The external hash functions a cuckoo filter is built over: `CuckooHash`,
the key hash the fingerprint is derived from, and the fingerprint hash used by
`CuckooAlt`. -/
structure CuckooEnv where
  keyHash : List Byte → Nat
  fpHash : List Byte → Nat
  altHash : Nat → Nat

/-- Modelled from the spec (§4.B.3): `CuckooFingerprint(key, bits_per_key)` is
a `bits_per_key`-wide hash of the key, forced nonzero. -/
def cuckooFingerprint (E : CuckooEnv) (key : List Byte) (bits : Nat) : Nat :=
  max 1 (E.fpHash key % 2 ^ bits)

/-- Modelled from the spec (§4.B.3): `CuckooAlt(i, fp) = i XOR hash_of_fp`. -/
def cuckooAlt (E : CuckooEnv) (i fp : Nat) : Nat := i ^^^ E.altHash fp

/-- One `x |= x >> s` step of `CuckooTable::UpperPower2`. -/
def orShift (x s : Nat) : Nat := x ||| (x >>> s)

/-- `CuckooTable::UpperPower2` on `uint64_t`: decrement, smear the top bit
rightward with `x |= x >> s` for `s = 1, 2, 4, 8, 16, 32`, increment. -/
def upperPower2 (x : Nat) : Nat :=
  (orShift (orShift (orShift (orShift (orShift (orShift
    ((x + 18446744073709551615) % 18446744073709551616) 1) 2) 4) 8) 16) 32 + 1) %
    18446744073709551616

/-- The bucket count computed by `CuckooTable::Reset(num_keys)`:
`UpperPower2(ceil(1.0/frac * (num_keys + 4 - 1) / 4))`.  The sum
`num_keys + kItemsPerBucket - 1` is `uint32` arithmetic and wraps mod
`2^32`; since `num_keys + 4` never underflows, its `uint32` value is
exactly `(num_keys + 3) % 2^32`, i.e. `u32 (numKeys + 3)`.  The `double`
expression is modelled in exact rational arithmetic. -/
def cuckooNumBuckets (frac : ℚ) (numKeys : Nat) : Nat :=
  upperPower2 (u64 ⌈1 / frac * (u32 (numKeys + 3) : ℚ) / 4⌉₊)

/-- State of a `CuckooBlock` after `Reset`: the bucket map (slot value 0 means
empty), the victim list, and the position in the random stream used to pick
eviction slots. -/
structure CuckooState where
  numBuckets : Nat
  table : Nat → Nat → Nat
  victims : List Nat
  rndIdx : Nat

/-- `CuckooBlock::Reset(num_keys)` (with an empty victim set, as after
construction). -/
def cuckooReset (frac : ℚ) (numKeys : Nat) : CuckooState :=
  { numBuckets := cuckooNumBuckets frac numKeys
    table := fun _ _ => 0
    victims := []
    rndIdx := 0 }

/-- `CuckooTable::Write(i, j, x)`. -/
def tableWrite (t : Nat → Nat → Nat) (i j x : Nat) : Nat → Nat → Nat :=
  fun i' j' => if i' = i ∧ j' = j then x else t i' j'

/-- Outcome of the slot scan inside `CuckooBlock::AddKey`: the fingerprint is
already present, an empty slot was found, or the bucket is full. -/
inductive ScanOut where
  | dup
  | empty (j : Nat)
  | full
deriving DecidableEq

/-- The `for (j = 0; j < 4; j++)` scan of one bucket, slot by slot. -/
def scanBucketGo (t : Nat → Nat → Nat) (i fp : Nat) : List Nat → ScanOut
  | [] => .full
  | j :: rest =>
    let cur := t i j
    if cur = fp then .dup
    else if cur = 0 then .empty j
    else scanBucketGo t i fp rest

/-- Scan the four slots of bucket `i` for `fp` or an empty slot. -/
def scanBucket (t : Nat → Nat → Nat) (i fp : Nat) : ScanOut :=
  scanBucketGo t i fp [0, 1, 2, 3]

/-- The eviction loop of `CuckooBlock::AddKey`: `remaining` counts the loop
iterations left (`max_cuckoo_moves - count`); when it reaches zero the carried
fingerprint goes to the victim set.  `rnd n` models the `n`-th value of
`rnd_.Next()`. -/
def cuckooAddLoop (E : CuckooEnv) (rnd : Nat → Nat) :
    Nat → Nat → CuckooState → Nat → Nat → CuckooState
  | 0, _, st, fp, _ => { st with victims := st.victims ++ [fp] }
  | Nat.succ r, count, st, fp, i =>
    match scanBucket st.table i fp with
    | .dup => st
    | .empty j => { st with table := tableWrite st.table i j fp }
    | .full =>
      if count ≠ 0 then
        let v := rnd st.rndIdx % 4
        let old := st.table i v
        let t' := tableWrite st.table i v fp
        cuckooAddLoop E rnd r (count + 1)
          { st with table := t', rndIdx := st.rndIdx + 1 } old
          (cuckooAlt E i old % st.numBuckets)
      else
        cuckooAddLoop E rnd r (count + 1) st fp (cuckooAlt E i fp % st.numBuckets)

/-- `CuckooBlock::AddKey(key)`. -/
def cuckooAddKey (E : CuckooEnv) (rnd : Nat → Nat) (maxMoves bitsPerKey : Nat)
    (st : CuckooState) (key : List Byte) : CuckooState :=
  cuckooAddLoop E rnd maxMoves 0 st (cuckooFingerprint E key bitsPerKey)
    (E.keyHash key % st.numBuckets)

/-- A finished cuckoo filter: the bucket map plus the two trailer values
(`num_buckets`, `bits_per_key`). -/
structure CuckooFinished where
  numBuckets : Nat
  bitsPerKey : Nat
  table : Nat → Nat → Nat

/-- `CuckooBlock::Finish` (victims are dropped, not persisted). -/
def cuckooFinish (bitsPerKey : Nat) (st : CuckooState) : CuckooFinished :=
  { numBuckets := st.numBuckets, bitsPerKey := bitsPerKey, table := st.table }

/-- The byte layout of `CuckooBlock::Finish`: the serialized bucket array
followed by `PutFixed32(num_buckets)` and `PutFixed32(bits_per_key)`. -/
def cuckooFinishBytes (body : List Byte) (numBuckets bitsPerKey : Nat) : List Byte :=
  body ++ putFixed32 numBuckets ++ putFixed32 bitsPerKey

/-- `CuckooReader::Read(i, j)`: zero for a bucket index beyond the array,
slot index taken mod 4. -/
def cuckooReaderRead (F : CuckooFinished) (i j : Nat) : Nat :=
  if F.numBuckets ≤ i then 0 else F.table i (j % 4)

/-- `CuckooKeyTester::operator()`: probe the four slots of the two candidate
buckets `i1 = hash % num_buckets` and `i2 = CuckooAlt(i1, fp) % num_buckets`. -/
def cuckooKeyTester (E : CuckooEnv) (F : CuckooFinished) (key : List Byte) : Bool :=
  let fp := cuckooFingerprint E key F.bitsPerKey
  let i1 := E.keyHash key % F.numBuckets
  let i2 := cuckooAlt E i1 fp % F.numBuckets
  (List.range 4).any fun j =>
    cuckooReaderRead F i1 j == fp || cuckooReaderRead F i2 j == fp

/-- `CuckooKeyMayMatch`: dispatch on the `bits_per_key` trailer value (the
blob of a finished filter is always at least 8 bytes, so the `len < 8` guard
cannot fire for filters this writer produced). -/
def cuckooKeyMayMatch (E : CuckooEnv) (F : CuckooFinished) (key : List Byte) : Bool :=
  if F.bitsPerKey = 32 ∨ F.bitsPerKey = 24 ∨ F.bitsPerKey = 20 ∨ F.bitsPerKey = 16 ∨
      F.bitsPerKey = 10 then
    cuckooKeyTester E F key
  else true

/-! ## Bit-stream helpers shared by the bitmap formats -/

/-- `LeftMostOneBit(i)`: bit length of `i` (`32 - clz`, 0 for 0). -/
def leftMostOneBit (n : Nat) : Nat := if n = 0 then 0 else Nat.log2 n + 1

/-- The eight bits of a byte, most significant first (the order both the
encoders and the decoders traverse, `byte_index` from 7 down to 0). -/
def bitsOfByte (b : Byte) : List Bool := (List.range 8).map fun t => b.testBit (7 - t)

/-- The bit stream of a byte string, most significant bit of each byte first. -/
def bitsOfBytes (bs : List Byte) : List Bool := (bs.map bitsOfByte).flatten

/-- Value of a big-endian bit string (`runLen |= bit << runLen_index` with
`runLen_index` descending). -/
def valOfBits (c : List Bool) : Nat :=
  c.foldl (fun a bit => 2 * a + (if bit then 1 else 0)) 0

/-- The `w` bits of `d`, most significant first (`dis_index` from `w-1` down
to 0). -/
def bitsValBE (w d : Nat) : List Bool := (List.range w).map fun t => d.testBit (w - 1 - t)

/-- A byte built from at most 8 leading bits (a trailing partial byte keeps its
bits in the high positions, the tail is zero). -/
def byteOfBits (c : List Bool) : Byte := valOfBits c <<< (8 - c.length)

/-- Pack a bit stream into bytes, eight bits per byte, flushing a trailing
partial byte high-aligned (the `b` / `byte_index` accumulator of the source). -/
def packBits (bs : List Bool) : List Byte :=
  if bs = [] then [] else byteOfBits (bs.take 8) :: packBits (bs.drop 8)
termination_by bs.length
decreasing_by
  simp only [List.length_drop]
  cases bs with
  | nil => simp_all
  | cons b rest => simp; omega

/-- Sum of the first `n` consecutive `w`-bit big-endian values of a bit
stream (the bucket-length walk of the Roaring decoders). -/
def sumVals (w : Nat) (bits : List Bool) : Nat → Nat
  | 0 => 0
  | Nat.succ n => sumVals w bits n + valOfBits ((bits.drop (n * w)).take w)

/-! ## Bitmap filters: shared staging (`CompressedFormat`) -/

/-- Staging state shared by the five compressed bitmap formats: the flat
`working_space_` byte string (`bucket_num_` buckets of `bucket_size_` bytes,
byte 0 of each bucket its key counter) and the overflow vector. -/
structure CFmt where
  keyBits : Nat
  bucketNum : Nat
  bucketSize : Nat
  workingSpace : List Byte
  overflowed : List Nat

/-- `CompressedFormat::Reset(num_keys)`. -/
def cfmtReset (keyBits numKeys : Nat) : CFmt :=
  let bn := 2 ^ (keyBits - 8)
  let bs := (numKeys + bn - 1) / bn + 1
  { keyBits := keyBits, bucketNum := bn, bucketSize := bs
    workingSpace := List.replicate (bs * bn) 0
    overflowed := [] }

/-- `CompressedFormat::Set(i)`: append the low byte of `i` to bucket `i >> 8`
if the bucket still has room, otherwise push `i` to the overflow vector;
either way increment the bucket's (8-bit) key counter. -/
def cfmtSet (st : CFmt) (i : Nat) : CFmt :=
  let b := i >>> 8
  let keyIndex := st.workingSpace.getD (b * st.bucketSize) 0
  if keyIndex < st.bucketSize - 1 then
    let ws1 := st.workingSpace.set (b * st.bucketSize + keyIndex + 1) (i % 256)
    { st with workingSpace := ws1.set (b * st.bucketSize) ((keyIndex + 1) % 256) }
  else
    { st with
      overflowed := st.overflowed ++ [i]
      workingSpace := st.workingSpace.set (b * st.bucketSize) ((keyIndex + 1) % 256) }

/-- The `bucket_keys` reconstruction of the `Finish` loops (full key values):
the first `min(key_num, bucket_size-1)` entries come from the working space
(low byte plus `bucket << 8`), the rest are taken in order from the sorted
overflow vector; returns the keys and the unconsumed overflow. -/
def bucketKeysFull (ws : List Byte) (bs b : Nat) (ov : List Nat) :
    List Nat × List Nat :=
  let keyNum := ws.getD (bs * b) 0
  let m := min keyNum (bs - 1)
  let wsPart := (List.range m).map fun j => ws.getD (bs * b + 1 + j) 0 + b * 256
  (wsPart ++ ov.take (keyNum - m), ov.drop (keyNum - m))

/-- The Roaring variant of the reconstruction: low bytes only
(`overflowed[..] & 255`). -/
def bucketKeysLow (ws : List Byte) (bs b : Nat) (ov : List Nat) :
    List Byte × List Nat :=
  let keyNum := ws.getD (bs * b) 0
  let m := min keyNum (bs - 1)
  let wsPart := (List.range m).map fun j => ws.getD (bs * b + 1 + j) 0
  (wsPart ++ (ov.take (keyNum - m)).map (· % 256), ov.drop (keyNum - m))

/-! ## Varint and varint-plus bitmap formats -/

/-- The gap encoder of `VarintFormat::Finish` (7 data bits per byte,
continuation in the high bit, least-significant group first). -/
def varintEnc (d : Nat) : List Byte :=
  if d < 128 then [d] else (d % 128 + 128) :: varintEnc (d / 128)
termination_by d
decreasing_by exact Nat.div_lt_self (by omega) (by omega)

/-- The gap encoder of `VarintPlusFormat::Finish`: gaps up to 254 in one
byte, larger gaps as `255` followed by `varint(gap - 254)`. -/
def varintPlusEnc (d : Nat) : List Byte :=
  if d ≤ 254 then [d] else 255 :: varintEnc (d - 254)

/-- Emit the gap encodings of a (sorted) key list, threading `last_one`;
`dist64` models the `size_t` subtraction `*it - last_one`. -/
def emitGaps (enc : Nat → List Byte) : Nat → List Nat → List Byte × Nat
  | lastOne, [] => ([], lastOne)
  | lastOne, x :: xs =>
    let (bytes, last') := emitGaps enc x xs
    (enc (dist64 x lastOne) ++ bytes, last')

/-- The common bucket loop of `VarintFormat::Finish` and
`VarintPlusFormat::Finish`: reconstruct each bucket's keys, sort them, emit
their gap encodings. -/
def gapFinishGo (enc : Nat → List Byte) (ws : List Byte) (bs : Nat) :
    List Nat → List Nat → Nat → List Byte
  | [], _, _ => []
  | b :: rest, ov, lastOne =>
    let (keys, ov') := bucketKeysFull ws bs b ov
    let sorted := keys.insertionSort (· ≤ ·)
    let (bytes, last') := emitGaps enc lastOne sorted
    bytes ++ gapFinishGo enc ws bs rest ov' last'

/-- `VarintFormat::Finish` (`std::sort` is modelled by `insertionSort`, which
produces the same ascending order). -/
def varintFinish (st : CFmt) : List Byte :=
  gapFinishGo varintEnc st.workingSpace st.bucketSize (List.range st.bucketNum)
    (st.overflowed.insertionSort (· ≤ ·)) 0

/-- `VarintPlusFormat::Finish`. -/
def varintPlusFinish (st : CFmt) : List Byte :=
  gapFinishGo varintPlusEnc st.workingSpace st.bucketSize (List.range st.bucketNum)
    (st.overflowed.insertionSort (· ≤ ·)) 0

/-- Number of continuation bytes (high bit set) at the head of the input: the
bytes the decoder's inner `while` consumes before the final byte. -/
def vContLen : List Byte → Nat
  | [] => 0
  | b :: rest => if b &&& 128 ≠ 0 then 1 + vContLen rest else 0

/-- The varint value read at the head of the input
(`runLen += (input[i] & 127) << bytes`, final byte without the mask). -/
def varintVal : List Byte → Nat → Nat
  | [], _ => 0
  | b :: rest, shiftBits =>
    if b &&& 128 ≠ 0 then ((b &&& 127) <<< shiftBits) + varintVal rest (shiftBits + 7)
    else b <<< shiftBits

/-- The scan loop of `VarintFormat::Test`: decode successive gaps, comparing
the running index against the target bit. -/
def varintTestGo (bit : Nat) : List Byte → Nat → Bool
  | [], _ => false
  | b :: rest, index =>
    let runLen := varintVal (b :: rest) 0
    let rest' := (b :: rest).drop (vContLen (b :: rest) + 1)
    if index + runLen = bit then true
    else if bit < index + runLen then false
    else varintTestGo bit rest' (index + runLen)
termination_by input => input.length
decreasing_by simp only [List.length_drop, List.length_cons]; omega

/-- `VarintFormat::Test(bit, key_bits, input)`. -/
def varintTest (bit keyBits : Nat) (input : List Byte) : Bool :=
  varintTestGo bit input 0

/-- The scan loop of `VarintPlusFormat::Test`: a byte below 255 is the gap
itself; a 255 byte is followed by `varint(gap - 254)`. -/
def varintPlusTestGo (bit : Nat) : List Byte → Nat → Bool
  | [], _ => false
  | b :: rest, index =>
    let runLen := if b ≠ 255 then b else 254 + varintVal rest 0
    let rest' := if b ≠ 255 then rest else rest.drop (vContLen rest + 1)
    if index + runLen = bit then true
    else if bit < index + runLen then false
    else varintPlusTestGo bit rest' (index + runLen)
termination_by input => input.length
decreasing_by
  simp only [List.length_cons]
  split <;> (try simp only [List.length_drop]) <;> omega

/-- `VarintPlusFormat::Test(bit, key_bits, input)`. -/
def varintPlusTest (bit keyBits : Nat) (input : List Byte) : Bool :=
  varintPlusTestGo bit input 0

/-! ## pForDelta bitmap format -/

/-- `PForDeltaFormat::EncodingCohort`: one header byte
`bit_num = LeftMostOneBit(cohort_or)` (with `cohort_or` the bitwise or of the
cohort's gaps), then each gap packed big-endian into `bit_num` bits, a trailing
partial byte flushed high-aligned. -/
def encodingCohort (cohort : List Nat) : List Byte :=
  let bitNum := leftMostOneBit (cohort.foldl (· ||| ·) 0)
  bitNum :: packBits ((cohort.map fun d => bitsValBE bitNum d).flatten)

/-- The per-bucket gap loop of `PForDeltaFormat::Finish`: push each gap into
the current cohort, flushing a cohort whenever it reaches 128 entries; returns
the emitted bytes, the new `last_one` and the open cohort. -/
def pfdEmit : List Nat → Nat → List Nat → List Byte × Nat × List Nat
  | [], lastOne, cohort => ([], lastOne, cohort)
  | x :: xs, lastOne, cohort =>
    let c' := cohort ++ [dist64 x lastOne]
    if c'.length = 128 then
      let (bytes, l', c'') := pfdEmit xs x []
      (encodingCohort c' ++ bytes, l', c'')
    else pfdEmit xs x c'

/-- The bucket loop of `PForDeltaFormat::Finish`, threading the overflow
vector, `last_one` and the open cohort; a final partial cohort is flushed at
the end. -/
def pfdFinishGo (ws : List Byte) (bs : Nat) :
    List Nat → List Nat → Nat → List Nat → List Byte
  | [], _, _, cohort => if cohort.length > 0 then encodingCohort cohort else []
  | b :: rest, ov, lastOne, cohort =>
    let (keys, ov') := bucketKeysFull ws bs b ov
    let sorted := keys.insertionSort (· ≤ ·)
    let (bytes, l', c') := pfdEmit sorted lastOne cohort
    bytes ++ pfdFinishGo ws bs rest ov' l' c'

/-- `PForDeltaFormat::Finish`. -/
def pForDeltaFinish (st : CFmt) : List Byte :=
  pfdFinishGo st.workingSpace st.bucketSize (List.range st.bucketNum)
    (st.overflowed.insertionSort (· ≤ ·)) 0 []

/-- The value loop of `PForDeltaFormat::Test`: read `cnt` consecutive `w`-bit
big-endian values off the bit stream, comparing the running index with the
target; `Sum.inl` is an early return, `Sum.inr` the index after the cohort.
Running out of bits mid-value returns false, as the source does when `i`
reaches the input size. -/
def pfdReadVals (w bit : Nat) : Nat → List Bool → Nat → Bool ⊕ Nat
  | 0, _, index => Sum.inr index
  | Nat.succ c, bits, index =>
    if bits.length < w then Sum.inl false
    else
      let runLen := valOfBits (bits.take w)
      if index + runLen = bit then Sum.inl true
      else if bit < index + runLen then Sum.inl false
      else pfdReadVals w bit c (bits.drop w) (index + runLen)

/-- The cohort loop of `PForDeltaFormat::Test`.  Each iteration reads the
header byte `bit_num`, computes
`cohort_num = min(128, remaining_bytes * 8 / bit_num)` — for a zero header
byte the C++ divides by zero (undefined behaviour); the model follows Lean's
`x / 0 = 0` — then reads that many values, and continues past the consumed
bytes. -/
def pForDeltaTestGo (bit : Nat) : List Byte → Nat → Bool
  | [], _ => false
  | bitNum :: rest, index =>
    let cohortNum := min 128 (rest.length * 8 / bitNum)
    match pfdReadVals bitNum bit cohortNum (bitsOfBytes rest) index with
    | Sum.inl r => r
    | Sum.inr index' => pForDeltaTestGo bit (rest.drop ((cohortNum * bitNum + 7) / 8)) index'
termination_by input => input.length
decreasing_by simp only [List.length_drop, List.length_cons]; omega

/-- `PForDeltaFormat::Test(bit, key_bits, input)`. -/
def pForDeltaTest (bit keyBits : Nat) (input : List Byte) : Bool :=
  pForDeltaTestGo bit input 0

/-! ## Roaring and partitioned Roaring bitmap formats -/

/-- Roaring staging state: the shared staging plus
`bucket_size_max_bit_`, the bitwise or of every counter value ever stored
(`key_index + 1` as an `int`, so 256 — not 0 — after the 256th key of a
bucket). -/
structure RFmt where
  cf : CFmt
  maxBit : Nat

/-- `RoaringFormat::Reset`. -/
def roaringReset (keyBits numKeys : Nat) : RFmt :=
  { cf := cfmtReset keyBits numKeys, maxBit := 0 }

/-- `RoaringFormat::Set` (a verbatim copy of `CompressedFormat::Set` in the
source, plus the max-bit update). -/
def roaringSet (st : RFmt) (i : Nat) : RFmt :=
  let keyIndex := st.cf.workingSpace.getD ((i >>> 8) * st.cf.bucketSize) 0
  { cf := cfmtSet st.cf i, maxBit := st.maxBit ||| (keyIndex + 1) }

/-- One step of the bucket-length bit accumulator of `RoaringFormat::Finish`
(`bucket_len_byte` / `bucket_len_bit_idx`): or the bit into position `bi`,
flushing the byte into the header region when `bi` reaches 0.  The state is
(space, next header byte index, accumulator byte, bit index). -/
def lenPush (st4 : List Byte × Nat × Byte × Nat) (bitVal : Bool) :
    List Byte × Nat × Byte × Nat :=
  let (space, idx, b, bi) := st4
  let b' := b ||| (if bitVal then 1 <<< bi else 0)
  if bi = 0 then (space.set idx b', idx + 1, 0, 7)
  else (space, idx, b', bi - 1)

/-- The bucket loop shared by `RoaringFormat::Finish` and
`PRoaringFormat::Finish` (the source duplicates it verbatim): for each bucket,
reconstruct and sort its low-byte keys, pack the bucket's key count into the
`w`-bit length array, and append the sorted bytes to the buffer. -/
def roaringGo (ws : List Byte) (bs w : Nat) :
    List Nat → List Nat → List Byte × Nat × Byte × Nat → List Byte × Nat × Byte × Nat
  | [], _, st4 => st4
  | b :: rest, ov, (space, idx, lb, bi) =>
    let keyNum := ws.getD (bs * b) 0
    let (lows, ov') := bucketKeysLow ws bs b ov
    let sorted := lows.insertionSort (· ≤ ·)
    let (space1, idx1, lb1, bi1) := (bitsValBE w keyNum).foldl lenPush (space, idx, lb, bi)
    roaringGo ws bs w rest ov' (space1 ++ sorted, idx1, lb1, bi1)

/-- `RoaringFormat::Finish`: `[bits_per_len]`, the packed bucket-length array,
then the sorted per-bucket offset bytes; a trailing partial length byte is
stored after the loop. -/
def roaringFinish (st : RFmt) : List Byte :=
  let w := leftMostOneBit st.maxBit
  let bn := st.cf.bucketNum
  let space0 := (List.replicate (1 + (w * bn + 7) / 8) 0).set 0 w
  let (space1, idx1, lb1, bi1) :=
    roaringGo st.cf.workingSpace st.cf.bucketSize w (List.range bn)
      (st.cf.overflowed.insertionSort (· ≤ ·)) (space0, 1, 0, 7)
  if bi1 ≠ 7 then space1.set idx1 lb1 else space1

/-- The early-exit scan over a sorted bucket of offset bytes
(`key_offset == target → true`, `key_offset > target → false`). -/
def roaringScan (target : Byte) (input : List Byte) : Nat → Nat → Bool
  | _, 0 => false
  | i, Nat.succ c =>
    let keyOffset := input.getD i 0
    if keyOffset = target then true
    else if target < keyOffset then false
    else roaringScan target input (i + 1) c

/-- `RoaringFormat::Test(bit, key_bits, input)`: walk the first
`bit >> 8` bucket lengths to find the bucket's byte offset, read the bucket's
own length, then scan its sorted offset bytes for `bit & 255`. -/
def roaringTest (bit keyBits : Nat) (input : List Byte) : Bool :=
  let bucketIdx := bit >>> 8
  let w := input.getD 0 0
  let lenBits := bitsOfBytes (input.drop 1)
  let offset := sumVals w lenBits bucketIdx
  let bucketSize := valOfBits ((lenBits.drop (bucketIdx * w)).take w)
  let start := 1 + ((1 <<< (keyBits - 8)) * w + 7) / 8 + offset
  roaringScan (bit % 256) input start bucketSize

/-- Partitioned-Roaring staging state: the Roaring state plus the `uint16`
per-partition key counters. -/
structure PRFmt where
  cf : CFmt
  maxBit : Nat
  partitionNum : Nat
  partitionSum : List Nat

/-- `PRoaringFormat::PRoaringFormat` + `Reset`:
`partition_num_ = bucket_num_ >> 8`, zeroed partition counters. -/
def pRoaringReset (keyBits numKeys : Nat) : PRFmt :=
  let cf := cfmtReset keyBits numKeys
  { cf := cf, maxBit := 0, partitionNum := cf.bucketNum >>> 8
    partitionSum := List.replicate (cf.bucketNum >>> 8) 0 }

/-- `PRoaringFormat::Set`: the shared staging update plus the max-bit or and
the `uint16` increment of the partition counter. -/
def pRoaringSet (st : PRFmt) (i : Nat) : PRFmt :=
  let keyIndex := st.cf.workingSpace.getD ((i >>> 8) * st.cf.bucketSize) 0
  let p := (i >>> 8) >>> 8
  { st with
    cf := cfmtSet st.cf i
    maxBit := st.maxBit ||| (keyIndex + 1)
    partitionSum := st.partitionSum.set p ((st.partitionSum.getD p 0 + 1) % 65536) }

/-- Write the `uint16` partition sums little-endian at bytes `2i`, `2i+1`. -/
def writeSumsGo (space : List Byte) : List Nat → Nat → List Byte
  | [], _ => space
  | s :: rest, i => writeSumsGo ((space.set (2 * i) (s % 256)).set (2 * i + 1) (s / 256 % 256)) rest (i + 1)

/-- `PRoaringFormat::Finish`: the `2*partition_num` partition-sum bytes, the
`bits_per_len` byte, the packed bucket-length array, then the sorted
per-bucket offset bytes (the bucket loop is the shared `roaringGo`). -/
def pRoaringFinish (st : PRFmt) : List Byte :=
  let pn := st.partitionNum
  let w := leftMostOneBit st.maxBit
  let bn := st.cf.bucketNum
  let space0 := writeSumsGo (List.replicate (2 * pn + 1) 0) st.partitionSum 0
  let space1 := space0.set (2 * pn) w
  let space2 := space1 ++ List.replicate ((w * bn + 7) / 8) 0
  let (space3, idx3, lb3, bi3) :=
    roaringGo st.cf.workingSpace st.cf.bucketSize w (List.range bn)
      (st.cf.overflowed.insertionSort (· ≤ ·)) (space2, 2 * pn + 1, 0, 7)
  if bi3 ≠ 7 then space3.set idx3 lb3 else space3

/-- The partition-table walk of `PRoaringFormat::Test`:
`offset += input[2*i] + (input[2*i+1] << 8)` with both bytes read through a
plain (signed) `char`, so a byte of 128 or more contributes negatively. -/
def partOffset (input : List Byte) (p : Nat) : Int :=
  (List.range p).foldl
    (fun acc i => acc + (asSigned (input.getD (2 * i) 0) + asSigned (input.getD (2 * i + 1) 0) * 256)) 0

/-- `PRoaringFormat::Test(bit, key_bits, input)`: skip whole partitions via
the `uint16` lookup table, walk the partition-local bucket lengths, then scan
the bucket's sorted offset bytes.  The `size_t` offset arithmetic (which can
wrap when the signed partition-table read goes negative) is modelled with
`Int` and a final `2^64` wrap. -/
def pRoaringTest (bit keyBits : Nat) (input : List Byte) : Bool :=
  let partitionIdx := bit >>> 16
  let bucketIdx := (bit &&& 65280) >>> 8
  let bucketNumber := 1 <<< (keyBits - 8)
  let pn := bucketNumber >>> 8
  let offInt : Int := partOffset input partitionIdx
  let w := input.getD (2 * pn) 0
  let lenByteIdx := 2 * pn + 1 + ((w * partitionIdx) <<< 5)
  let lenBits := bitsOfBytes (input.drop lenByteIdx)
  let offBuckets := sumVals w lenBits bucketIdx
  let bucketSize := valOfBits ((lenBits.drop (bucketIdx * w)).take w)
  let start :=
    (((2 * pn + 1 + (bucketNumber * w + 7) / 8 + offBuckets : Nat) + offInt) % (18446744073709551616 : Int)).toNat
  roaringScan (bit % 256) input start bucketSize

/-! ## `BitmapBlock` wrapper and `BitmapKeyMustMatch` -/

/-- `BitmapIndex(key)`: the first four key bytes as a little-endian 32-bit
integer, shorter keys zero-padded. -/
def bitmapIndexOf (key : List Byte) : Nat := decodeFixed32 (key.take 4)

/-- `mask_ = ~(~0u << key_bits)` (well defined for `key_bits ≤ 31`; for
`key_bits = 32` the C++ shift is undefined behaviour). -/
def bitmapMask (keyBits : Nat) : Nat := 2 ^ keyBits - 1

/-- Run one bitmap filter construction: `Reset(num_keys)`, one `Set` per
derived index, the format's `Finish`.  `idxs` are the already-masked indices
`BitmapIndex(key) & mask_` in insertion order. -/
def bitmapRun (fmt : BitmapFormatType) (keyBits numKeys : Nat) (idxs : List Nat) : List Byte :=
  match fmt with
  | .kUncompressedBitmap =>
    idxs.foldl (fun sp i => orByte sp (i / 8) (1 <<< (i % 8)))
      (List.replicate ((2 ^ keyBits + 7) / 8) 0)
  | .kVarintBitmap => varintFinish (idxs.foldl cfmtSet (cfmtReset keyBits numKeys))
  | .kVarintPlusBitmap => varintPlusFinish (idxs.foldl cfmtSet (cfmtReset keyBits numKeys))
  | .kPForDeltaBitmap => pForDeltaFinish (idxs.foldl cfmtSet (cfmtReset keyBits numKeys))
  | .kRoaringBitmap => roaringFinish (idxs.foldl roaringSet (roaringReset keyBits numKeys))
  | .kPRoaringBitmap => pRoaringFinish (idxs.foldl pRoaringSet (pRoaringReset keyBits numKeys))

/-- `BitmapBlock<T>::Finish`: the format's buffer plus the two trailer bytes
`key_bits` and the format id. -/
def bitmapBlockFinish (fmt : BitmapFormatType) (keyBits numKeys : Nat) (idxs : List Nat) :
    List Byte :=
  bitmapRun fmt keyBits numKeys idxs ++ [keyBits, bitmapFormatByte fmt]

/-- `UncompressedFormat::Test(i, key_bits, input)`. -/
def uncompressedTest (i keyBits : Nat) (input : List Byte) : Bool :=
  if i < input.length * 8 then (input.getD (i / 8) 0 &&& (1 <<< (i % 8))) ≠ 0
  else false

/-- `BitmapKeyMustMatch(key, input)`: under 2 bytes means empty (no match);
recover `key_bits` from the second-to-last byte, reject out-of-domain indices,
then dispatch on the format id in the last byte (an unknown id matches
conservatively).  `1u << key_bits` is well defined for `key_bits ≤ 31`. -/
def bitmapKeyMustMatch (key : List Byte) (input : List Byte) : Bool :=
  if input.length < 2 then false
  else
    let bitmap := input.take (input.length - 2)
    let i := bitmapIndexOf key
    let keyBits := input.getD (input.length - 2) 0
    if 2 ^ keyBits ≤ i then false
    else
      let compression := input.getD (input.length - 1) 0
      if compression = bitmapFormatByte .kUncompressedBitmap then uncompressedTest i keyBits bitmap
      else if compression = bitmapFormatByte .kVarintBitmap then varintTest i keyBits bitmap
      else if compression = bitmapFormatByte .kVarintPlusBitmap then varintPlusTest i keyBits bitmap
      else if compression = bitmapFormatByte .kPForDeltaBitmap then pForDeltaTest i keyBits bitmap
      else if compression = bitmapFormatByte .kRoaringBitmap then roaringTest i keyBits bitmap
      else if compression = bitmapFormatByte .kPRoaringBitmap then pRoaringTest i keyBits bitmap
      else true

/-! ## Specification-side helpers for the bitmap proofs -/

/-- The elements of `l` that fall into bucket `b` (high bits `b`), in order. -/
def bucketElems (b : Nat) (l : List Nat) : List Nat := l.filter fun i => i / 256 = b

/-- The gap sequence of a key list relative to a running `last_one`. -/
def gapsList (lastOne : Nat) : List Nat → List Nat
  | [] => []
  | x :: xs => dist64 x lastOne :: gapsList x xs

/-- The scan semantics shared by the gap decoders: consume gaps, comparing the
running index with the target; `Sum.inl` is an early answer, `Sum.inr` the
index after all gaps. -/
def gapRun (bit : Nat) : List Nat → Nat → Bool ⊕ Nat
  | [], index => Sum.inr index
  | g :: gs, index =>
    if index + g = bit then Sum.inl true
    else if bit < index + g then Sum.inl false
    else gapRun bit gs (index + g)

/-- The boolean result of a full gap scan (false when the gaps run out). -/
def gapScan (bit : Nat) (gs : List Nat) (index : Nat) : Bool :=
  match gapRun bit gs index with
  | Sum.inl r => r
  | Sum.inr _ => false

/-- The complete 128-gap cohorts of a gap stream. -/
def chunksFull (s : List Nat) : List (List Nat) :=
  if h : s.length < 128 then []
  else s.take 128 :: chunksFull (s.drop 128)
termination_by s.length
decreasing_by simp only [List.length_drop]; omega

/-- The trailing partial cohort (possibly empty) of a gap stream. -/
def chunksRem (s : List Nat) : List Nat :=
  if h : s.length < 128 then s
  else chunksRem (s.drop 128)
termination_by s.length
decreasing_by simp only [List.length_drop]; omega

/-- All cohorts of a gap stream: complete 128-gap cohorts plus a final short
one (as `PForDeltaFormat::Finish` flushes them). -/
def chunks128 (s : List Nat) : List (List Nat) :=
  if s = [] then []
  else if h : s.length < 128 then [s]
  else s.take 128 :: chunks128 (s.drop 128)
termination_by s.length
decreasing_by simp only [List.length_drop]; omega

/-! ## Specification predicates for the cuckoo invariants -/

/-- A fingerprint value `fp` is legitimately placeable in bucket `i`: some
added key has this fingerprint and `i` is one of the key's two candidate
buckets (`i = CuckooHash(key) % nb` or `CuckooAlt(i, fp) % nb` is). -/
def cuckooValOK (E : CuckooEnv) (bits : Nat) (keys : List (List Byte)) (nb i fp : Nat) : Prop :=
  ∃ key ∈ keys, cuckooFingerprint E key bits = fp ∧
    (i = E.keyHash key % nb ∨ cuckooAlt E i fp % nb = E.keyHash key % nb)

/-- The table invariant of C10: every occupied slot is in range and holds a
fingerprint sitting in one of its two candidate buckets. -/
def cuckooSlotOK (E : CuckooEnv) (bits : Nat) (keys : List (List Byte)) (nb : Nat)
    (t : Nat → Nat → Nat) : Prop :=
  ∀ i j, j < 4 → t i j ≠ 0 → i < nb ∧ cuckooValOK E bits keys nb i (t i j)

/-- A key is served by the table: its fingerprint is stored in one of its two
candidate buckets, which is exactly what `CuckooKeyTester` probes. -/
def cuckooServed (E : CuckooEnv) (bits nb : Nat) (t : Nat → Nat → Nat) (key : List Byte) : Prop :=
  ∃ j, j < 4 ∧
    (t (E.keyHash key % nb) j = cuckooFingerprint E key bits ∨
      t (cuckooAlt E (E.keyHash key % nb) (cuckooFingerprint E key bits) % nb) j =
        cuckooFingerprint E key bits)

/-! # Theorems -/

/-! ## Generic byte/bit lemmas -/

theorem u32_lt (n : Nat) : u32 n < 4294967296 := Nat.mod_lt _ (by omega)

theorem one_shiftLeft_eq_pow (r : Nat) : (1 : Nat) <<< r = 2 ^ r := by
  simp [Nat.shiftLeft_eq]

theorem and_pow_ne_zero_iff (x r : Nat) : x &&& 2 ^ r ≠ 0 ↔ x.testBit r = true := by
  rw [Nat.and_two_pow]
  rcases h : x.testBit r <;> simp [h]

theorem orByte_length (sp : List Byte) (i m : Nat) : (orByte sp i m).length = sp.length := by
  simp [orByte]

theorem orByte_getD_ne (sp : List Byte) (i m j : Nat) (h : j ≠ i) :
    (orByte sp i m).getD j 0 = sp.getD j 0 := by
  simp [orByte, List.getD, List.getElem?_set_ne (Ne.symm h)]

theorem orByte_getD_self (sp : List Byte) (i m : Nat) (h : i < sp.length) :
    (orByte sp i m).getD i 0 = sp.getD i 0 ||| m := by
  simp [orByte, List.getD, List.getElem?_set_self h, List.getElem?_eq_getElem h]

theorem orByte_getD_oob (sp : List Byte) (i m : Nat) (h : ¬ i < sp.length) :
    (orByte sp i m).getD i 0 = sp.getD i 0 := by
  simp only [orByte]
  rw [List.set_eq_of_length_le (by omega)]

theorem orByte_testBit_mono (sp : List Byte) (i m j r : Nat)
    (h : (sp.getD j 0).testBit r = true) : ((orByte sp i m).getD j 0).testBit r = true := by
  by_cases hij : j = i
  · subst hij
    by_cases hlt : j < sp.length
    · rw [orByte_getD_self sp j m hlt, Nat.testBit_or, h, Bool.true_or]
    · rwa [orByte_getD_oob sp j m hlt]
  · rwa [orByte_getD_ne sp i m j hij]

theorem orByte_testBit_self (sp : List Byte) (i r : Nat) (hlt : i < sp.length) :
    ((orByte sp i (1 <<< r)).getD i 0).testBit r = true := by
  rw [orByte_getD_self sp i _ hlt, Nat.testBit_or, one_shiftLeft_eq_pow,
    Nat.testBit_two_pow_self, Bool.or_true]

theorem probeFold_length (ps : List Nat) (sp : List Byte) :
    (ps.foldl (fun sp b => orByte sp (b / 8) (1 <<< (b % 8))) sp).length = sp.length := by
  induction ps generalizing sp with
  | nil => rfl
  | cons p ps ih => simp [List.foldl_cons, ih, orByte_length]

theorem probeFold_mono (ps : List Nat) (sp : List Byte) (j r : Nat)
    (h : (sp.getD j 0).testBit r = true) :
    ((ps.foldl (fun sp b => orByte sp (b / 8) (1 <<< (b % 8))) sp).getD j 0).testBit r = true := by
  induction ps generalizing sp with
  | nil => exact h
  | cons p ps ih => exact ih _ (orByte_testBit_mono _ _ _ _ _ h)

theorem probeFold_sets (ps : List Nat) (sp : List Byte) (b : Nat) (hmem : b ∈ ps)
    (hlt : b / 8 < sp.length) :
    (((ps.foldl (fun sp b => orByte sp (b / 8) (1 <<< (b % 8))) sp).getD (b / 8) 0).testBit
      (b % 8)) = true := by
  induction ps generalizing sp with
  | nil => cases hmem
  | cons p ps ih =>
    rcases List.mem_cons.mp hmem with hb | hb
    · subst hb
      exact probeFold_mono ps _ _ _ (orByte_testBit_self sp (b / 8) (b % 8) hlt)
    · exact ih _ hb (by rwa [orByte_length])

theorem bloomProbes_lt (bits : Nat) (hb : 0 < bits) :
    ∀ j h d, ∀ b ∈ bloomProbes h d bits j, b < bits := by
  intro j
  induction j with
  | zero => intro h d b hb'; cases hb'
  | succ j ih =>
    intro h d b hmem
    rcases List.mem_cons.mp hmem with hb' | hb'
    · subst hb'; exact Nat.mod_lt _ hb
    · exact ih _ _ _ hb'

theorem bloomCheck_of_probes (input : List Byte) (bits : Nat) :
    ∀ j h d,
      (∀ b ∈ bloomProbes h d bits j, ((input.getD (b / 8) 0).testBit (b % 8)) = true) →
      bloomCheck h d bits input j = true := by
  intro j
  induction j with
  | zero => intro h d _; rfl
  | succ j ih =>
    intro h d hall
    have hhead : ((input.getD (h % bits / 8) 0).testBit (h % bits % 8)) = true :=
      hall _ (List.mem_cons_self _ _)
    have hmask : input.getD (h % bits / 8) 0 &&& 1 <<< (h % bits % 8) ≠ 0 := by
      rw [one_shiftLeft_eq_pow, and_pow_ne_zero_iff]
      exact hhead
    simp only [bloomCheck, beq_iff_eq]
    rw [if_neg hmask]
    exact ih _ _ fun b hb => hall _ (List.mem_cons_of_mem _ hb)

/-- The state invariant preserved by `bloomAddKey`: the buffer length, the
relation `bits_ = (len - 1) * 8`, the probe count, and the trailing `k` byte
never change. -/
theorem bloomAddKey_fields (st : BloomState) (h : Nat) :
    (bloomAddKey st h).space.length = st.space.length ∧
    (bloomAddKey st h).bits = st.bits ∧ (bloomAddKey st h).k = st.k := by
  refine ⟨?_, rfl, rfl⟩
  simp [bloomAddKey, probeFold_length]

theorem probeFold_untouched (ps : List Nat) (sp : List Byte) (j : Nat)
    (h : ∀ b ∈ ps, b / 8 ≠ j) :
    ((ps.foldl (fun sp b => orByte sp (b / 8) (1 <<< (b % 8))) sp).getD j 0) = sp.getD j 0 := by
  induction ps generalizing sp with
  | nil => rfl
  | cons p ps ih =>
    rw [List.foldl_cons, ih _ fun b hb => h b (List.mem_cons_of_mem _ hb),
      orByte_getD_ne _ _ _ _ (Ne.symm (h p (List.mem_cons_self _ _)))]

theorem bloomAddKey_trailer (st : BloomState) (h : Nat)
    (hbits : st.bits ≤ (st.space.length - 1) * 8) (hpos : 0 < st.bits) :
    (bloomAddKey st h).space.getD (st.space.length - 1) 0 =
      st.space.getD (st.space.length - 1) 0 := by
  simp only [bloomAddKey]
  refine probeFold_untouched _ _ _ fun b hb => ?_
  have hlt : b < st.bits := bloomProbes_lt st.bits hpos _ _ _ _ hb
  have : b < (st.space.length - 1) * 8 := lt_of_lt_of_le hlt hbits
  have : b / 8 < st.space.length - 1 := Nat.div_lt_of_lt_mul (by omega)
  omega

theorem bloomFold_fields (hs : List Nat) (st : BloomState) :
    (hs.foldl bloomAddKey st).space.length = st.space.length ∧
    (hs.foldl bloomAddKey st).bits = st.bits ∧ (hs.foldl bloomAddKey st).k = st.k := by
  induction hs generalizing st with
  | nil => exact ⟨rfl, rfl, rfl⟩
  | cons h hs ih =>
    obtain ⟨l1, b1, k1⟩ := ih (bloomAddKey st h)
    obtain ⟨l2, b2, k2⟩ := bloomAddKey_fields st h
    exact ⟨by rw [List.foldl_cons, l1, l2], by rw [List.foldl_cons, b1, b2],
      by rw [List.foldl_cons, k1, k2]⟩

theorem bloomFold_mono (hs : List Nat) (st : BloomState) (j r : Nat)
    (h : ((st.space.getD j 0).testBit r) = true) :
    (((hs.foldl bloomAddKey st).space.getD j 0).testBit r) = true := by
  induction hs generalizing st with
  | nil => exact h
  | cons h' hs ih =>
    exact ih (bloomAddKey st h') (probeFold_mono _ _ _ _ h)

theorem bloomFold_trailer (hs : List Nat) (st : BloomState)
    (hbits : st.bits ≤ (st.space.length - 1) * 8) (hpos : 0 < st.bits) :
    ((hs.foldl bloomAddKey st).space.getD (st.space.length - 1) 0) =
      st.space.getD (st.space.length - 1) 0 := by
  induction hs generalizing st with
  | nil => rfl
  | cons h' hs ih =>
    rw [List.foldl_cons]
    have hf := bloomAddKey_fields st h'
    have := ih (bloomAddKey st h') (by rw [hf.1, hf.2.1]; exact hbits) (by rw [hf.2.1]; exact hpos)
    rw [hf.1] at this
    rw [this, bloomAddKey_trailer st h' hbits hpos]

theorem bloomFold_sets (hs : List Nat) (st : BloomState) (h : Nat) (hmem : h ∈ hs)
    (hbits : st.bits ≤ (st.space.length - 1) * 8) (hpos : 0 < st.bits) :
    ∀ b ∈ bloomProbes (u32 h) (bloomDelta (u32 h)) st.bits st.k,
      (((hs.foldl bloomAddKey st).space.getD (b / 8) 0).testBit (b % 8)) = true := by
  induction hs generalizing st with
  | nil => cases hmem
  | cons h' hs ih =>
    intro b hb
    have hf := bloomAddKey_fields st h'
    rcases List.mem_cons.mp hmem with he | he
    · subst he
      rw [List.foldl_cons]
      refine bloomFold_mono hs (bloomAddKey st h) (b / 8) (b % 8) ?_
      have hblt : b < st.bits := bloomProbes_lt st.bits hpos _ _ _ _ hb
      have hdiv : b / 8 < st.space.length :=
        Nat.div_lt_of_lt_mul (by have := Nat.sub_le st.space.length 1; nlinarith [hbits])
      simpa [bloomAddKey] using probeFold_sets _ st.space b hb hdiv
    · rw [List.foldl_cons]
      have hb' : b ∈ bloomProbes (u32 h) (bloomDelta (u32 h)) (bloomAddKey st h').bits
          (bloomAddKey st h').k := by rw [hf.2.1, hf.2.2]; exact hb
      exact ih (bloomAddKey st h') he (by rw [hf.1, hf.2.1]; exact hbits)
        (by rw [hf.2.1]; exact hpos) b hb'

theorem bloomK_range (bpk : Nat) : 1 ≤ bloomK bpk ∧ bloomK bpk ≤ 30 := by
  unfold bloomK; omega

theorem replicate_append_getD (n a b : Nat) : ((List.replicate n a ++ [b]).getD n 0) = b := by
  simp [List.getD, List.getElem?_append_right, List.length_replicate]

/-- C2: for every sequence of keys (represented by their `BloomHash` values)
added to a `BloomBlock` between `Reset(n)` and `Finish()`, `BloomKeyMayMatch`
returns true on every added key.  The hypothesis rules out the degenerate
32-bit overflow corner (`bits_ + 7` wrapping, where `AddKey` would divide by
zero in C++); see the C5/C9 counterexamples. -/
theorem bloomBlock_no_false_negatives (bpk n : Nat) (hs : List Nat) (h : Nat)
    (hmem : h ∈ hs) (hbits : max 64 (u32 (n * bpk)) ≤ 4294967288) :
    bloomKeyMayMatch h (bloomFinish (hs.foldl bloomAddKey (bloomReset bpk n))) = true := by
  have hvle : (if u32 (n * bpk) < 64 then 64 else u32 (n * bpk)) ≤ 4294967288 := by
    rcases max_le_iff.mp hbits with ⟨h1, h2⟩
    split <;> omega
  have hv64 : 64 ≤ (if u32 (n * bpk) < 64 then 64 else u32 (n * bpk)) := by split <;> omega
  obtain ⟨v, hvdef⟩ : ∃ v, (if u32 (n * bpk) < 64 then 64 else u32 (n * bpk)) = v := ⟨_, rfl⟩
  rw [hvdef] at hvle hv64
  have hu : u32 (v + 7) = v + 7 := by unfold u32; omega
  obtain ⟨B, hBdef⟩ : ∃ B, u32 (v + 7) / 8 = B := ⟨_, rfl⟩
  have hB8 : 8 ≤ B := by rw [← hBdef, hu]; omega
  have hsp : (bloomReset bpk n).space = List.replicate B 0 ++ [bloomK bpk] := by
    simp only [bloomReset, hvdef, hBdef]
  have hbitsf : (bloomReset bpk n).bits = B * 8 := by
    simp only [bloomReset, hvdef, hBdef]
  have hkf : (bloomReset bpk n).k = bloomK bpk := by
    simp only [bloomReset]
  have hlen0 : (bloomReset bpk n).space.length = B + 1 := by
    rw [hsp]; simp
  obtain ⟨hlenF, hbitsF, hkF⟩ := bloomFold_fields hs (bloomReset bpk n)
  have hinv1 : (bloomReset bpk n).bits ≤ ((bloomReset bpk n).space.length - 1) * 8 := by
    rw [hbitsf, hlen0]; omega
  have hinv2 : 0 < (bloomReset bpk n).bits := by rw [hbitsf]; omega
  have htrail := bloomFold_trailer hs (bloomReset bpk n) hinv1 hinv2
  rw [hlen0] at htrail
  have htrail0 : (bloomReset bpk n).space.getD B 0 = bloomK bpk := by
    rw [hsp]
    have := replicate_append_getD B 0 (bloomK bpk)
    simpa using this
  simp only [Nat.add_sub_cancel] at htrail
  rw [htrail0] at htrail
  obtain ⟨hk1, hk30⟩ := bloomK_range bpk
  -- unfold the query
  unfold bloomKeyMayMatch
  rw [bloomFinish] at *
  rw [hlenF, hlen0]
  rw [if_neg (by omega : ¬ (B + 1 < 2))]
  simp only [Nat.add_sub_cancel]
  rw [htrail, if_neg (by omega : ¬ (30 < bloomK bpk))]
  refine bloomCheck_of_probes _ _ _ _ _ fun b hb => ?_
  have hb' : b ∈ bloomProbes (u32 h) (bloomDelta (u32 h)) (bloomReset bpk n).bits
      (bloomReset bpk n).k := by
    rw [hbitsf, hkf]; exact hb
  exact bloomFold_sets hs (bloomReset bpk n) h hmem hinv1 hinv2 b hb'

theorem bloomBlock_no_false_negatives_witness :
    (5 ∈ [5, 7] ∧ max 64 (u32 (1 * 2)) ≤ 4294967288) ∧
      bloomKeyMayMatch 5 (bloomFinish ([5, 7].foldl bloomAddKey (bloomReset 2 1))) = true :=
  ⟨⟨by decide, by decide⟩,
    bloomBlock_no_false_negatives 2 1 [5, 7] 5 (by decide) (by decide)⟩

/-- C5 counterexample: at `n = 2^28`, `bits_per_key = 16` the product
`n * bits_per_key` wraps to 0 in `uint32`, so `Reset` allocates the minimum
9-byte filter instead of the `max(64, n*bits_per_key)` bits the claim states
(which would be 536870913 bytes). -/
theorem bloomReset_overflow_cex :
    (bloomReset 16 268435456).space.length = 9 ∧
    (max 64 (268435456 * 16) + 7) / 8 + 1 = 536870913 ∧ (9 : Nat) ≠ 536870913 := by
  refine ⟨by decide, by norm_num, by norm_num⟩

/-- The probe-count formula of the source (`uint32(bpk * 0.69)` with the
`double` value of `0.69`, clamped) agrees with the spec's real-arithmetic
formula for every `bits_per_key`: inside the clamp window the two floors
coincide, and past it both clamp to 30. -/
theorem bloomK_eq_spec (bpk : Nat) : bloomK bpk = bloomKSpec bpk := by
  rcases le_or_lt bpk 43 with hle | hgt
  · interval_cases bpk <;> decide
  · have h1 : 30 ≤ bpk * d069num / d069den := by
      have hmul : 44 * d069num ≤ bpk * d069num := Nat.mul_le_mul_right _ (by omega)
      refine (Nat.le_div_iff_mul_le (by norm_num [d069den])).mpr ?_
      have : (30 : Nat) * d069den ≤ 44 * d069num := by norm_num [d069den, d069num]
      omega
    have h2 : 30 ≤ bpk * 69 / 100 := by
      have hmul : 44 * 69 ≤ bpk * 69 := Nat.mul_le_mul_right _ (by omega)
      refine (Nat.le_div_iff_mul_le (by norm_num)).mpr ?_
      omega
    unfold bloomK bloomKSpec
    omega

/-- C5 (amended): the probe count is exactly the spec's
`max(1, min(30, ⌊bits_per_key * 0.69⌋))`, and `Reset(n)` allocates
`⌈max(64, n*bits_per_key mod 2^32) / 8⌉` bytes plus one trailing byte holding
`k` — the product is 32-bit arithmetic, which the claim's `n * bits_per_key`
misses (the hypothesis excludes the further `bits_ + 7` wrap corner). -/
theorem bloomReset_layout (bpk n : Nat)
    (hbits : max 64 (u32 (n * bpk)) ≤ 4294967288) :
    bloomK bpk = bloomKSpec bpk ∧
    (bloomReset bpk n).space.length = (max 64 (u32 (n * bpk)) + 7) / 8 + 1 ∧
    (bloomReset bpk n).space.getD ((bloomReset bpk n).space.length - 1) 0 = bloomK bpk := by
  refine ⟨bloomK_eq_spec bpk, ?_, ?_⟩ <;>
    · have hvd : (if u32 (n * bpk) < 64 then 64 else u32 (n * bpk)) = max 64 (u32 (n * bpk)) := by
        split <;> omega
      have hu : u32 (max 64 (u32 (n * bpk)) + 7) = max 64 (u32 (n * bpk)) + 7 := by
        unfold u32 at hbits ⊢; omega
      simp only [bloomReset, hvd, hu]
      simp [replicate_append_getD]

theorem bloomReset_layout_witness :
    max 64 (u32 (3 * 10)) ≤ 4294967288 ∧
      (bloomK 10 = bloomKSpec 10 ∧
        (bloomReset 10 3).space.length = (max 64 (u32 (3 * 10)) + 7) / 8 + 1 ∧
        (bloomReset 10 3).space.getD ((bloomReset 10 3).space.length - 1) 0 = bloomK 10) :=
  ⟨by decide, bloomReset_layout 10 3 (by decide)⟩

/-- C9 counterexample: at `bits_per_key = 2^32 - 1`, `n = 1` the expression
`bits_ + 7` wraps in `uint32`, the byte count collapses to zero, and the
finished filter is a single byte, so the `len < 2` conservative fallback of
`BloomKeyMayMatch` *is* reachable for a writer-produced filter. -/
theorem bloomReset_min_length_cex :
    (bloomReset 4294967295 1).space.length = 1 ∧
    ¬ 9 ≤ (bloomReset 4294967295 1).space.length ∧
    bloomKeyMayMatch 0 (bloomFinish (bloomReset 4294967295 1)) = true := by
  refine ⟨by decide, by decide, by decide⟩

/-- C9 (amended): away from the `bits_ + 7` wrap corner, a freshly reset
filter is at least 9 bytes, its last byte is `k ∈ [1, 30]`, and
`BloomKeyMayMatch` never takes either conservative fallback on it: the query
always reaches the probe loop. -/
theorem bloomFinished_well_formed (bpk n : Nat)
    (hbits : max 64 (u32 (n * bpk)) ≤ 4294967288) :
    9 ≤ (bloomFinish (bloomReset bpk n)).length ∧
    (bloomFinish (bloomReset bpk n)).getD ((bloomFinish (bloomReset bpk n)).length - 1) 0 =
      bloomK bpk ∧
    1 ≤ bloomK bpk ∧ bloomK bpk ≤ 30 ∧
    ∀ h, bloomKeyMayMatch h (bloomFinish (bloomReset bpk n)) =
      bloomCheck (u32 h) (bloomDelta (u32 h))
        (((bloomFinish (bloomReset bpk n)).length - 1) * 8)
        (bloomFinish (bloomReset bpk n)) (bloomK bpk) := by
  obtain ⟨hk1, hk30⟩ := bloomK_range bpk
  have hvd : (if u32 (n * bpk) < 64 then 64 else u32 (n * bpk)) = max 64 (u32 (n * bpk)) := by
    split <;> omega
  have hu : u32 (max 64 (u32 (n * bpk)) + 7) = max 64 (u32 (n * bpk)) + 7 := by
    unfold u32 at hbits ⊢; omega
  have hlen : (bloomFinish (bloomReset bpk n)).length = (max 64 (u32 (n * bpk)) + 7) / 8 + 1 := by
    simp only [bloomFinish, bloomReset, hvd, hu]; simp
  have hlast : (bloomFinish (bloomReset bpk n)).getD
      ((bloomFinish (bloomReset bpk n)).length - 1) 0 = bloomK bpk := by
    simp only [bloomFinish, bloomReset, hvd, hu]
    simp [replicate_append_getD]
  have hB8 : 8 ≤ (max 64 (u32 (n * bpk)) + 7) / 8 := by
    unfold u32 at hbits ⊢; omega
  refine ⟨by rw [hlen]; omega, hlast, hk1, hk30, fun h => ?_⟩
  have hcond1 : ¬ ((bloomFinish (bloomReset bpk n)).length < 2) := by rw [hlen]; omega
  have hcond2 : ¬ (30 < bloomK bpk) := by omega
  unfold bloomKeyMayMatch
  rw [if_neg hcond1, hlast, if_neg hcond2]

theorem bloomFinished_well_formed_witness :
    max 64 (u32 (4 * 12)) ≤ 4294967288 ∧
      9 ≤ (bloomFinish (bloomReset 12 4)).length ∧
      (bloomFinish (bloomReset 12 4)).getD ((bloomFinish (bloomReset 12 4)).length - 1) 0 =
        bloomK 12 :=
  ⟨by decide, (bloomFinished_well_formed 12 4 (by decide)).1,
    (bloomFinished_well_formed 12 4 (by decide)).2.1⟩

/-- C7: the benchmark's `FT_TYPE` parsing uses `strcmp` results as booleans,
inverting the documented table: `FT_TYPE=bf` selects the bitmap filter (in
uncompressed format) instead of the Bloom filter the documentation promises. -/
theorem ftType_strcmp_bug :
    ∀ (d : FilterType) (f : BitmapFormatType),
      getFilterType (some "bf") d = FilterType.kBitmapFilter ∧
      getBitmapFilterFormat (some "bf") f = BitmapFormatType.kUncompressedBitmap ∧
      documentedFilterType (some "bf") d = FilterType.kBloomFilter ∧
      getFilterType (some "bf") d ≠ documentedFilterType (some "bf") d := by
  intro d f
  cases d <;> cases f <;> exact ⟨by decide, by decide, by decide, by decide⟩

/-! ## Cuckoo lemmas: `UpperPower2` computes the least power of two bound -/

theorem orShift_testBit (x s i : Nat) :
    (orShift x s).testBit i = (x.testBit i || x.testBit (i + s)) := by
  simp [orShift, Nat.testBit_or, Nat.testBit_shiftRight, Nat.add_comm]

theorem orShift_cover (x s i e : Nat) (he : e = 0 ∨ e = s)
    (h : x.testBit (i + e) = true) : (orShift x s).testBit i = true := by
  rw [orShift_testBit]
  rcases he with rfl | rfl <;> simp_all

theorem orShift_lt (x s n : Nat) (h : x < 2 ^ n) : orShift x s < 2 ^ n := by
  refine Nat.or_lt_two_pow h (lt_of_le_of_lt ?_ h)
  rw [Nat.shiftRight_eq_div_pow]
  exact Nat.div_le_self _ _

theorem smear_testBit_of (y i d : Nat) (hd : d ≤ 63) (h : y.testBit (i + d) = true) :
    (orShift (orShift (orShift (orShift (orShift (orShift y 1) 2) 4) 8) 16) 32).testBit i
      = true := by
  refine orShift_cover _ 32 i (32 * (d / 32)) (by omega) ?_
  refine orShift_cover _ 16 _ (16 * (d % 32 / 16)) (by omega) ?_
  refine orShift_cover _ 8 _ (8 * (d % 16 / 8)) (by omega) ?_
  refine orShift_cover _ 4 _ (4 * (d % 8 / 4)) (by omega) ?_
  refine orShift_cover _ 2 _ (2 * (d % 4 / 2)) (by omega) ?_
  refine orShift_cover _ 1 _ (d % 2) (by omega) ?_
  have heq : i + 32 * (d / 32) + 16 * (d % 32 / 16) + 8 * (d % 16 / 8) + 4 * (d % 8 / 4) +
      2 * (d % 4 / 2) + d % 2 = i + d := by omega
  rw [heq]
  exact h

theorem testBit_log2_self (y : Nat) (hy : 1 ≤ y) : y.testBit (Nat.log2 y) = true := by
  have h1 : 2 ^ Nat.log2 y ≤ y := Nat.log2_self_le (by omega)
  have h2 : y < 2 ^ (Nat.log2 y + 1) := Nat.lt_log2_self
  rw [Nat.testBit_to_div_mod]
  have hdiv : y / 2 ^ Nat.log2 y = 1 := by
    have hlo : 1 ≤ y / 2 ^ Nat.log2 y := (Nat.one_le_div_iff (Nat.pos_pow_of_pos _ (by omega))).mpr h1
    have hhi : y / 2 ^ Nat.log2 y < 2 := by
      rw [Nat.div_lt_iff_lt_mul (Nat.pos_pow_of_pos _ (by omega))]
      calc y < 2 ^ (Nat.log2 y + 1) := h2
        _ = 2 ^ Nat.log2 y * 2 := by ring
        _ ≤ 2 * 2 ^ Nat.log2 y := by omega
    omega
  simp [hdiv]

theorem leftMostOneBit_bounds (y : Nat) (hy : 1 ≤ y) :
    2 ^ (leftMostOneBit y - 1) ≤ y ∧ y < 2 ^ leftMostOneBit y := by
  have hne : y ≠ 0 := by omega
  rw [leftMostOneBit, if_neg hne]
  simpa using ⟨Nat.log2_self_le hne, Nat.lt_log2_self⟩

theorem smear_eq (y L : Nat) (hL : L = leftMostOneBit y) (h64 : L ≤ 63) :
    (orShift (orShift (orShift (orShift (orShift (orShift y 1) 2) 4) 8) 16) 32) = 2 ^ L - 1 := by
  rcases Nat.eq_zero_or_pos y with hy | hy
  · subst hy
    have : leftMostOneBit 0 = 0 := by simp [leftMostOneBit]
    rw [hL, this]
    simp [orShift]
  · obtain ⟨hlo, hhi⟩ := leftMostOneBit_bounds y hy
    rw [← hL] at hlo hhi
    apply Nat.eq_of_testBit_eq
    intro i
    rw [Nat.testBit_two_pow_sub_one]
    rcases lt_or_le i L with hiL | hiL
    · have hLpos : 1 ≤ L := by omega
      have hd : L - 1 - i ≤ 63 := by omega
      have hbit : y.testBit (i + (L - 1 - i)) = true := by
        have : i + (L - 1 - i) = L - 1 := by omega
        rw [this, hL, leftMostOneBit, if_neg (by omega)]
        simpa using testBit_log2_self y hy
      simp [smear_testBit_of y i (L - 1 - i) hd hbit, hiL]
    · have hz : (orShift (orShift (orShift (orShift (orShift (orShift y 1) 2) 4) 8) 16) 32)
          < 2 ^ i := by
        have h1 : (orShift (orShift (orShift (orShift (orShift (orShift y 1) 2) 4) 8) 16) 32)
            < 2 ^ L := by
          iterate 6 apply orShift_lt
          exact hhi
        exact lt_of_lt_of_le h1 (Nat.pow_le_pow_right (by omega) hiL)
      have hnlt : ¬ i < L := by omega
      simp [Nat.testBit_lt_two_pow hz, hnlt]

/-- `UpperPower2(x)` is `2 ^ leftMostOneBit (x-1)`, the least power of two
that is at least `x`, for `1 ≤ x ≤ 2^63`. -/
theorem upperPower2_eq (x : Nat) (h1 : 1 ≤ x) (h2 : x ≤ 2 ^ 63) :
    upperPower2 x = 2 ^ leftMostOneBit (x - 1) ∧
    x ≤ 2 ^ leftMostOneBit (x - 1) ∧
    ∀ j, x ≤ 2 ^ j → leftMostOneBit (x - 1) ≤ j := by
  have hdec : (x + 18446744073709551615) % 18446744073709551616 = x - 1 := by omega
  have hL63 : leftMostOneBit (x - 1) ≤ 63 := by
    rcases Nat.eq_zero_or_pos (x - 1) with h0 | hpos
    · simp [h0, leftMostOneBit]
    · obtain ⟨hlo, _⟩ := leftMostOneBit_bounds _ hpos
      by_contra hgt
      have : (2 : Nat) ^ 63 ≤ 2 ^ (leftMostOneBit (x - 1) - 1) :=
        Nat.pow_le_pow_right (by omega) (by omega)
      have : (2 : Nat) ^ 63 ≤ x - 1 := le_trans this hlo
      have h263 : (2 : Nat) ^ 63 = 9223372036854775808 := by norm_num
      omega
  have hsm := smear_eq (x - 1) _ rfl hL63
  constructor
  · unfold upperPower2
    rw [hdec, hsm]
    have hpow : (2 : Nat) ^ leftMostOneBit (x - 1) ≤ 2 ^ 63 :=
      Nat.pow_le_pow_right (by omega) hL63
    have hpos : 1 ≤ (2 : Nat) ^ leftMostOneBit (x - 1) := Nat.one_le_two_pow
    have h263 : (2 : Nat) ^ 63 = 9223372036854775808 := by norm_num
    omega
  constructor
  · rcases Nat.eq_zero_or_pos (x - 1) with h0 | hpos
    · have : x = 1 := by omega
      simp [this, h0, leftMostOneBit, Nat.one_le_two_pow]
    · obtain ⟨_, hhi⟩ := leftMostOneBit_bounds _ hpos
      omega
  · intro j hj
    rcases Nat.eq_zero_or_pos (x - 1) with h0 | hpos
    · simp [h0, leftMostOneBit]
    · obtain ⟨hlo, _⟩ := leftMostOneBit_bounds _ hpos
      by_contra hgt
      have hj1 : j ≤ leftMostOneBit (x - 1) - 1 := by omega
      have : (2 : Nat) ^ j ≤ 2 ^ (leftMostOneBit (x - 1) - 1) :=
        Nat.pow_le_pow_right (by omega) hj1
      omega

theorem decodeFixed32_putFixed32_append (v : Nat) (rest : List Byte) :
    decodeFixed32 (putFixed32 v ++ rest) = u32 v := by
  have h := u32_lt v
  simp only [decodeFixed32, putFixed32, List.cons_append, List.nil_append, List.getD,
    List.get?_cons_zero, List.get?_cons_succ, List.getElem?_cons_zero, List.getElem?_cons_succ,
    Option.getD_some]
  omega

/-- C4 counterexample: `CuckooTable::Reset` ceils `(num_keys+3)/4 * (1/frac)`,
not `num_keys / (4*frac)`: at `num_keys = 1`, `frac = 0.95` the code computes
`UpperPower2(ceil(20/19)) = 2` buckets whereas the claim's formula
`next_pow2(ceil(1/3.8))` gives 1. -/
theorem cuckooNumBuckets_formula_cex :
    cuckooNumBuckets (19 / 20) 1 = 2 ∧
    upperPower2 (u64 ⌈(1 : ℚ) / (4 * (19 / 20))⌉₊) = 1 ∧ (2 : Nat) ≠ 1 := by
  have h1 : ⌈1 / ((19 : ℚ) / 20) * (u32 (1 + 3) : ℚ) / 4⌉₊ = 2 := by
    have h : 1 / ((19 : ℚ) / 20) * (u32 (1 + 3) : ℚ) / 4 = 20 / 19 := by norm_num [u32]
    rw [h, Nat.ceil_eq_iff (by norm_num)]
    norm_num
  have h2 : ⌈(1 : ℚ) / (4 * (19 / 20))⌉₊ = 1 := by
    have h : (1 : ℚ) / (4 * (19 / 20)) = 5 / 19 := by norm_num
    rw [h, Nat.ceil_eq_iff (by norm_num)]
    norm_num
  refine ⟨?_, ?_, by omega⟩
  · rw [cuckooNumBuckets, h1]
    decide
  · rw [h2]
    decide

/-- C10 counterexample: `Reset(2^32 - 3)` computes the `uint32` sum
`num_keys + 4 - 1`, which wraps to 0, so the bucket count is
`UpperPower2(ceil(0)) = UpperPower2(0) = 0` — and 0 is not a power of two,
refuting the claimed invariant at a well-defined `Reset` input. -/
theorem cuckoo_zero_buckets_cex :
    cuckooNumBuckets (19 / 20) 4294967293 = 0 ∧
    ∀ k : Nat, cuckooNumBuckets (19 / 20) 4294967293 ≠ 2 ^ k := by
  have h0 : cuckooNumBuckets (19 / 20) 4294967293 = 0 := by
    rw [cuckooNumBuckets]
    rw [show (1 : ℚ) / (19 / 20) * (u32 (4294967293 + 3) : ℚ) / 4 = 0 by
      norm_num [u32]]
    rw [Nat.ceil_zero]
    decide
  refine ⟨h0, fun k hc => ?_⟩
  rw [h0] at hc
  exact (Nat.pos_pow_of_pos k (by omega)).ne' hc.symm

/-- C4 (amended): `CuckooTable::Reset(num_keys)` sets `num_buckets` to the
least power of two that is at least `ceil(u32(num_keys+3)/4 * (1/frac))` —
the code ceils `(num_keys + 4 - 1)/4 * (1/frac)`, not `num_keys/(4*frac)`,
and the sum `num_keys + 4 - 1` is `uint32` arithmetic that wraps mod `2^32`
(at `num_keys = 2^32 - 3` it is 0 and `Reset` produces 0 buckets, so the
hypotheses restrict to a nonzero ceil) — and `CuckooBlock::Finish` appends
exactly two fixed32 little-endian values after the bucket array: first
`num_buckets`, then `bits_per_key`. -/
theorem cuckooReset_finish_layout (f : ℚ) (n : Nat)
    (hm1 : 1 ≤ ⌈1 / f * (u32 (n + 3) : ℚ) / 4⌉₊)
    (hm2 : ⌈1 / f * (u32 (n + 3) : ℚ) / 4⌉₊ ≤ 2 ^ 63) :
    (∃ k, cuckooNumBuckets f n = 2 ^ k ∧
      ⌈1 / f * (u32 (n + 3) : ℚ) / 4⌉₊ ≤ 2 ^ k ∧
      ∀ j, ⌈1 / f * (u32 (n + 3) : ℚ) / 4⌉₊ ≤ 2 ^ j → k ≤ j) ∧
    ∀ (body : List Byte) (nb bpk : Nat),
      (cuckooFinishBytes body nb bpk).length = body.length + 8 ∧
      decodeFixed32 ((cuckooFinishBytes body nb bpk).drop body.length) = u32 nb ∧
      decodeFixed32 ((cuckooFinishBytes body nb bpk).drop (body.length + 4)) = u32 bpk := by
  constructor
  · have hu : u64 ⌈1 / f * (u32 (n + 3) : ℚ) / 4⌉₊ = ⌈1 / f * (u32 (n + 3) : ℚ) / 4⌉₊ := by
      unfold u64
      have : (2 : Nat) ^ 63 = 9223372036854775808 := by norm_num
      omega
    obtain ⟨heq, hge, hmin⟩ := upperPower2_eq _ hm1 hm2
    exact ⟨_, by rw [cuckooNumBuckets, hu, heq], hge, fun j hj => hmin j hj⟩
  · intro body nb bpk
    refine ⟨by simp [cuckooFinishBytes, putFixed32], ?_, ?_⟩
    · have : cuckooFinishBytes body nb bpk = body ++ (putFixed32 nb ++ putFixed32 bpk) := by
        simp [cuckooFinishBytes]
      rw [this, List.drop_left, decodeFixed32_putFixed32_append]
    · have hlen : (body ++ putFixed32 nb).length = body.length + 4 := by simp [putFixed32]
      have : (cuckooFinishBytes body nb bpk).drop (body.length + 4) = putFixed32 bpk := by
        rw [cuckooFinishBytes, ← hlen, List.drop_left]
      rw [this, ← List.append_nil (putFixed32 bpk), decodeFixed32_putFixed32_append]

theorem cuckooReset_finish_layout_witness :
    (1 ≤ ⌈1 / ((19 : ℚ) / 20) * (u32 (1 + 3) : ℚ) / 4⌉₊ ∧
      ⌈1 / ((19 : ℚ) / 20) * (u32 (1 + 3) : ℚ) / 4⌉₊ ≤ 2 ^ 63) ∧
    (∃ k, cuckooNumBuckets (19 / 20) 1 = 2 ^ k ∧
      ⌈1 / ((19 : ℚ) / 20) * (u32 (1 + 3) : ℚ) / 4⌉₊ ≤ 2 ^ k ∧
      ∀ j, ⌈1 / ((19 : ℚ) / 20) * (u32 (1 + 3) : ℚ) / 4⌉₊ ≤ 2 ^ j → k ≤ j) := by
  have h : 1 / ((19 : ℚ) / 20) * (u32 (1 + 3) : ℚ) / 4 = 20 / 19 := by norm_num [u32]
  have h1 : (1 : Nat) ≤ ⌈1 / ((19 : ℚ) / 20) * (u32 (1 + 3) : ℚ) / 4⌉₊ := by
    rw [h]
    exact Nat.ceil_pos.mpr (by norm_num)
  have h2 : ⌈1 / ((19 : ℚ) / 20) * (u32 (1 + 3) : ℚ) / 4⌉₊ ≤ 2 ^ 63 := by
    have : ⌈1 / ((19 : ℚ) / 20) * (u32 (1 + 3) : ℚ) / 4⌉₊ = 2 := by
      rw [h, Nat.ceil_eq_iff (by norm_num)]
      norm_num
    rw [this]
    norm_num
  exact ⟨⟨h1, h2⟩, (cuckooReset_finish_layout ((19 : ℚ) / 20) 1 h1 h2).1⟩

/-! ## Cuckoo insertion invariants -/

theorem xor_mod_two_pow (a b k : Nat) : (a ^^^ b) % 2 ^ k = a % 2 ^ k ^^^ b % 2 ^ k := by
  apply Nat.eq_of_testBit_eq
  intro i
  simp only [Nat.testBit_mod_two_pow, Nat.testBit_xor]
  by_cases h : i < k <;> simp [h]

theorem cuckooAlt_involution (E : CuckooEnv) (k i fp : Nat) (hi : i < 2 ^ k) :
    cuckooAlt E (cuckooAlt E i fp % 2 ^ k) fp % 2 ^ k = i := by
  unfold cuckooAlt
  rw [xor_mod_two_pow ((i ^^^ E.altHash fp) % 2 ^ k) (E.altHash fp) k,
    Nat.mod_mod_of_dvd _ dvd_rfl, xor_mod_two_pow i (E.altHash fp) k, Nat.mod_eq_of_lt hi,
    Nat.xor_assoc, Nat.xor_self, Nat.xor_zero]

theorem scanBucketGo_dup (t : Nat → Nat → Nat) (i fp : Nat) :
    ∀ js, scanBucketGo t i fp js = .dup → ∃ j ∈ js, t i j = fp := by
  intro js
  induction js with
  | nil => intro h; simp [scanBucketGo] at h
  | cons j rest ih =>
    intro h
    simp only [scanBucketGo] at h
    split_ifs at h with h1 h2
    · exact ⟨j, List.mem_cons_self _ _, h1⟩
    · obtain ⟨j', hj', hfp⟩ := ih h
      exact ⟨j', List.mem_cons_of_mem _ hj', hfp⟩

theorem scanBucketGo_empty (t : Nat → Nat → Nat) (i fp : Nat) :
    ∀ js j0, scanBucketGo t i fp js = .empty j0 → j0 ∈ js ∧ t i j0 = 0 := by
  intro js
  induction js with
  | nil => intro j0 h; simp [scanBucketGo] at h
  | cons j rest ih =>
    intro j0 h
    simp only [scanBucketGo] at h
    split_ifs at h with h1 h2
    · cases h
      exact ⟨List.mem_cons_self _ _, h2⟩
    · obtain ⟨hm, hz⟩ := ih j0 h
      exact ⟨List.mem_cons_of_mem _ hm, hz⟩

theorem scanBucketGo_full (t : Nat → Nat → Nat) (i fp : Nat) :
    ∀ js, scanBucketGo t i fp js = .full → ∀ j ∈ js, t i j ≠ 0 ∧ t i j ≠ fp := by
  intro js
  induction js with
  | nil => intro _ j hj; cases hj
  | cons j rest ih =>
    intro h j' hj'
    simp only [scanBucketGo] at h
    split_ifs at h with h1 h2
    · rcases List.mem_cons.mp hj' with rfl | hm
      · exact ⟨h2, h1⟩
      · exact ih h j' hm

theorem scanBucket_dup (t : Nat → Nat → Nat) (i fp : Nat) (h : scanBucket t i fp = .dup) :
    ∃ j, j < 4 ∧ t i j = fp := by
  obtain ⟨j, hj, hfp⟩ := scanBucketGo_dup t i fp _ h
  refine ⟨j, ?_, hfp⟩
  simp at hj
  omega

theorem scanBucket_empty (t : Nat → Nat → Nat) (i fp j0 : Nat)
    (h : scanBucket t i fp = .empty j0) : j0 < 4 ∧ t i j0 = 0 := by
  obtain ⟨hj, hz⟩ := scanBucketGo_empty t i fp _ j0 h
  refine ⟨?_, hz⟩
  simp at hj
  omega

theorem scanBucket_full (t : Nat → Nat → Nat) (i fp : Nat) (h : scanBucket t i fp = .full) :
    ∀ j, j < 4 → t i j ≠ 0 ∧ t i j ≠ fp := by
  intro j hj
  refine scanBucketGo_full t i fp _ h j ?_
  simp
  omega

theorem tableWrite_eq (t : Nat → Nat → Nat) (i j x i' j' : Nat) :
    tableWrite t i j x i' j' = if i' = i ∧ j' = j then x else t i' j' := rfl

theorem pow_pos_of_exists (nb : Nat) (h : ∃ k, nb = 2 ^ k) : 0 < nb := by
  obtain ⟨k, rfl⟩ := h
  exact Nat.pos_pow_of_pos _ (by omega)

theorem cuckooAlt_involution_nb (E : CuckooEnv) (nb i fp : Nat) (hpow : ∃ k, nb = 2 ^ k)
    (hi : i < nb) : cuckooAlt E (cuckooAlt E i fp % nb) fp % nb = i := by
  obtain ⟨k, rfl⟩ := hpow
  exact cuckooAlt_involution E k i fp hi

theorem cuckooAddLoop_slotOK (E : CuckooEnv) (rnd : Nat → Nat) (bits : Nat)
    (keys : List (List Byte)) (nb : Nat) (hpow : ∃ k, nb = 2 ^ k) :
    ∀ (r count : Nat) (st : CuckooState) (fp i : Nat),
      st.numBuckets = nb → i < nb → fp ≠ 0 →
      cuckooValOK E bits keys nb i fp →
      cuckooSlotOK E bits keys nb st.table →
      (cuckooAddLoop E rnd r count st fp i).numBuckets = nb ∧
      cuckooSlotOK E bits keys nb (cuckooAddLoop E rnd r count st fp i).table := by
  have hnb0 : 0 < nb := pow_pos_of_exists nb hpow
  intro r
  induction r with
  | zero =>
    intro count st fp i hb _ _ _ hwf
    exact ⟨hb, hwf⟩
  | succ r ih =>
    intro count st fp i hb hi hfp hval hwf
    simp only [cuckooAddLoop]
    rcases hscan : scanBucket st.table i fp with _ | j | _
    · exact ⟨hb, hwf⟩
    · obtain ⟨hj4, hj0⟩ := scanBucket_empty _ _ _ _ hscan
      refine ⟨hb, ?_⟩
      intro i' j' hj' hne
      dsimp only at hne ⊢
      rw [tableWrite_eq] at hne ⊢
      by_cases hc : i' = i ∧ j' = j
      · rw [if_pos hc] at hne ⊢
        exact ⟨hc.1 ▸ hi, hc.1 ▸ hval⟩
      · rw [if_neg hc] at hne ⊢
        exact hwf i' j' hj' hne
    · dsimp only
      by_cases hcount : count ≠ 0
      · rw [if_pos hcount]
        have hfull := scanBucket_full _ _ _ hscan
        have hv4 : rnd st.rndIdx % 4 < 4 := Nat.mod_lt _ (by omega)
        obtain ⟨hold0, holdfp⟩ := hfull _ hv4
        obtain ⟨hiv, holdval⟩ := hwf i _ hv4 hold0
        rw [hb]
        refine ih (count + 1)
          { numBuckets := nb, table := tableWrite st.table i (rnd st.rndIdx % 4) fp,
            victims := st.victims, rndIdx := st.rndIdx + 1 }
          (st.table i (rnd st.rndIdx % 4))
          (cuckooAlt E i (st.table i (rnd st.rndIdx % 4)) % nb) rfl
          (Nat.mod_lt _ hnb0) hold0 ?_ ?_
        · obtain ⟨key, hkmem, hkfp, hkpos⟩ := holdval
          refine ⟨key, hkmem, hkfp, ?_⟩
          rcases hkpos with h1 | h1
          · right
            rw [cuckooAlt_involution_nb E nb i _ hpow hi]
            exact h1
          · left
            exact h1
        · intro i' j' hj' hne
          dsimp only at hne ⊢
          rw [tableWrite_eq] at hne ⊢
          by_cases hc : i' = i ∧ j' = rnd st.rndIdx % 4
          · rw [if_pos hc] at hne ⊢
            exact ⟨hc.1 ▸ hi, hc.1 ▸ hval⟩
          · rw [if_neg hc] at hne ⊢
            exact hwf i' j' hj' hne
      · rw [if_neg hcount, hb]
        refine ih (count + 1) st fp (cuckooAlt E i fp % nb) hb (Nat.mod_lt _ hnb0) hfp ?_ hwf
        obtain ⟨key, hkmem, hkfp, hkpos⟩ := hval
        refine ⟨key, hkmem, hkfp, ?_⟩
        rcases hkpos with h1 | h1
        · right
          rw [cuckooAlt_involution_nb E nb i _ hpow hi]
          exact h1
        · left
          exact h1

theorem cuckooFingerprint_pos (E : CuckooEnv) (key : List Byte) (bits : Nat) :
    cuckooFingerprint E key bits ≠ 0 := by
  unfold cuckooFingerprint
  omega

theorem cuckooAddLoop_victims_grow (E : CuckooEnv) (rnd : Nat → Nat) :
    ∀ (r count : Nat) (st : CuckooState) (fp i : Nat),
      ∃ tail, (cuckooAddLoop E rnd r count st fp i).victims = st.victims ++ tail := by
  intro r
  induction r with
  | zero => intro count st fp i; exact ⟨[fp], rfl⟩
  | succ r ih =>
    intro count st fp i
    simp only [cuckooAddLoop]
    rcases hscan : scanBucket st.table i fp with _ | j | _
    · exact ⟨[], by simp⟩
    · exact ⟨[], by simp⟩
    · dsimp only
      by_cases hcount : count ≠ 0
      · rw [if_pos hcount]
        exact ih (count + 1) _ _ _
      · rw [if_neg hcount]
        exact ih (count + 1) _ _ _

/-- If the eviction loop terminates without pushing a victim, then every key
that was served before the call — and the key whose fingerprint is being
carried, provided the carried bucket is one of its two candidate buckets —
is served afterwards. -/
theorem cuckooAddLoop_served (E : CuckooEnv) (rnd : Nat → Nat) (bits nb : Nat)
    (hpow : ∃ k, nb = 2 ^ k) :
    ∀ (r count : Nat) (st : CuckooState) (fp i : Nat) (key : List Byte),
      st.numBuckets = nb → i < nb →
      (cuckooAddLoop E rnd r count st fp i).victims = st.victims →
      (cuckooServed E bits nb st.table key ∨
        (cuckooFingerprint E key bits = fp ∧
          (i = E.keyHash key % nb ∨ i = cuckooAlt E (E.keyHash key % nb) fp % nb))) →
      cuckooServed E bits nb (cuckooAddLoop E rnd r count st fp i).table key := by
  have hnb0 : 0 < nb := pow_pos_of_exists nb hpow
  intro r
  induction r with
  | zero =>
    intro count st fp i key _ _ hvic _
    exfalso
    have heq : st.victims ++ [fp] = st.victims := hvic
    have := congrArg List.length heq
    simp at this
  | succ r ih =>
    intro count st fp i key hb hi hvic hpre
    simp only [cuckooAddLoop] at hvic ⊢
    rcases hscan : scanBucket st.table i fp with _ | j | _
    all_goals rw [hscan] at hvic
    · -- duplicate hit: the table is unchanged
      rcases hpre with hs | ⟨hfpk, hposk⟩
      · exact hs
      · obtain ⟨jd, hjd4, hjd⟩ := scanBucket_dup _ _ _ hscan
        rcases hposk with h1 | h1
        · exact ⟨jd, hjd4, Or.inl (by rw [← h1, hjd, hfpk])⟩
        · exact ⟨jd, hjd4, Or.inr (by rw [hfpk, ← h1, hjd])⟩
    · -- empty slot: fp is placed at (i, j)
      obtain ⟨hj4, hj0⟩ := scanBucket_empty _ _ _ _ hscan
      dsimp only
      rcases hpre with hs | ⟨hfpk, hposk⟩
      · obtain ⟨j₀, hj₀4, hw⟩ := hs
        refine ⟨j₀, hj₀4, ?_⟩
        rcases hw with hw | hw
        · left
          rw [tableWrite_eq]
          by_cases hc : E.keyHash key % nb = i ∧ j₀ = j
          · exfalso
            rw [hc.1, hc.2, hj0] at hw
            exact cuckooFingerprint_pos E key bits hw.symm
          · rw [if_neg hc]; exact hw
        · right
          rw [tableWrite_eq]
          by_cases hc : cuckooAlt E (E.keyHash key % nb) (cuckooFingerprint E key bits) % nb = i
              ∧ j₀ = j
          · exfalso
            rw [hc.1, hc.2, hj0] at hw
            exact cuckooFingerprint_pos E key bits hw.symm
          · rw [if_neg hc]; exact hw
      · refine ⟨j, hj4, ?_⟩
        rcases hposk with h1 | h1
        · left
          rw [← h1, tableWrite_eq, if_pos ⟨rfl, rfl⟩, hfpk]
        · right
          rw [hfpk, ← h1, tableWrite_eq, if_pos ⟨rfl, rfl⟩]
    · -- bucket full
      dsimp only at hvic ⊢
      by_cases hcount : count ≠ 0
      · rw [if_pos hcount] at hvic ⊢
        have hv4 : rnd st.rndIdx % 4 < 4 := Nat.mod_lt _ (by omega)
        rw [hb] at hvic ⊢
        refine ih (count + 1)
          { numBuckets := nb, table := tableWrite st.table i (rnd st.rndIdx % 4) fp,
            victims := st.victims, rndIdx := st.rndIdx + 1 }
          (st.table i (rnd st.rndIdx % 4))
          (cuckooAlt E i (st.table i (rnd st.rndIdx % 4)) % nb) key rfl
          (Nat.mod_lt _ hnb0) hvic ?_
        rcases hpre with hs | ⟨hfpk, hposk⟩
        · -- a previously served key: its witness either survives or is evicted
          obtain ⟨j₀, hj₀4, hw⟩ := hs
          rcases hw with hw | hw
          · by_cases hc : E.keyHash key % nb = i ∧ j₀ = rnd st.rndIdx % 4
            · -- the witness slot is the evicted one: the key becomes carried
              right
              refine ⟨by rw [← hc.1, ← hc.2]; exact hw.symm, ?_⟩
              right
              have hofp : st.table i (rnd st.rndIdx % 4) = cuckooFingerprint E key bits := by
                rw [← hc.1, ← hc.2]; exact hw
              rw [hofp, hc.1]
            · left
              exact ⟨j₀, hj₀4, Or.inl (by dsimp only; rw [tableWrite_eq, if_neg hc]; exact hw)⟩
          · by_cases hc : cuckooAlt E (E.keyHash key % nb) (cuckooFingerprint E key bits) % nb = i
                ∧ j₀ = rnd st.rndIdx % 4
            · right
              have hofp : st.table i (rnd st.rndIdx % 4) = cuckooFingerprint E key bits := by
                rw [← hc.1, ← hc.2]; exact hw
              refine ⟨hofp.symm, ?_⟩
              left
              rw [hofp, ← hc.1]
              exact cuckooAlt_involution_nb E nb (E.keyHash key % nb)
                (cuckooFingerprint E key bits) hpow (Nat.mod_lt _ hnb0)
            · left
              exact ⟨j₀, hj₀4, Or.inr (by dsimp only; rw [tableWrite_eq, if_neg hc]; exact hw)⟩
        · -- the carried fingerprint is placed at (i, v): the key is now served
          left
          refine ⟨rnd st.rndIdx % 4, hv4, ?_⟩
          rcases hposk with h1 | h1
          · left
            dsimp only
            rw [← h1, tableWrite_eq, if_pos ⟨rfl, rfl⟩, hfpk]
          · right
            dsimp only
            rw [hfpk, ← h1, tableWrite_eq, if_pos ⟨rfl, rfl⟩]
      · rw [if_neg hcount] at hvic ⊢
        rw [hb] at hvic ⊢
        refine ih (count + 1) st fp (cuckooAlt E i fp % nb) key hb (Nat.mod_lt _ hnb0) hvic ?_
        rcases hpre with hs | ⟨hfpk, hposk⟩
        · exact Or.inl hs
        · right
          refine ⟨hfpk, ?_⟩
          rcases hposk with h1 | h1
          · right
            rw [h1]
          · left
            rw [h1]
            exact cuckooAlt_involution_nb E nb (E.keyHash key % nb) fp hpow
              (Nat.mod_lt _ hnb0)

theorem cuckooAddLoop_numBuckets (E : CuckooEnv) (rnd : Nat → Nat) :
    ∀ (r count : Nat) (st : CuckooState) (fp i : Nat),
      (cuckooAddLoop E rnd r count st fp i).numBuckets = st.numBuckets := by
  intro r
  induction r with
  | zero => intro count st fp i; rfl
  | succ r ih =>
    intro count st fp i
    simp only [cuckooAddLoop]
    rcases scanBucket st.table i fp with _ | j | _
    · rfl
    · rfl
    · dsimp only
      by_cases hcount : count ≠ 0
      · rw [if_pos hcount]
        rw [ih]
      · rw [if_neg hcount]
        rw [ih]

theorem cuckooFold_slotOK (E : CuckooEnv) (rnd : Nat → Nat) (maxMoves bits nb : Nat)
    (hpow : ∃ k, nb = 2 ^ k) (allKeys : List (List Byte)) :
    ∀ (keys : List (List Byte)) (st : CuckooState),
      (∀ key ∈ keys, key ∈ allKeys) →
      st.numBuckets = nb →
      cuckooSlotOK E bits allKeys nb st.table →
      (keys.foldl (cuckooAddKey E rnd maxMoves bits) st).numBuckets = nb ∧
      cuckooSlotOK E bits allKeys nb
        (keys.foldl (cuckooAddKey E rnd maxMoves bits) st).table := by
  have hnb0 : 0 < nb := pow_pos_of_exists nb hpow
  intro keys
  induction keys with
  | nil => intro st _ hb hwf; exact ⟨hb, hwf⟩
  | cons key rest ih =>
    intro st hsub hb hwf
    rw [List.foldl_cons]
    have hstep : (cuckooAddKey E rnd maxMoves bits st key).numBuckets = nb ∧
        cuckooSlotOK E bits allKeys nb (cuckooAddKey E rnd maxMoves bits st key).table := by
      unfold cuckooAddKey
      rw [hb]
      refine cuckooAddLoop_slotOK E rnd bits allKeys nb hpow maxMoves 0 st _ _ hb
        (Nat.mod_lt _ hnb0) (cuckooFingerprint_pos E key bits) ?_ hwf
      exact ⟨key, hsub key (List.mem_cons_self _ _), rfl, Or.inl rfl⟩
    exact ih _ (fun k hk => hsub k (List.mem_cons_of_mem _ hk)) hstep.1 hstep.2

theorem cuckooFold_victims_grow (E : CuckooEnv) (rnd : Nat → Nat) (maxMoves bits : Nat) :
    ∀ (keys : List (List Byte)) (st : CuckooState),
      ∃ tail, (keys.foldl (cuckooAddKey E rnd maxMoves bits) st).victims =
        st.victims ++ tail := by
  intro keys
  induction keys with
  | nil => intro st; exact ⟨[], by simp⟩
  | cons key rest ih =>
    intro st
    rw [List.foldl_cons]
    obtain ⟨t1, ht1⟩ := cuckooAddLoop_victims_grow E rnd maxMoves 0 st
      (cuckooFingerprint E key bits) (E.keyHash key % st.numBuckets)
    obtain ⟨t2, ht2⟩ := ih (cuckooAddKey E rnd maxMoves bits st key)
    refine ⟨t1 ++ t2, ?_⟩
    rw [ht2]
    show (cuckooAddLoop E rnd maxMoves 0 st _ _).victims ++ t2 = _
    rw [ht1, List.append_assoc]

theorem cuckooFold_served (E : CuckooEnv) (rnd : Nat → Nat) (maxMoves bits nb : Nat)
    (hpow : ∃ k, nb = 2 ^ k) :
    ∀ (keys : List (List Byte)) (st : CuckooState) (key0 : List Byte),
      st.numBuckets = nb →
      (keys.foldl (cuckooAddKey E rnd maxMoves bits) st).victims = st.victims →
      (key0 ∈ keys ∨ cuckooServed E bits nb st.table key0) →
      cuckooServed E bits nb (keys.foldl (cuckooAddKey E rnd maxMoves bits) st).table key0 := by
  have hnb0 : 0 < nb := pow_pos_of_exists nb hpow
  intro keys
  induction keys with
  | nil =>
    intro st key0 _ _ hpre
    rcases hpre with h | h
    · cases h
    · exact h
  | cons key rest ih =>
    intro st key0 hb hvic hpre
    rw [List.foldl_cons] at hvic ⊢
    -- the victims list never shrinks, so neither step added one
    obtain ⟨t1, ht1⟩ := cuckooAddLoop_victims_grow E rnd maxMoves 0 st
      (cuckooFingerprint E key bits) (E.keyHash key % st.numBuckets)
    obtain ⟨t2, ht2⟩ := cuckooFold_victims_grow E rnd maxMoves bits rest
      (cuckooAddKey E rnd maxMoves bits st key)
    have ht1' : (cuckooAddKey E rnd maxMoves bits st key).victims = st.victims ++ t1 := ht1
    have hnil : t1 = [] ∧ t2 = [] := by
      rw [ht2, ht1'] at hvic
      have := congrArg List.length hvic
      simp at this
      exact this
    have hvic1 : (cuckooAddKey E rnd maxMoves bits st key).victims = st.victims := by
      rw [ht1', hnil.1, List.append_nil]
    have hvic2 : (rest.foldl (cuckooAddKey E rnd maxMoves bits)
        (cuckooAddKey E rnd maxMoves bits st key)).victims =
        (cuckooAddKey E rnd maxMoves bits st key).victims := by
      rw [ht2, hnil.2, List.append_nil]
    have hb1 : (cuckooAddKey E rnd maxMoves bits st key).numBuckets = nb := by
      unfold cuckooAddKey
      rw [cuckooAddLoop_numBuckets]
      exact hb
    have hvic1' : (cuckooAddLoop E rnd maxMoves 0 st (cuckooFingerprint E key bits)
        (E.keyHash key % nb)).victims = st.victims := by
      unfold cuckooAddKey at hvic1
      rw [hb] at hvic1
      exact hvic1
    rcases hpre with hmem | hserved
    · rcases List.mem_cons.mp hmem with rfl | hmem'
      · refine ih _ key0 hb1 hvic2 (Or.inr ?_)
        unfold cuckooAddKey
        rw [hb]
        exact cuckooAddLoop_served E rnd bits nb hpow maxMoves 0 st _ _ key0 hb
          (Nat.mod_lt _ hnb0) hvic1' (Or.inr ⟨rfl, Or.inl rfl⟩)
      · exact ih _ key0 hb1 hvic2 (Or.inl hmem')
    · refine ih _ key0 hb1 hvic2 (Or.inr ?_)
      unfold cuckooAddKey
      rw [hb]
      exact cuckooAddLoop_served E rnd bits nb hpow maxMoves 0 st _ _ key0 hb
        (Nat.mod_lt _ hnb0) hvic1' (Or.inl hserved)

theorem cuckooServed_mayMatch (E : CuckooEnv) (st : CuckooState) (bitsPerKey : Nat)
    (key : List Byte)
    (hbpk : bitsPerKey = 32 ∨ bitsPerKey = 24 ∨ bitsPerKey = 20 ∨ bitsPerKey = 16 ∨
      bitsPerKey = 10)
    (hnb0 : 0 < st.numBuckets)
    (hs : cuckooServed E bitsPerKey st.numBuckets st.table key) :
    cuckooKeyMayMatch E (cuckooFinish bitsPerKey st) key = true := by
  obtain ⟨j, hj4, hw⟩ := hs
  unfold cuckooKeyMayMatch
  dsimp only [cuckooFinish]
  rw [if_pos hbpk]
  unfold cuckooKeyTester cuckooReaderRead
  dsimp only
  rw [List.any_eq_true]
  refine ⟨j, List.mem_range.mpr hj4, ?_⟩
  have hjm : j % 4 = j := Nat.mod_eq_of_lt hj4
  have hi1lt : E.keyHash key % st.numBuckets < st.numBuckets := Nat.mod_lt _ hnb0
  have hi2lt : cuckooAlt E (E.keyHash key % st.numBuckets)
      (cuckooFingerprint E key bitsPerKey) % st.numBuckets < st.numBuckets :=
    Nat.mod_lt _ hnb0
  rcases hw with hw | hw
  · rw [if_neg (not_le.mpr hi1lt), hjm, hw]
    simp
  · rw [if_neg (not_le.mpr hi1lt), if_neg (not_le.mpr hi2lt), hjm, hw]
    simp

/-- C10 (amended): after `Reset(num_keys)` — provided the ceil
`ceil(u32(num_keys+3)/4 * (1/frac))` is at least 1, which excludes exactly
the residue `num_keys ≡ 2^32 - 3 (mod 2^32)` where the `uint32` sum wraps to
0 and `Reset` leaves `num_buckets = UpperPower2(0) = 0`, not a power of two
(see the counterexample) — and throughout any sequence of `AddKey` calls,
`num_buckets` is a power of two, every occupied slot holds the (nonzero)
fingerprint of some added key and sits in one of that key's two candidate
buckets, and `CuckooAlt` composed with the power-of-two mod is an
involution. -/
theorem cuckooBlock_invariant (E : CuckooEnv) (rnd : Nat → Nat)
    (maxMoves bitsPerKey : Nat) (frac : ℚ) (n : Nat) (keys : List (List Byte))
    (hm1 : 1 ≤ ⌈1 / frac * (u32 (n + 3) : ℚ) / 4⌉₊)
    (hm2 : ⌈1 / frac * (u32 (n + 3) : ℚ) / 4⌉₊ ≤ 2 ^ 63) :
    (keys.foldl (cuckooAddKey E rnd maxMoves bitsPerKey) (cuckooReset frac n)).numBuckets =
      cuckooNumBuckets frac n ∧
    (∃ k, cuckooNumBuckets frac n = 2 ^ k) ∧
    cuckooSlotOK E bitsPerKey keys (cuckooNumBuckets frac n)
      (keys.foldl (cuckooAddKey E rnd maxMoves bitsPerKey) (cuckooReset frac n)).table ∧
    (∀ i fp, i < cuckooNumBuckets frac n →
      cuckooAlt E (cuckooAlt E i fp % cuckooNumBuckets frac n) fp %
        cuckooNumBuckets frac n = i) := by
  have hu : u64 ⌈1 / frac * (u32 (n + 3) : ℚ) / 4⌉₊ = ⌈1 / frac * (u32 (n + 3) : ℚ) / 4⌉₊ := by
    unfold u64
    have : (2 : Nat) ^ 63 = 9223372036854775808 := by norm_num
    omega
  have hpow : ∃ k, cuckooNumBuckets frac n = 2 ^ k := by
    obtain ⟨heq, _, _⟩ := upperPower2_eq _ hm1 hm2
    exact ⟨_, by rw [cuckooNumBuckets, hu, heq]⟩
  obtain ⟨hb, hwf⟩ := cuckooFold_slotOK E rnd maxMoves bitsPerKey _ hpow keys keys
    (cuckooReset frac n) (fun k hk => hk) rfl (fun i j _ hne => absurd rfl hne)
  exact ⟨hb, hpow, hwf, fun i fp hi => cuckooAlt_involution_nb E _ i fp hpow hi⟩

/-- C3: for every cuckoo filter built by `Reset(num_keys)` and `AddKey` calls
during which the victim set stays empty, `CuckooKeyMayMatch` (which probes
only the four slots of the two candidate buckets `i1 = hash % num_buckets`
and `i2 = CuckooAlt(i1, fp) % num_buckets`) returns true on every added key,
and the insert path keeps every stored fingerprint in one of its two
candidate buckets.  The hypotheses require the bucket-count ceil
`ceil(u32(num_keys+3)/4 * (1/frac))` to be at least 1: this excludes exactly
the residue `num_keys ≡ 2^32 - 3 (mod 2^32)`, where the `uint32` sum wraps
to 0, `Reset` produces 0 buckets and `AddKey` computes `hash % 0`
(division by zero, C++ undefined behaviour). -/
theorem cuckooBlock_no_victims_no_false_negatives (E : CuckooEnv) (rnd : Nat → Nat)
    (maxMoves bitsPerKey : Nat) (frac : ℚ) (n : Nat) (keys : List (List Byte))
    (hm1 : 1 ≤ ⌈1 / frac * (u32 (n + 3) : ℚ) / 4⌉₊)
    (hm2 : ⌈1 / frac * (u32 (n + 3) : ℚ) / 4⌉₊ ≤ 2 ^ 63)
    (hbpk : bitsPerKey = 32 ∨ bitsPerKey = 24 ∨ bitsPerKey = 20 ∨ bitsPerKey = 16 ∨
      bitsPerKey = 10)
    (hvic : (keys.foldl (cuckooAddKey E rnd maxMoves bitsPerKey)
      (cuckooReset frac n)).victims = []) :
    (∀ key ∈ keys,
      cuckooKeyMayMatch E
        (cuckooFinish bitsPerKey
          (keys.foldl (cuckooAddKey E rnd maxMoves bitsPerKey) (cuckooReset frac n)))
        key = true) ∧
    cuckooSlotOK E bitsPerKey keys (cuckooNumBuckets frac n)
      (keys.foldl (cuckooAddKey E rnd maxMoves bitsPerKey) (cuckooReset frac n)).table := by
  have hu : u64 ⌈1 / frac * (u32 (n + 3) : ℚ) / 4⌉₊ = ⌈1 / frac * (u32 (n + 3) : ℚ) / 4⌉₊ := by
    unfold u64
    have : (2 : Nat) ^ 63 = 9223372036854775808 := by norm_num
    omega
  have hpow : ∃ k, cuckooNumBuckets frac n = 2 ^ k := by
    obtain ⟨heq, _, _⟩ := upperPower2_eq _ hm1 hm2
    exact ⟨_, by rw [cuckooNumBuckets, hu, heq]⟩
  have hnb0 : 0 < cuckooNumBuckets frac n := pow_pos_of_exists _ hpow
  obtain ⟨hb, hwf⟩ := cuckooFold_slotOK E rnd maxMoves bitsPerKey _ hpow keys keys
    (cuckooReset frac n) (fun k hk => hk) rfl (fun i j _ hne => absurd rfl hne)
  refine ⟨fun key hk => ?_, hwf⟩
  have hserved := cuckooFold_served E rnd maxMoves bitsPerKey _ hpow keys
    (cuckooReset frac n) key rfl (by rw [hvic]; rfl) (Or.inl hk)
  refine cuckooServed_mayMatch E _ bitsPerKey key hbpk (by rw [hb]; exact hnb0) ?_
  rw [hb]
  exact hserved

theorem cuckooBlock_invariant_witness :
    (1 ≤ ⌈1 / ((19 : ℚ) / 20) * (u32 (1 + 3) : ℚ) / 4⌉₊ ∧
      ⌈1 / ((19 : ℚ) / 20) * (u32 (1 + 3) : ℚ) / 4⌉₊ ≤ 2 ^ 63) ∧
    (∃ k, cuckooNumBuckets ((19 : ℚ) / 20) 1 = 2 ^ k) ∧
    cuckooSlotOK ⟨fun _ => 0, fun _ => 1, fun _ => 0⟩ 16 [[1]] (cuckooNumBuckets ((19 : ℚ) / 20) 1)
      ([[1]].foldl
        (cuckooAddKey ⟨fun _ => 0, fun _ => 1, fun _ => 0⟩ (fun _ => 0) 1 16)
        (cuckooReset ((19 : ℚ) / 20) 1)).table := by
  have h : 1 / ((19 : ℚ) / 20) * (u32 (1 + 3) : ℚ) / 4 = 20 / 19 := by norm_num [u32]
  have hm1 : (1 : Nat) ≤ ⌈1 / ((19 : ℚ) / 20) * (u32 (1 + 3) : ℚ) / 4⌉₊ := by
    rw [h]
    exact Nat.ceil_pos.mpr (by norm_num)
  have hm2 : ⌈1 / ((19 : ℚ) / 20) * (u32 (1 + 3) : ℚ) / 4⌉₊ ≤ 2 ^ 63 := by
    have hc : ⌈1 / ((19 : ℚ) / 20) * (u32 (1 + 3) : ℚ) / 4⌉₊ = 2 := by
      rw [h, Nat.ceil_eq_iff (by norm_num)]
      norm_num
    rw [hc]
    norm_num
  have hmain := cuckooBlock_invariant ⟨fun _ => 0, fun _ => 1, fun _ => 0⟩ (fun _ => 0) 1 16
    ((19 : ℚ) / 20) 1 [[1]] hm1 hm2
  exact ⟨⟨hm1, hm2⟩, hmain.2.1, hmain.2.2.1⟩

theorem cuckooBlock_no_victims_witness :
    ([[1]].foldl
      (cuckooAddKey ⟨fun _ => 0, fun _ => 1, fun _ => 0⟩ (fun _ => 0) 1 16)
      (cuckooReset ((19 : ℚ) / 20) 1)).victims = [] ∧
    cuckooKeyMayMatch ⟨fun _ => 0, fun _ => 1, fun _ => 0⟩
      (cuckooFinish 16
        ([[1]].foldl
          (cuckooAddKey ⟨fun _ => 0, fun _ => 1, fun _ => 0⟩ (fun _ => 0) 1 16)
          (cuckooReset ((19 : ℚ) / 20) 1)))
      [1] = true := by
  have h : 1 / ((19 : ℚ) / 20) * (u32 (1 + 3) : ℚ) / 4 = 20 / 19 := by norm_num [u32]
  have hm1 : (1 : Nat) ≤ ⌈1 / ((19 : ℚ) / 20) * (u32 (1 + 3) : ℚ) / 4⌉₊ := by
    rw [h]
    exact Nat.ceil_pos.mpr (by norm_num)
  have hm2 : ⌈1 / ((19 : ℚ) / 20) * (u32 (1 + 3) : ℚ) / 4⌉₊ ≤ 2 ^ 63 := by
    have hc : ⌈1 / ((19 : ℚ) / 20) * (u32 (1 + 3) : ℚ) / 4⌉₊ = 2 := by
      rw [h, Nat.ceil_eq_iff (by norm_num)]
      norm_num
    rw [hc]
    norm_num
  have hvic : ([[1]].foldl
      (cuckooAddKey ⟨fun _ => 0, fun _ => 1, fun _ => 0⟩ (fun _ => 0) 1 16)
      (cuckooReset ((19 : ℚ) / 20) 1)).victims = ([] : List Nat) := rfl
  refine ⟨hvic, ?_⟩
  exact (cuckooBlock_no_victims_no_false_negatives ⟨fun _ => 0, fun _ => 1, fun _ => 0⟩
    (fun _ => 0) 1 16 ((19 : ℚ) / 20) 1 [[1]] hm1 hm2 (by omega) hvic).1 [1]
    (List.mem_singleton.mpr rfl)

/-! ## Bitmap trailer and dispatch (C6) -/

theorem getD_append_two (l : List Byte) (a b : Byte) :
    (l ++ [a, b]).getD l.length 0 = a ∧ (l ++ [a, b]).getD (l.length + 1) 0 = b := by
  constructor
  · rw [List.getD, List.get?_append_right (le_refl _)]
    simp
  · rw [List.getD, List.get?_append_right (by omega)]
    simp

/-- C6: every finished bitmap filter ends with the two trailer bytes
`key_bits` then the format id; `BitmapKeyMustMatch` returns false on inputs
shorter than 2 bytes, returns false when the derived index is out of the
domain `2^key_bits` (the trailer byte; `1u << key_bits` is well defined for
`key_bits ≤ 31`), and returns true when the format-id byte matches none of
the six known ids. -/
theorem bitmapTrailer_dispatch :
    (∀ (fmt : BitmapFormatType) (keyBits numKeys : Nat) (idxs : List Nat),
      2 ≤ (bitmapBlockFinish fmt keyBits numKeys idxs).length ∧
      (bitmapBlockFinish fmt keyBits numKeys idxs).getD
        ((bitmapBlockFinish fmt keyBits numKeys idxs).length - 2) 0 = keyBits ∧
      (bitmapBlockFinish fmt keyBits numKeys idxs).getD
        ((bitmapBlockFinish fmt keyBits numKeys idxs).length - 1) 0 = bitmapFormatByte fmt) ∧
    (∀ (key input : List Byte), input.length < 2 → bitmapKeyMustMatch key input = false) ∧
    (∀ (key input : List Byte), 2 ≤ input.length →
      2 ^ (input.getD (input.length - 2) 0) ≤ bitmapIndexOf key →
      bitmapKeyMustMatch key input = false) ∧
    (∀ (key input : List Byte), 2 ≤ input.length →
      bitmapIndexOf key < 2 ^ (input.getD (input.length - 2) 0) →
      (∀ fmt : BitmapFormatType, input.getD (input.length - 1) 0 ≠ bitmapFormatByte fmt) →
      bitmapKeyMustMatch key input = true) := by
  refine ⟨?_, ?_, ?_, ?_⟩
  · intro fmt keyBits numKeys idxs
    obtain ⟨ha, hb⟩ := getD_append_two (bitmapRun fmt keyBits numKeys idxs) keyBits
      (bitmapFormatByte fmt)
    have hlen : (bitmapBlockFinish fmt keyBits numKeys idxs).length =
        (bitmapRun fmt keyBits numKeys idxs).length + 2 := by
      simp [bitmapBlockFinish]
    refine ⟨by omega, ?_, ?_⟩
    · rw [hlen, Nat.add_sub_cancel]
      exact ha
    · rw [hlen, show (bitmapRun fmt keyBits numKeys idxs).length + 2 - 1 =
        (bitmapRun fmt keyBits numKeys idxs).length + 1 by omega]
      exact hb
  · intro key input hshort
    unfold bitmapKeyMustMatch
    rw [if_pos hshort]
  · intro key input hlen hdom
    unfold bitmapKeyMustMatch
    rw [if_neg (by omega : ¬ input.length < 2)]
    dsimp only
    rw [if_pos hdom]
  · intro key input hlen hdom hfmt
    unfold bitmapKeyMustMatch
    rw [if_neg (by omega : ¬ input.length < 2)]
    dsimp only
    rw [if_neg (by omega : ¬ 2 ^ input.getD (input.length - 2) 0 ≤ bitmapIndexOf key)]
    rw [if_neg (hfmt .kUncompressedBitmap), if_neg (hfmt .kVarintBitmap),
      if_neg (hfmt .kVarintPlusBitmap), if_neg (hfmt .kPForDeltaBitmap),
      if_neg (hfmt .kRoaringBitmap), if_neg (hfmt .kPRoaringBitmap)]

theorem bitmapTrailer_dispatch_witness :
    ([] : List Byte).length < 2 ∧ bitmapKeyMustMatch [0, 0, 0, 0] [] = false :=
  ⟨by decide, bitmapTrailer_dispatch.2.1 [0, 0, 0, 0] [] (by decide)⟩

/-! ## pForDelta zero header (C8) and the bucket-counter wrap (C1 counterexample) -/

/-- C8: refuted — `PForDeltaFormat::Finish` on the singleton set `{0}` (key
bits 8, `Reset(1)`, one `Set(0)`) emits a single cohort whose gap list is
`[0]`, so `cohort_or = 0` and the header byte is `LeftMostOneBit(0) = 0`;
`PForDeltaFormat::Test` reads that byte as `bit_num` and evaluates
`(input.size() - i) * 8 / bit_num`, dividing by zero (undefined behaviour in
the C++). -/
theorem pForDelta_zero_header_bug :
    bitmapRun .kPForDeltaBitmap 8 1 [0] = [0] ∧
    (bitmapRun .kPForDeltaBitmap 8 1 [0]).getD 0 0 = 0 := by
  have hst : List.foldl cfmtSet (cfmtReset 8 1) [0] = ⟨8, 1, 2, [1, 0], []⟩ := rfl
  have hpb : packBits [] = [] := by rw [packBits]; rfl
  have h3 : encodingCohort [0] = [0] := by
    simp [encodingCohort, leftMostOneBit, bitsValBE, hpb]
  have hrun : bitmapRun .kPForDeltaBitmap 8 1 [0] = [0] := by
    simp only [bitmapRun, hst, pForDeltaFinish]
    show pfdFinishGo [1, 0] 2 [0] [] 0 [] = [0]
    have h1 : pfdEmit [0] 0 [] = ([], 0, [0]) := rfl
    simp [pfdFinishGo, bucketKeysFull, h1, h3]
  exact ⟨hrun, by rw [hrun]; rfl⟩

theorem setN_append_right (l1 l2 : List Nat) (k v : Nat) :
    (l1 ++ l2).set (l1.length + k) v = l1 ++ l2.set k v := by
  induction l1 with
  | nil => simp
  | cons a t ih =>
    simp only [List.cons_append, List.length_cons]
    rw [show t.length + 1 + k = (t.length + k) + 1 by omega, List.set_cons_succ, ih]

theorem cfmt_wrap_fold : ∀ n, n ≤ 256 →
    List.foldl cfmtSet (cfmtReset 8 256) (List.range n) =
      ⟨8, 1, 257, n % 256 :: (List.range n ++ List.replicate (256 - n) 0), []⟩ := by
  intro n
  induction n with
  | zero =>
    intro _
    show cfmtReset 8 256 = _
    rw [show cfmtReset 8 256 = (⟨8, 1, 257, List.replicate 257 0, []⟩ : CFmt) from rfl]
    rw [show (257 : Nat) = 256 + 1 by norm_num, List.replicate_succ]
    rw [show (0 : Nat) % 256 = 0 from rfl, List.range_zero, List.nil_append,
      show 256 - 0 = 256 from rfl]
  | succ n ih =>
    intro hn
    have hlt : n < 256 := by omega
    have hmod : n % 256 = n := Nat.mod_eq_of_lt hlt
    rw [List.range_succ, List.foldl_append, ih (by omega), List.foldl_cons, List.foldl_nil]
    have h28 : (2 : Nat) ^ 8 = 256 := by norm_num
    have hb : n >>> 8 = 0 := by
      rw [Nat.shiftRight_eq_div_pow, h28]
      exact Nat.div_eq_of_lt hlt
    show cfmtSet ⟨8, 1, 257, n % 256 :: (List.range n ++ List.replicate (256 - n) 0), []⟩ n
      = _
    simp only [cfmtSet, hb]
    rw [Nat.zero_mul]
    rw [List.getD_cons_zero, hmod]
    rw [if_pos (by omega : n < 257 - 1)]
    rw [Nat.zero_add]
    rw [List.set_cons_succ]
    have hset := setN_append_right (List.range n) (List.replicate (256 - n) 0) 0 n
    rw [List.length_range, Nat.add_zero] at hset
    rw [hset]
    rw [show 256 - n = (256 - (n + 1)) + 1 by omega, List.replicate_succ,
      List.set_cons_zero]
    rw [List.set_cons_zero]
    rw [List.append_assoc, List.singleton_append]

set_option maxRecDepth 10000 in
/-- C1: counterexample to the claim as stated — with key bits 8 and
`Reset(256)` (one bucket, bucket size 257), inserting all 256 indices of the
bucket wraps the 8-bit `key_index` counter to zero, so `Finish` reads a key
count of 0, emits an empty varint stream, and an inserted index (0) is
reported absent by `BitmapKeyMustMatch`. -/
theorem bitmap_counter_wrap_cex :
    0 ∈ List.range 256 ∧
    bitmapKeyMustMatch [0, 0, 0, 0]
      (bitmapBlockFinish .kVarintBitmap 8 256 (List.range 256)) = false := by
  constructor
  · decide
  · have hst : List.foldl cfmtSet (cfmtReset 8 256) (List.range 256) =
        ⟨8, 1, 257, 0 :: List.range 256, []⟩ := by
      have h := cfmt_wrap_fold 256 (le_refl 256)
      rw [show (256 : Nat) % 256 = 0 from rfl, show 256 - 256 = 0 from rfl,
        List.replicate_zero, List.append_nil] at h
      exact h
    have hfin : bitmapBlockFinish .kVarintBitmap 8 256 (List.range 256) =
        [8, bitmapFormatByte .kVarintBitmap] := by
      simp only [bitmapBlockFinish, bitmapRun, hst]
      rfl
    rw [hfin]
    have hvt : varintTestGo 0 [] 0 = false := by rw [varintTestGo]
    simp [bitmapKeyMustMatch, varintTest, hvt, bitmapIndexOf, decodeFixed32, bitmapFormatByte]

/-! ## Generic list lemmas for the bitmap development (C1) -/

theorem getDN_append_left (l1 l2 : List Nat) (k : Nat) (h : k < l1.length) :
    (l1 ++ l2).getD k 0 = l1.getD k 0 := by
  induction l1 generalizing k with
  | nil => simp at h
  | cons a t ih =>
    cases k with
    | zero => rfl
    | succ k =>
      simp only [List.cons_append, List.getD_cons_succ]
      exact ih k (by simpa using h)

theorem getDN_append_right (l1 l2 : List Nat) (k : Nat) :
    (l1 ++ l2).getD (l1.length + k) 0 = l2.getD k 0 := by
  induction l1 with
  | nil => simp
  | cons a t ih =>
    simp only [List.cons_append, List.length_cons]
    rw [show t.length + 1 + k = (t.length + k) + 1 by omega, List.getD_cons_succ]
    exact ih

theorem getDN_set_self (l : List Nat) (i v : Nat) (h : i < l.length) :
    (l.set i v).getD i 0 = v := by
  induction l generalizing i with
  | nil => simp at h
  | cons a t ih =>
    cases i with
    | zero => rfl
    | succ i =>
      simp only [List.set_cons_succ, List.getD_cons_succ]
      exact ih i (by simpa using h)

theorem getDN_set_ne (l : List Nat) (i v j : Nat) (h : j ≠ i) :
    (l.set i v).getD j 0 = l.getD j 0 := by
  induction l generalizing i j with
  | nil => simp
  | cons a t ih =>
    cases i with
    | zero =>
      cases j with
      | zero => exact absurd rfl h
      | succ j => rfl
    | succ i =>
      cases j with
      | zero => rfl
      | succ j =>
        simp only [List.set_cons_succ, List.getD_cons_succ]
        exact ih i j (by omega)

theorem setN_append_left (l1 l2 : List Nat) (i : Nat) (v : Nat) (h : i < l1.length) :
    (l1 ++ l2).set i v = l1.set i v ++ l2 := by
  induction l1 generalizing i with
  | nil => simp at h
  | cons a t ih =>
    cases i with
    | zero => rfl
    | succ i =>
      simp only [List.cons_append, List.set_cons_succ]
      rw [ih i (by simpa using h)]

theorem setN_length (l : List Nat) (i v : Nat) : (l.set i v).length = l.length :=
  List.length_set l i v

theorem takeN_set_succ (l : List Nat) (i v : Nat) (h : i < l.length) :
    (l.set i v).take (i + 1) = l.take i ++ [v] := by
  induction l generalizing i with
  | nil => simp at h
  | cons a t ih =>
    cases i with
    | zero => rfl
    | succ i =>
      simp only [List.set_cons_succ, List.take_cons_succ, List.cons_append]
      rw [ih i (by simpa using h)]

theorem dropN_set_of_lt (l : List Nat) (i v q : Nat) (h : i < q) :
    (l.set i v).drop q = l.drop q := by
  induction l generalizing i q with
  | nil => simp
  | cons a t ih =>
    cases i with
    | zero =>
      cases q with
      | zero => omega
      | succ q => rfl
    | succ i =>
      cases q with
      | zero => omega
      | succ q =>
        simp only [List.set_cons_succ, List.drop_succ_cons]
        exact ih i q (by omega)

theorem map_range_getD (l : List Nat) (m : Nat) (h : m ≤ l.length) :
    (List.range m).map (fun j => l.getD j 0) = l.take m := by
  induction m with
  | zero => simp
  | succ m ih =>
    rw [List.range_succ, List.map_append, ih (by omega), List.take_succ]
    simp only [List.map_cons, List.map_nil]
    congr 1
    have hm : m < l.length := by omega
    rw [List.getD_eq_getElem?_getD, List.getElem?_eq_getElem hm]
    simp

theorem getD_eq_getElem_of_lt (l : List Nat) (k : Nat) (h : k < l.length) :
    l.getD k 0 = l[k] := by
  rw [List.getD_eq_getElem?_getD, List.getElem?_eq_getElem h]
  rfl

/-! ## Bit-stream lemmas -/

theorem valOfBits_foldl_acc (l : List Bool) (a : Nat) :
    l.foldl (fun a bit => 2 * a + (if bit then 1 else 0)) a =
      a * 2 ^ l.length + valOfBits l := by
  induction l generalizing a with
  | nil => simp [valOfBits]
  | cons b t ih =>
    show t.foldl _ (2 * a + _) = _
    rw [ih]
    have hv : valOfBits (b :: t) = (if b then 1 else 0) * 2 ^ t.length + valOfBits t := by
      show t.foldl _ (2 * 0 + _) = _
      rw [ih]
      ring_nf
    rw [hv]
    simp only [List.length_cons, pow_succ]
    ring

theorem valOfBits_cons (b : Bool) (t : List Bool) :
    valOfBits (b :: t) = (if b then 1 else 0) * 2 ^ t.length + valOfBits t := by
  show t.foldl _ (2 * 0 + _) = _
  rw [valOfBits_foldl_acc]
  ring_nf

theorem valOfBits_lt (l : List Bool) : valOfBits l < 2 ^ l.length := by
  induction l with
  | nil => simp [valOfBits]
  | cons b t ih =>
    rw [valOfBits_cons]
    simp only [List.length_cons, pow_succ]
    rcases b <;> simp <;> omega

theorem valOfBits_append (l1 l2 : List Bool) :
    valOfBits (l1 ++ l2) = valOfBits l1 * 2 ^ l2.length + valOfBits l2 := by
  show (l1 ++ l2).foldl _ 0 = _
  rw [List.foldl_append, valOfBits_foldl_acc]
  rfl

theorem valOfBits_replicate_false (n : Nat) :
    valOfBits (List.replicate n false) = 0 := by
  induction n with
  | zero => rfl
  | succ n ih => rw [List.replicate_succ, valOfBits_cons, ih]; simp

theorem bitsValBE_length (w d : Nat) : (bitsValBE w d).length = w := by
  simp [bitsValBE]

theorem bitsValBE_succ (w d : Nat) :
    bitsValBE (w + 1) d = d.testBit w :: bitsValBE w d := by
  simp only [bitsValBE, List.range_succ_eq_map, List.map_cons, List.map_map]
  congr 1
  apply List.map_congr_left
  intro a ha
  simp only [Function.comp_apply]
  congr 1
  omega

theorem valOfBits_bitsValBE (w d : Nat) : valOfBits (bitsValBE w d) = d % 2 ^ w := by
  induction w with
  | zero => simp [bitsValBE, valOfBits, Nat.mod_one]
  | succ w ih =>
    rw [bitsValBE_succ, valOfBits_cons, bitsValBE_length, ih, Nat.testBit_to_div_mod]
    have hmod : d % 2 ^ (w + 1) = 2 ^ w * (d / 2 ^ w % 2) + d % 2 ^ w := by
      rw [pow_succ, Nat.mod_mul]
      exact Nat.add_comm _ _
    rcases Nat.mod_two_eq_zero_or_one (d / 2 ^ w) with h2 | h2 <;> simp [h2, hmod]

theorem testBit_add_mul_pow_low (a v p L : Nat) (hp : p < L) :
    (a * 2 ^ L + v).testBit p = v.testBit p := by
  have hdvd : (2 : Nat) ^ p ∣ a * 2 ^ L := by
    exact Dvd.dvd.mul_left (pow_dvd_pow 2 (by omega)) a
  rw [Nat.testBit_to_div_mod, Nat.testBit_to_div_mod, Nat.add_div_of_dvd_right hdvd]
  have : a * 2 ^ L / 2 ^ p = a * 2 ^ (L - p) := by
    rw [show ((2 : Nat) ^ L) = 2 ^ (L - p) * 2 ^ p by rw [← pow_add]; congr 1; omega,
      ← Nat.mul_assoc, Nat.mul_div_cancel _ (Nat.pos_pow_of_pos p (by omega))]
  have h2p : (2 : Nat) ^ (L - p) = 2 ^ (L - p - 1) * 2 := by
    rw [← pow_succ]
    congr 1
    omega
  rw [this, show a * 2 ^ (L - p) = 2 * (a * 2 ^ (L - p - 1)) by rw [h2p]; ring]
  rw [Nat.mul_add_mod]

theorem testBit_bit_mul_pow_self (b v L : Nat) (hb : b ≤ 1) (hv : v < 2 ^ L) :
    (b * 2 ^ L + v).testBit L = decide (b = 1) := by
  rw [Nat.testBit_to_div_mod]
  have : (b * 2 ^ L + v) / 2 ^ L = b := by
    rw [Nat.add_div_of_dvd_right (Dvd.dvd.mul_left dvd_rfl b),
      Nat.mul_div_cancel _ (Nat.pos_pow_of_pos L (by omega)),
      Nat.div_eq_of_lt hv]
    omega
  rw [this]
  interval_cases b <;> simp

theorem valOfBits_testBit (c : List Bool) (t : Nat) (h : t < c.length) :
    (valOfBits c).testBit (c.length - 1 - t) = c.getD t false := by
  induction c generalizing t with
  | nil => simp at h
  | cons b rest ih =>
    rw [valOfBits_cons]
    cases t with
    | zero =>
      simp only [List.length_cons, Nat.add_sub_cancel, Nat.sub_zero, List.getD_cons_zero]
      rw [testBit_bit_mul_pow_self _ _ _ (by rcases b <;> simp) (valOfBits_lt rest)]
      rcases b <;> simp
    | succ t =>
      have ht : t < rest.length := by simpa using h
      have hpos : rest.length - 1 - t < rest.length := by omega
      rw [show (b :: rest).length - 1 - (t + 1) = rest.length - 1 - t by
        simp only [List.length_cons]; omega]
      rw [testBit_add_mul_pow_low _ _ _ _ hpos, List.getD_cons_succ]
      exact ih t ht

theorem testBit_mul_pow (a k p : Nat) :
    (a * 2 ^ k).testBit p = if k ≤ p then a.testBit (p - k) else false := by
  split
  · rename_i hkp
    rw [Nat.testBit_to_div_mod, Nat.testBit_to_div_mod]
    congr 2
    rw [show ((2 : Nat) ^ p) = 2 ^ k * 2 ^ (p - k) by rw [← pow_add]; congr 1; omega]
    rw [show a * 2 ^ k = 2 ^ k * a by ring, Nat.mul_div_mul_left _ _ (Nat.pos_pow_of_pos k (by omega))]
  · rename_i hkp
    have := testBit_add_mul_pow_low a 0 p k (by omega)
    simpa using this

theorem bitsOfByte_length (b : Byte) : (bitsOfByte b).length = 8 := by
  simp [bitsOfByte]

theorem bitsOfByte_byteOfBits (c : List Bool) (h : c.length ≤ 8) :
    bitsOfByte (byteOfBits c) = c ++ List.replicate (8 - c.length) false := by
  apply List.ext_getElem
  · simp [bitsOfByte_length, h]
  · intro t h1 h2
    rw [show (bitsOfByte (byteOfBits c))[t] =
        (byteOfBits c).testBit (7 - t) by simp [bitsOfByte]]
    have ht8 : t < 8 := by simpa [bitsOfByte_length] using h1
    unfold byteOfBits
    rw [Nat.shiftLeft_eq, testBit_mul_pow]
    by_cases htc : t < c.length
    · rw [if_pos (by omega)]
      rw [show 7 - t - (8 - c.length) = c.length - 1 - t by omega]
      rw [valOfBits_testBit c t htc]
      rw [List.getElem_append_left htc]
      exact List.getD_eq_getElem c false htc
    · rw [if_neg (by omega)]
      rw [List.getElem_append_right (by omega)]
      simp

theorem packBits_nil : packBits [] = [] := by rw [packBits]; rfl

theorem packBits_cons_block (bs : List Bool) (hne : bs ≠ []) :
    packBits bs = byteOfBits (bs.take 8) :: packBits (bs.drop 8) := by
  rw [packBits]; simp [hne]

theorem packBits_length (bs : List Bool) : (packBits bs).length = (bs.length + 7) / 8 := by
  induction bs using packBits.induct with
  | case1 => rw [packBits_nil]; rfl
  | case2 bs hne ih =>
    rw [packBits_cons_block bs hne, List.length_cons, ih, List.length_drop]
    have hlen : 1 ≤ bs.length := by
      rcases bs with _ | ⟨a, t⟩
      · exact absurd rfl hne
      · simp
    omega

theorem bitsOfBytes_nil : bitsOfBytes [] = [] := rfl

theorem bitsOfBytes_cons (b : Byte) (bs : List Byte) :
    bitsOfBytes (b :: bs) = bitsOfByte b ++ bitsOfBytes bs := by
  simp [bitsOfBytes]

theorem bitsOfBytes_append (l1 l2 : List Byte) :
    bitsOfBytes (l1 ++ l2) = bitsOfBytes l1 ++ bitsOfBytes l2 := by
  simp [bitsOfBytes]

theorem bitsOfBytes_length (bs : List Byte) : (bitsOfBytes bs).length = 8 * bs.length := by
  induction bs with
  | nil => rfl
  | cons b t ih =>
    rw [bitsOfBytes_cons, List.length_append, bitsOfByte_length, ih, List.length_cons]
    ring

theorem bitsOfBytes_drop (bs : List Byte) (k : Nat) :
    bitsOfBytes (bs.drop k) = (bitsOfBytes bs).drop (8 * k) := by
  induction bs generalizing k with
  | nil => simp [bitsOfBytes]
  | cons b t ih =>
    cases k with
    | zero => simp
    | succ k =>
      rw [List.drop_succ_cons, ih, bitsOfBytes_cons,
        show 8 * (k + 1) = 8 + 8 * k by ring]
      rw [show (8 : Nat) + 8 * k = (bitsOfByte b).length + 8 * k by rw [bitsOfByte_length]]
      rw [List.drop_append]

theorem bitsOfBytes_packBits (bs : List Bool) :
    bitsOfBytes (packBits bs) =
      bs ++ List.replicate (8 * ((bs.length + 7) / 8) - bs.length) false := by
  induction bs using packBits.induct with
  | case1 => simp [packBits_nil, bitsOfBytes]
  | case2 bs hne ih =>
    rw [packBits_cons_block bs hne, bitsOfBytes_cons, ih,
      bitsOfByte_byteOfBits _ (by simp)]
    have hlen : 1 ≤ bs.length := by
      rcases bs with _ | ⟨a, t⟩
      · exact absurd rfl hne
      · simp
    by_cases h8 : 8 ≤ bs.length
    · rw [List.length_take, List.length_drop]
      rw [show min 8 bs.length = 8 by omega]
      simp only [Nat.sub_self, List.replicate_zero, List.append_nil]
      rw [← List.append_assoc, List.take_append_drop]
      rw [show 8 * ((bs.length - 8 + 7) / 8) - (bs.length - 8) =
        8 * ((bs.length + 7) / 8) - bs.length by omega]
    · rw [List.length_take, List.length_drop]
      rw [show min 8 bs.length = bs.length by omega]
      rw [List.take_of_length_le (by omega), List.drop_of_length_le (by omega)]
      simp only [List.nil_append]
      rw [show bs.length - 8 = 0 by omega]
      rw [List.append_assoc]
      congr 2
      rw [show (0 + 7) / 8 = 0 by norm_num]
      rw [← List.replicate_add]
      congr 1
      omega

theorem flatten_uniform_take (L : List (List Bool)) (w : Nat)
    (hw : ∀ l ∈ L, l.length = w) (t : Nat) (ht : t < L.length) :
    (L.flatten.drop (t * w)).take w = L.getD t [] := by
  induction L generalizing t with
  | nil => simp at ht
  | cons a rest ih =>
    cases t with
    | zero =>
      simp only [Nat.zero_mul, List.drop_zero, List.flatten_cons, List.getD_cons_zero]
      rw [show w = a.length from (hw a (by simp)).symm, List.take_left]
    | succ t =>
      rw [List.flatten_cons, List.getD_cons_succ,
        show (t + 1) * w = a.length + t * w by rw [hw a (by simp)]; ring,
        ← List.drop_drop, List.drop_left]
      exact ih (fun l hl => hw l (by simp [hl])) t (by simpa using ht)

theorem flatten_drop_sum (L : List (List Nat)) (k : Nat) :
    L.flatten.drop (((L.take k).map List.length).sum) = (L.drop k).flatten := by
  induction L generalizing k with
  | nil => simp
  | cons a rest ih =>
    cases k with
    | zero => simp
    | succ k =>
      simp only [List.take_succ_cons, List.map_cons, List.sum_cons, List.flatten_cons,
        List.drop_succ_cons]
      rw [← List.drop_drop, List.drop_left]
      exact ih k

/-! ## Bucket partitioning of key lists -/

theorem bucketElems_append (b : Nat) (l1 l2 : List Nat) :
    bucketElems b (l1 ++ l2) = bucketElems b l1 ++ bucketElems b l2 :=
  List.filter_append _ _

theorem bucketElems_cons_self (x : Nat) (l : List Nat) :
    bucketElems (x / 256) (x :: l) = x :: bucketElems (x / 256) l := by
  simp [bucketElems]

theorem bucketElems_cons_ne (b x : Nat) (l : List Nat) (h : x / 256 ≠ b) :
    bucketElems b (x :: l) = bucketElems b l := by
  simp [bucketElems, h]

theorem bucketElems_mem (b x : Nat) (l : List Nat) (h : x ∈ bucketElems b l) :
    x ∈ l ∧ x / 256 = b := by
  refine ⟨(List.mem_filter.1 h).1, ?_⟩
  have := (List.mem_filter.1 h).2
  simpa using this

theorem perm_partition_aux (x : Nat) (l' : List Nat) (L : List Nat) (hnd : L.Nodup)
    (hmem : x / 256 ∈ L) :
    ((L.map fun b => bucketElems b (x :: l')).flatten).Perm
      (x :: (L.map fun b => bucketElems b l').flatten) := by
  induction L with
  | nil => simp at hmem
  | cons b rest ih =>
    rcases List.mem_cons.1 hmem with hb | hb
    · have hx : bucketElems b (x :: l') = x :: bucketElems b l' := by
        rw [← hb]; exact bucketElems_cons_self x l'
      have hrest : (rest.map fun b => bucketElems b (x :: l')) =
          rest.map fun b => bucketElems b l' := by
        apply List.map_congr_left
        intro b' hb'
        have hne : x / 256 ≠ b' := by
          intro hc
          exact (List.nodup_cons.1 hnd).1 (hb ▸ hc ▸ hb')
        exact bucketElems_cons_ne b' x l' hne
      rw [List.map_cons, List.flatten_cons, hx, hrest, List.map_cons, List.flatten_cons]
      exact List.Perm.refl _
    · have hbne : x / 256 ≠ b := by
        intro hc
        exact (List.nodup_cons.1 hnd).1 (hc ▸ hb)
      rw [List.map_cons, List.flatten_cons, bucketElems_cons_ne b x l' hbne,
        List.map_cons, List.flatten_cons]
      refine ((ih (List.nodup_cons.1 hnd).2 hb).append_left _).trans ?_
      exact List.perm_middle

theorem perm_partition (bn : Nat) (l : List Nat) (hb : ∀ i ∈ l, i / 256 < bn) :
    (((List.range bn).map fun b => bucketElems b l).flatten).Perm l := by
  induction l with
  | nil =>
    have : ((List.range bn).map fun b => bucketElems b ([] : List Nat)) =
        (List.range bn).map fun _ => ([] : List Nat) := by
      apply List.map_congr_left; intro b _; rfl
    rw [this]
    have h2 : ∀ (L : List Nat), ((L.map fun _ => ([] : List Nat)).flatten) = [] := by
      intro L; induction L with
      | nil => rfl
      | cons a t iht => simpa using iht
    rw [h2]
  | cons x t ih =>
    have h1 := perm_partition_aux x t (List.range bn) (List.nodup_range bn)
      (List.mem_range.2 (hb x (by simp)))
    exact h1.trans ((ih fun i hi => hb i (by simp [hi])).cons x)

theorem sorted_flatten_buckets (bn : Nat) (f : Nat → List Nat)
    (hsorted : ∀ b, (f b).Sorted (· ≤ ·))
    (hin : ∀ b, ∀ x ∈ f b, x / 256 = b) :
    (((List.range bn).map f).flatten).Sorted (· ≤ ·) := by
  rw [List.Sorted, List.pairwise_flatten]
  constructor
  · intro l hl
    rcases List.mem_map.1 hl with ⟨b, _, rfl⟩
    exact hsorted b
  · rw [List.pairwise_map]
    refine List.Pairwise.imp ?_ (List.pairwise_lt_range bn)
    intro b1 b2 hlt x hx y hy
    have hx' := hin b1 x hx
    have hy' := hin b2 y hy
    by_contra hxy
    push_neg at hxy
    have hdiv : y / 256 ≤ x / 256 := Nat.div_le_div_right (le_of_lt hxy)
    omega

theorem flatten_map_perm (L : List Nat) (A B : Nat → List Nat)
    (h : ∀ b ∈ L, (A b).Perm (B b)) :
    ((L.map A).flatten).Perm ((L.map B).flatten) := by
  induction L with
  | nil => exact List.Perm.refl _
  | cons b rest ih =>
    simp only [List.map_cons, List.flatten_cons]
    exact (h b (by simp)).append (ih fun x hx => h x (by simp [hx]))

theorem insertionSort_partition (bn : Nat) (l : List Nat) (hb : ∀ i ∈ l, i / 256 < bn) :
    l.insertionSort (· ≤ ·) =
      ((List.range bn).map fun b => (bucketElems b l).insertionSort (· ≤ ·)).flatten := by
  have hperm : (l.insertionSort (· ≤ ·)).Perm
      (((List.range bn).map fun b => (bucketElems b l).insertionSort (· ≤ ·)).flatten) := by
    refine (List.perm_insertionSort _ l).trans ?_
    refine ((perm_partition bn l hb).symm).trans ?_
    exact flatten_map_perm _ _ _ fun b _ => (List.perm_insertionSort _ _).symm
  have hs2 : ((((List.range bn).map fun b =>
      (bucketElems b l).insertionSort (· ≤ ·))).flatten).Sorted (· ≤ ·) := by
    apply sorted_flatten_buckets
    · intro b; exact List.sorted_insertionSort _ _
    · intro b x hx
      exact (bucketElems_mem b x l ((List.mem_insertionSort _).1 hx)).2
  exact List.eq_of_perm_of_sorted hperm (List.sorted_insertionSort _ l) hs2

theorem sorted_lt_of_nodup_sorted (l : List Nat) (hnd : l.Nodup) (hs : l.Sorted (· ≤ ·)) :
    l.Sorted (· < ·) :=
  (hs.and hnd).imp fun h => lt_of_le_of_ne h.1 h.2

theorem insertionSort_map_mod (s : List Nat) (b : Nat) (hin : ∀ x ∈ s, x / 256 = b) :
    (s.map (· % 256)).insertionSort (· ≤ ·) = (s.insertionSort (· ≤ ·)).map (· % 256) := by
  have hperm : ((s.map (· % 256)).insertionSort (· ≤ ·)).Perm
      ((s.insertionSort (· ≤ ·)).map (· % 256)) :=
    (List.perm_insertionSort _ _).trans ((List.perm_insertionSort _ s).symm.map _)
  have hs2 : ((s.insertionSort (· ≤ ·)).map (· % 256)).Sorted (· ≤ ·) := by
    have hsorted := List.sorted_insertionSort (· ≤ ·) s
    show List.Pairwise _ _
    rw [List.pairwise_map]
    refine List.Pairwise.imp_of_mem ?_ hsorted
    intro x y hx hy hxy
    have hxb := hin x ((List.mem_insertionSort _).1 hx)
    have hyb := hin y ((List.mem_insertionSort _).1 hy)
    have h1 := Nat.div_add_mod x 256
    have h2 := Nat.div_add_mod y 256
    have hm1 : x % 256 < 256 := Nat.mod_lt _ (by omega)
    have hm2 : y % 256 < 256 := Nat.mod_lt _ (by omega)
    omega
  exact List.eq_of_perm_of_sorted hperm (List.sorted_insertionSort _ _) hs2

/-! ## Counting keys per bucket and partition -/

theorem countP_split (l : List Nat) (f : Nat → Nat) (B : Nat) :
    l.countP (fun i => decide (f i < B + 1)) =
      l.countP (fun i => decide (f i < B)) + l.countP (fun i => decide (f i = B)) := by
  induction l with
  | nil => rfl
  | cons a t ih =>
    simp only [List.countP_cons, ih, decide_eq_true_eq]
    split_ifs <;> omega

theorem sum_bucket_counts (f : Nat → Nat) (l : List Nat) (B : Nat) :
    ((List.range B).map (fun b => (l.filter (fun i => f i = b)).length)).sum =
      l.countP (fun i => decide (f i < B)) := by
  induction B with
  | zero =>
    have : (fun i => decide (f i < 0)) = fun _ : Nat => false := by
      funext i; simp
    rw [this, List.countP_false]
    simp
  | succ B ih =>
    rw [List.range_succ, List.map_append, List.sum_append, ih, countP_split]
    simp [← List.countP_eq_length_filter]

theorem countP_div_div (l : List Nat) (p : Nat) :
    l.countP (fun i => decide (i / 256 < 256 * p)) =
      l.countP (fun i => decide (i / 65536 < p)) := by
  apply List.countP_congr
  intro x _
  simp only [decide_eq_true_eq]
  rw [show (65536 : Nat) = 256 * 256 by norm_num, ← Nat.div_div_eq_div_mul]
  rw [Nat.div_lt_iff_lt_mul (by omega : (0 : Nat) < 256)]
  omega

/-! ## The shared staging invariant (`CompressedFormat::Set`) -/

theorem bucket_pos_ne (bs b1 o1 b2 o2 : Nat) (h1 : o1 < bs) (h2 : o2 < bs)
    (hne : b1 ≠ b2) : b1 * bs + o1 ≠ b2 * bs + o2 := by
  intro h
  apply hne
  have e1 : (b1 * bs + o1) / bs = b1 := by
    rw [Nat.mul_comm, Nat.mul_add_div (by omega), Nat.div_eq_of_lt h1, Nat.add_zero]
  have e2 : (b2 * bs + o2) / bs = b2 := by
    rw [Nat.mul_comm, Nat.mul_add_div (by omega), Nat.div_eq_of_lt h2, Nat.add_zero]
  rw [← e1, ← e2, h]

theorem pos_lt_len (bs b o bn : Nat) (hb : b < bn) (ho : o < bs) :
    b * bs + o < bs * bn := by
  have h1 : bs * (b + 1) ≤ bs * bn := Nat.mul_le_mul_left bs hb
  have h2 : bs * (b + 1) = b * bs + bs := by ring
  omega

theorem bucketElems_singleton (b x : Nat) :
    bucketElems b [x] = if x / 256 = b then [x] else [] := by
  by_cases h : x / 256 = b <;> simp [bucketElems, h]

theorem div256_lt (i kb : Nat) (hkb : 8 ≤ kb) (hi : i < 2 ^ kb) :
    i / 256 < 2 ^ (kb - 8) := by
  rw [Nat.div_lt_iff_lt_mul (by omega : (0:Nat) < 256)]
  calc i < 2 ^ kb := hi
    _ = 2 ^ (kb - 8) * 256 := by
        rw [show (256 : Nat) = 2 ^ 8 by norm_num, ← pow_add]
        congr 1
        omega

theorem replicate_getD_zero (n k : Nat) : (List.replicate n (0:Nat)).getD k 0 = 0 := by
  by_cases h : k < n
  · rw [getD_eq_getElem_of_lt _ _ (by simpa using h)]
    exact List.getElem_replicate ..
  · exact List.getD_eq_default _ _ (by simpa using h)

theorem getDN_append_last (l1 : List Nat) (a : Nat) :
    (l1 ++ [a]).getD l1.length 0 = a := by
  simpa using getDN_append_right l1 [a] 0

theorem cfmt_stage (kb nk : Nat) (l : List Nat) (hkb : 8 ≤ kb)
    (hbound : ∀ i ∈ l, i < 2 ^ kb)
    (hcap : ∀ b, (bucketElems b l).length ≤ 255) :
    ∀ st, st = l.foldl cfmtSet (cfmtReset kb nk) →
    st.keyBits = kb ∧
    st.bucketNum = 2 ^ (kb - 8) ∧
    st.bucketSize = (nk + 2 ^ (kb - 8) - 1) / 2 ^ (kb - 8) + 1 ∧
    st.workingSpace.length = st.bucketSize * st.bucketNum ∧
    (∀ b, st.workingSpace.getD (b * st.bucketSize) 0 = (bucketElems b l).length) ∧
    (∀ b j, j < min (bucketElems b l).length (st.bucketSize - 1) →
      st.workingSpace.getD (b * st.bucketSize + 1 + j) 0 =
        (bucketElems b l).getD j 0 % 256) ∧
    (∀ b, bucketElems b st.overflowed = (bucketElems b l).drop (st.bucketSize - 1)) := by
  induction l using List.reverseRecOn with
  | nil =>
    intro st hst
    subst hst
    refine ⟨rfl, rfl, rfl, by simp [cfmtReset], ?_, ?_, ?_⟩
    · intro b
      show (List.replicate _ 0).getD _ 0 = _
      rw [replicate_getD_zero]
      rfl
    · intro b j hj
      simp [bucketElems] at hj
    · intro b
      show bucketElems b [] = _
      simp [bucketElems]
  | append_singleton l' x ih =>
    intro st hst
    have hbound' : ∀ i ∈ l', i < 2 ^ kb := fun i hi => hbound i (by simp [hi])
    have hcapA : ∀ b, (bucketElems b (l' ++ [x])).length =
        (bucketElems b l').length + (bucketElems b [x]).length := by
      intro b; rw [bucketElems_append, List.length_append]
    have hcap' : ∀ b, (bucketElems b l').length ≤ 255 := by
      intro b
      have h1 := hcap b
      have h2 := hcapA b
      omega
    obtain ⟨hkB, hbn, hbs, hlen, hcnt, hslot, hov⟩ :=
      ih hbound' hcap' (l'.foldl cfmtSet (cfmtReset kb nk)) rfl
    set st0 := l'.foldl cfmtSet (cfmtReset kb nk) with hst0
    have hxl : x ∈ l' ++ [x] := by simp
    have hx256 : x >>> 8 = x / 256 := by
      rw [Nat.shiftRight_eq_div_pow]
    have hb0lt : x / 256 < 2 ^ (kb - 8) := div256_lt x kb hkb (hbound x hxl)
    have hbspos : 1 ≤ st0.bucketSize := by rw [hbs]; exact Nat.le_add_left 1 _
    set cnt := (bucketElems (x / 256) l').length with hcntdef
    have hkeyIndex : st0.workingSpace.getD (x / 256 * st0.bucketSize) 0 = cnt := hcnt _
    have helems_self : bucketElems (x / 256) (l' ++ [x]) =
        bucketElems (x / 256) l' ++ [x] := by
      rw [bucketElems_append, bucketElems_singleton, if_pos rfl]
    have helems_ne : ∀ b, b ≠ x / 256 → bucketElems b (l' ++ [x]) = bucketElems b l' := by
      intro b hb
      rw [bucketElems_append, bucketElems_singleton, if_neg (fun hc => hb hc.symm),
        List.append_nil]
    have hcapx : cnt + 1 ≤ 255 := by
      have h1 := hcap (x / 256)
      rw [helems_self, List.length_append] at h1
      simp only [List.length_cons, List.length_nil] at h1
      omega
    have hfold : st = cfmtSet st0 x := by rw [hst, List.foldl_append]; rfl
    rw [hfold]
    simp only [cfmtSet]
    rw [hx256, hkeyIndex]
    by_cases hroom : cnt < st0.bucketSize - 1
    · rw [if_pos hroom]
      dsimp only
      refine ⟨hkB, hbn, hbs, ?_, ?_, ?_, ?_⟩
      · rw [List.length_set, List.length_set]
        exact hlen
      · intro b
        by_cases hbx : b = x / 256
        · subst hbx
          rw [getDN_set_self _ _ _ (by
            rw [List.length_set, hlen, hbn]
            have := pos_lt_len st0.bucketSize (x / 256) 0 (2 ^ (kb - 8)) hb0lt (by omega)
            omega)]
          rw [helems_self, List.length_append]
          simp only [List.length_cons, List.length_nil]
          rw [hcntdef] at hcapx ⊢
          have hltm : (bucketElems (x / 256) l').length + 1 < 256 :=
            lt_of_le_of_lt hcapx (by norm_num)
          rw [Nat.mod_eq_of_lt hltm, Nat.zero_add]
        · have hne1 : b * st0.bucketSize ≠ x / 256 * st0.bucketSize := by
            have := bucket_pos_ne st0.bucketSize b 0 (x / 256) 0
              (by omega) (by omega) hbx
            omega
          have hne2 : b * st0.bucketSize ≠ x / 256 * st0.bucketSize + cnt + 1 := by
            have := bucket_pos_ne st0.bucketSize b 0 (x / 256) (cnt + 1)
              (by omega) (by omega) hbx
            omega
          rw [getDN_set_ne _ _ _ _ hne1, getDN_set_ne _ _ _ _ hne2, hcnt b,
            helems_ne b hbx]
      · intro b j hj
        by_cases hbx : b = x / 256
        · subst hbx
          rw [helems_self, List.length_append] at hj
          simp only [List.length_cons, List.length_nil] at hj
          have hne1 : x / 256 * st0.bucketSize + 1 + j ≠ x / 256 * st0.bucketSize := by
            omega
          rw [getDN_set_ne _ _ _ _ hne1]
          by_cases hjc : j = cnt
          · subst hjc
            rw [show x / 256 * st0.bucketSize + 1 + cnt = x / 256 * st0.bucketSize + cnt + 1
              by omega]
            rw [getDN_set_self _ _ _ (by
              rw [hlen, hbn]
              have := pos_lt_len st0.bucketSize (x / 256) (cnt + 1) (2 ^ (kb - 8)) hb0lt
                (by omega)
              omega)]
            rw [helems_self, hcntdef, getDN_append_last]
          · have hne2 : x / 256 * st0.bucketSize + 1 + j ≠
                x / 256 * st0.bucketSize + cnt + 1 := by omega
            rw [getDN_set_ne _ _ _ _ hne2]
            rw [helems_self, getDN_append_left _ _ _ (by omega)]
            exact hslot (x / 256) j (by omega)
        · have hjb : j < st0.bucketSize - 1 := by omega
          have hne1 : b * st0.bucketSize + 1 + j ≠ x / 256 * st0.bucketSize := by
            have := bucket_pos_ne st0.bucketSize b (1 + j) (x / 256) 0
              (by omega) (by omega) hbx
            omega
          have hne2 : b * st0.bucketSize + 1 + j ≠
              x / 256 * st0.bucketSize + cnt + 1 := by
            have := bucket_pos_ne st0.bucketSize b (1 + j) (x / 256) (cnt + 1)
              (by omega) (by omega) hbx
            omega
          rw [getDN_set_ne _ _ _ _ hne1, getDN_set_ne _ _ _ _ hne2]
          rw [helems_ne b hbx] at hj ⊢
          exact hslot b j hj
      · intro b
        by_cases hbx : b = x / 256
        · subst hbx
          rw [hov (x / 256), helems_self]
          rw [List.drop_of_length_le (by omega),
            List.drop_of_length_le (by
              rw [List.length_append]
              simp only [List.length_cons, List.length_nil]
              omega)]
        · rw [hov b, helems_ne b hbx]
    · rw [if_neg hroom]
      dsimp only
      refine ⟨hkB, hbn, hbs, ?_, ?_, ?_, ?_⟩
      · rw [List.length_set]
        exact hlen
      · intro b
        by_cases hbx : b = x / 256
        · subst hbx
          rw [getDN_set_self _ _ _ (by
            rw [hlen, hbn]
            have := pos_lt_len st0.bucketSize (x / 256) 0 (2 ^ (kb - 8)) hb0lt (by omega)
            omega)]
          rw [helems_self, List.length_append]
          simp only [List.length_cons, List.length_nil]
          rw [hcntdef] at hcapx ⊢
          have hltm : (bucketElems (x / 256) l').length + 1 < 256 :=
            lt_of_le_of_lt hcapx (by norm_num)
          rw [Nat.mod_eq_of_lt hltm, Nat.zero_add]
        · have hne1 : b * st0.bucketSize ≠ x / 256 * st0.bucketSize := by
            have := bucket_pos_ne st0.bucketSize b 0 (x / 256) 0
              (by omega) (by omega) hbx
            omega
          rw [getDN_set_ne _ _ _ _ hne1, hcnt b, helems_ne b hbx]
      · intro b j hj
        by_cases hbx : b = x / 256
        · subst hbx
          rw [helems_self, List.length_append] at hj
          simp only [List.length_cons, List.length_nil] at hj
          have hne1 : x / 256 * st0.bucketSize + 1 + j ≠ x / 256 * st0.bucketSize := by
            omega
          rw [getDN_set_ne _ _ _ _ hne1]
          rw [helems_self, getDN_append_left _ _ _ (by omega)]
          exact hslot (x / 256) j (by omega)
        · have hne1 : b * st0.bucketSize + 1 + j ≠ x / 256 * st0.bucketSize := by
            have := bucket_pos_ne st0.bucketSize b (1 + j) (x / 256) 0
              (by omega) (by omega) hbx
            omega
          rw [getDN_set_ne _ _ _ _ hne1]
          rw [helems_ne b hbx] at hj ⊢
          exact hslot b j hj
      · intro b
        by_cases hbx : b = x / 256
        · subst hbx
          rw [bucketElems_append, bucketElems_singleton, if_pos rfl, hov (x / 256),
            helems_self]
          rw [List.drop_append_of_le_length (by omega)]
        · rw [bucketElems_append, bucketElems_singleton, if_neg (fun hc => hbx hc.symm),
            List.append_nil, hov b, helems_ne b hbx]

/-! ## Roaring staging: the max-bit and partition-sum invariants -/

theorem nat_le_or_left (a b : Nat) : a ≤ a ||| b := by
  have habs : a &&& (a ||| b) = a := by
    apply Nat.eq_of_testBit_eq
    intro i
    rw [Nat.testBit_and, Nat.testBit_or]
    cases a.testBit i <;> simp
  calc a = a &&& (a ||| b) := habs.symm
    _ ≤ a ||| b := Nat.and_le_right

theorem nat_le_or_right (a b : Nat) : b ≤ a ||| b := by
  rw [Nat.or_comm]; exact nat_le_or_left b a

theorem roaringFold_cf (l : List Nat) (st : RFmt) :
    (l.foldl roaringSet st).cf = l.foldl cfmtSet st.cf := by
  induction l generalizing st with
  | nil => rfl
  | cons x t ih => exact ih (roaringSet st x)

theorem pRoaringFold_cf (l : List Nat) (st : PRFmt) :
    (l.foldl pRoaringSet st).cf = l.foldl cfmtSet st.cf := by
  induction l generalizing st with
  | nil => rfl
  | cons x t ih => exact ih (pRoaringSet st x)

theorem roaringFold_maxBit (kb nk : Nat) (l : List Nat) (hkb : 8 ≤ kb)
    (hbound : ∀ i ∈ l, i < 2 ^ kb)
    (hcap : ∀ b, (bucketElems b l).length ≤ 255) :
    (∀ b, (bucketElems b l).length ≤ (l.foldl roaringSet (roaringReset kb nk)).maxBit) ∧
    (l.foldl roaringSet (roaringReset kb nk)).maxBit ≤ 255 := by
  induction l using List.reverseRecOn with
  | nil =>
    constructor
    · intro b
      show (bucketElems b []).length ≤ 0
      simp [bucketElems]
    · show (0 : Nat) ≤ 255
      omega
  | append_singleton l' x ih =>
    have hbound' : ∀ i ∈ l', i < 2 ^ kb := fun i hi => hbound i (by simp [hi])
    have hcapA : ∀ b, (bucketElems b (l' ++ [x])).length =
        (bucketElems b l').length + (bucketElems b [x]).length := by
      intro b; rw [bucketElems_append, List.length_append]
    have hcap' : ∀ b, (bucketElems b l').length ≤ 255 := by
      intro b
      have h1 := hcap b
      have h2 := hcapA b
      omega
    obtain ⟨ihc, ihm⟩ := ih hbound' hcap'
    obtain ⟨_, _, _, _, hcnt, _, _⟩ :=
      cfmt_stage kb nk l' hkb hbound' hcap' (l'.foldl cfmtSet (cfmtReset kb nk)) rfl
    have hfold : (l' ++ [x]).foldl roaringSet (roaringReset kb nk) =
        roaringSet (l'.foldl roaringSet (roaringReset kb nk)) x := by
      rw [List.foldl_append]; rfl
    set stR := l'.foldl roaringSet (roaringReset kb nk) with hstR
    have hx256 : x >>> 8 = x / 256 := by
      rw [Nat.shiftRight_eq_div_pow]
    have hcfeq : stR.cf = l'.foldl cfmtSet (cfmtReset kb nk) :=
      roaringFold_cf l' (roaringReset kb nk)
    have hkeyIndex : stR.cf.workingSpace.getD (x >>> 8 * stR.cf.bucketSize) 0 =
        (bucketElems (x / 256) l').length := by
      rw [hx256, hcfeq]
      exact hcnt (x / 256)
    have helems_self : bucketElems (x / 256) (l' ++ [x]) =
        bucketElems (x / 256) l' ++ [x] := by
      rw [bucketElems_append, bucketElems_singleton, if_pos rfl]
    have helems_ne : ∀ b, b ≠ x / 256 → bucketElems b (l' ++ [x]) = bucketElems b l' := by
      intro b hb
      rw [bucketElems_append, bucketElems_singleton, if_neg (fun hc => hb hc.symm),
        List.append_nil]
    have hcapx : (bucketElems (x / 256) l').length + 1 ≤ 255 := by
      have h1 := hcap (x / 256)
      rw [helems_self, List.length_append] at h1
      simp only [List.length_cons, List.length_nil] at h1
      omega
    have hmax' : (roaringSet stR x).maxBit =
        stR.maxBit ||| ((bucketElems (x / 256) l').length + 1) := by
      show stR.maxBit ||| (stR.cf.workingSpace.getD (x >>> 8 * stR.cf.bucketSize) 0 + 1) = _
      rw [hkeyIndex]
    rw [hfold]
    constructor
    · intro b
      rw [hmax']
      by_cases hbx : b = x / 256
      · subst hbx
        rw [helems_self, List.length_append]
        simp only [List.length_cons, List.length_nil]
        exact le_trans (by omega) (nat_le_or_right _ _)
      · rw [helems_ne b hbx]
        exact le_trans (ihc b) (nat_le_or_left _ _)
    · rw [hmax']
      have h255 : (256 : Nat) = 2 ^ 8 := by norm_num
      have := Nat.or_lt_two_pow (by omega : stR.maxBit < 2 ^ 8)
        (by omega : (bucketElems (x / 256) l').length + 1 < 2 ^ 8)
      omega

theorem div65536_lt (i kb : Nat) (hkb : 16 ≤ kb) (hi : i < 2 ^ kb) :
    i / 65536 < 2 ^ (kb - 16) := by
  rw [Nat.div_lt_iff_lt_mul (by omega : (0:Nat) < 65536)]
  calc i < 2 ^ kb := hi
    _ = 2 ^ (kb - 16) * 65536 := by
        rw [show (65536 : Nat) = 2 ^ 16 by norm_num, ← pow_add]
        congr 1
        omega

theorem filter65536_append_self (l : List Nat) (x : Nat) :
    (l ++ [x]).filter (fun i => i / 65536 = x / 65536) =
      l.filter (fun i => i / 65536 = x / 65536) ++ [x] := by
  rw [List.filter_append]
  simp

theorem filter65536_append_ne (l : List Nat) (x p : Nat) (h : p ≠ x / 65536) :
    (l ++ [x]).filter (fun i => i / 65536 = p) = l.filter (fun i => i / 65536 = p) := by
  rw [List.filter_append]
  have hd : (decide (x / 65536 = p)) = false := decide_eq_false (fun hc => h hc.symm)
  simp [List.filter, hd]

theorem pow_shiftRight_8 (k : Nat) (h : 8 ≤ k) : 2 ^ k >>> 8 = 2 ^ (k - 8) := by
  rw [Nat.shiftRight_eq_div_pow]
  rw [Nat.pow_div h (by omega)]

theorem pRoaringFold_stage (kb nk : Nat) (l : List Nat) (hkb : 16 ≤ kb)
    (hbound : ∀ i ∈ l, i < 2 ^ kb)
    (hcap : ∀ b, (bucketElems b l).length ≤ 255)
    (hpart : ∀ p, (l.filter (fun i => i / 65536 = p)).length ≤ 65535) :
    (∀ b, (bucketElems b l).length ≤ (l.foldl pRoaringSet (pRoaringReset kb nk)).maxBit) ∧
    (l.foldl pRoaringSet (pRoaringReset kb nk)).maxBit ≤ 255 ∧
    (l.foldl pRoaringSet (pRoaringReset kb nk)).partitionNum = 2 ^ (kb - 16) ∧
    (l.foldl pRoaringSet (pRoaringReset kb nk)).partitionSum.length = 2 ^ (kb - 16) ∧
    (∀ p, (l.foldl pRoaringSet (pRoaringReset kb nk)).partitionSum.getD p 0 =
      (l.filter (fun i => i / 65536 = p)).length) := by
  have hkb8 : 8 ≤ kb := by omega
  have hpn : 2 ^ (kb - 8) >>> 8 = 2 ^ (kb - 16) := by
    rw [pow_shiftRight_8 (kb - 8) (by omega), show kb - 8 - 8 = kb - 16 by omega]
  induction l using List.reverseRecOn with
  | nil =>
    refine ⟨?_, ?_, ?_, ?_, ?_⟩
    · intro b
      show (bucketElems b []).length ≤ 0
      simp [bucketElems]
    · show (0 : Nat) ≤ 255
      omega
    · show (cfmtReset kb nk).bucketNum >>> 8 = _
      exact hpn
    · show (List.replicate ((cfmtReset kb nk).bucketNum >>> 8) 0).length = _
      rw [List.length_replicate]
      exact hpn
    · intro p
      show (List.replicate _ 0).getD p 0 = _
      rw [replicate_getD_zero]
      simp
  | append_singleton l' x ih =>
    have hbound' : ∀ i ∈ l', i < 2 ^ kb := fun i hi => hbound i (by simp [hi])
    have hcapA : ∀ b, (bucketElems b (l' ++ [x])).length =
        (bucketElems b l').length + (bucketElems b [x]).length := by
      intro b; rw [bucketElems_append, List.length_append]
    have hcap' : ∀ b, (bucketElems b l').length ≤ 255 := by
      intro b
      have h1 := hcap b
      have h2 := hcapA b
      omega
    have hpart' : ∀ p, (l'.filter (fun i => i / 65536 = p)).length ≤ 65535 := by
      intro p
      have h1 := hpart p
      have h2 : ((l' ++ [x]).filter (fun i => i / 65536 = p)).length =
          (l'.filter (fun i => i / 65536 = p)).length +
          (([x]).filter (fun i => i / 65536 = p)).length := by
        rw [List.filter_append, List.length_append]
      omega
    obtain ⟨ihc, ihm, ihpn, ihlen, ihsum⟩ := ih hbound' hcap' hpart'
    obtain ⟨_, _, _, _, hcnt, _, _⟩ :=
      cfmt_stage kb nk l' hkb8 hbound' hcap' (l'.foldl cfmtSet (cfmtReset kb nk)) rfl
    have hfold : (l' ++ [x]).foldl pRoaringSet (pRoaringReset kb nk) =
        pRoaringSet (l'.foldl pRoaringSet (pRoaringReset kb nk)) x := by
      rw [List.foldl_append]; rfl
    set stR := l'.foldl pRoaringSet (pRoaringReset kb nk) with hstR
    have hx256 : x >>> 8 = x / 256 := by
      rw [Nat.shiftRight_eq_div_pow]
    have hx65536 : x >>> 8 >>> 8 = x / 65536 := by
      rw [hx256, Nat.shiftRight_eq_div_pow]
      show x / 256 / 2 ^ 8 = _
      rw [Nat.div_div_eq_div_mul]
    have hcfeq : stR.cf = l'.foldl cfmtSet (cfmtReset kb nk) :=
      pRoaringFold_cf l' (pRoaringReset kb nk)
    have hkeyIndex : stR.cf.workingSpace.getD (x >>> 8 * stR.cf.bucketSize) 0 =
        (bucketElems (x / 256) l').length := by
      rw [hx256, hcfeq]
      exact hcnt (x / 256)
    have helems_self : bucketElems (x / 256) (l' ++ [x]) =
        bucketElems (x / 256) l' ++ [x] := by
      rw [bucketElems_append, bucketElems_singleton, if_pos rfl]
    have helems_ne : ∀ b, b ≠ x / 256 → bucketElems b (l' ++ [x]) = bucketElems b l' := by
      intro b hb
      rw [bucketElems_append, bucketElems_singleton, if_neg (fun hc => hb hc.symm),
        List.append_nil]
    have hcapx : (bucketElems (x / 256) l').length + 1 ≤ 255 := by
      have h1 := hcap (x / 256)
      rw [helems_self, List.length_append] at h1
      simp only [List.length_cons, List.length_nil] at h1
      omega
    have hp0lt : x / 65536 < 2 ^ (kb - 16) := div65536_lt x kb hkb (hbound x (by simp))
    have hsum0 : stR.partitionSum.getD (x / 65536) 0 =
        (l'.filter (fun i => i / 65536 = x / 65536)).length := ihsum _
    have hpartx : (l'.filter (fun i => i / 65536 = x / 65536)).length + 1 ≤ 65535 := by
      have h1 := hpart (x / 65536)
      rw [filter65536_append_self l' x, List.length_append] at h1
      simp only [List.length_cons, List.length_nil] at h1
      omega
    rw [hfold]
    have hmax' : (pRoaringSet stR x).maxBit =
        stR.maxBit ||| ((bucketElems (x / 256) l').length + 1) := by
      show stR.maxBit ||| (stR.cf.workingSpace.getD (x >>> 8 * stR.cf.bucketSize) 0 + 1) = _
      rw [hkeyIndex]
    have hsum' : (pRoaringSet stR x).partitionSum =
        stR.partitionSum.set (x / 65536)
          ((l'.filter (fun i => i / 65536 = x / 65536)).length + 1) := by
      show stR.partitionSum.set (x >>> 8 >>> 8)
          ((stR.partitionSum.getD (x >>> 8 >>> 8) 0 + 1) % 65536) = _
      rw [hx65536, hsum0, Nat.mod_eq_of_lt (by omega)]
    refine ⟨?_, ?_, ihpn, ?_, ?_⟩
    · intro b
      rw [hmax']
      by_cases hbx : b = x / 256
      · subst hbx
        rw [helems_self, List.length_append]
        simp only [List.length_cons, List.length_nil]
        exact le_trans (by omega) (nat_le_or_right _ _)
      · rw [helems_ne b hbx]
        exact le_trans (ihc b) (nat_le_or_left _ _)
    · rw [hmax']
      have := Nat.or_lt_two_pow (by omega : stR.maxBit < 2 ^ 8)
        (by omega : (bucketElems (x / 256) l').length + 1 < 2 ^ 8)
      omega
    · show (pRoaringSet stR x).partitionSum.length = _
      rw [hsum', List.length_set]
      exact ihlen
    · intro p
      show (pRoaringSet stR x).partitionSum.getD p 0 = _
      rw [hsum']
      by_cases hpx : p = x / 65536
      · subst hpx
        rw [getDN_set_self _ _ _ (by rw [ihlen]; exact hp0lt)]
        rw [filter65536_append_self l' x, List.length_append]
        simp
      · rw [getDN_set_ne _ _ _ _ hpx]
        rw [filter65536_append_ne l' x p hpx, ihsum p]

/-! ## Bucket reconstruction in the `Finish` loops -/

theorem insertionSort_eq_of_perm (l1 l2 : List Nat) (h : l1.Perm l2) :
    l1.insertionSort (· ≤ ·) = l2.insertionSort (· ≤ ·) := by
  apply List.eq_of_perm_of_sorted ?_ (List.sorted_insertionSort _ _)
    (List.sorted_insertionSort _ _)
  exact (List.perm_insertionSort _ l1).trans (h.trans (List.perm_insertionSort _ l2).symm)

theorem bucketKeysFull_spec (ws : List Byte) (bs b : Nat) (elems suffix : List Nat)
    (hcount : ws.getD (bs * b) 0 = elems.length)
    (hslots : ∀ j, j < min elems.length (bs - 1) →
      ws.getD (bs * b + 1 + j) 0 = elems.getD j 0 % 256)
    (hinb : ∀ i ∈ elems, i / 256 = b) :
    bucketKeysFull ws bs b ((elems.drop (bs - 1)).insertionSort (· ≤ ·) ++ suffix) =
      (elems.take (min elems.length (bs - 1)) ++
        (elems.drop (bs - 1)).insertionSort (· ≤ ·), suffix) ∧
    (elems.take (min elems.length (bs - 1)) ++
        (elems.drop (bs - 1)).insertionSort (· ≤ ·)).insertionSort (· ≤ ·) =
      elems.insertionSort (· ≤ ·) := by
  have hglen : ((elems.drop (bs - 1)).insertionSort (· ≤ ·)).length =
      elems.length - min elems.length (bs - 1) := by
    rw [List.length_insertionSort, List.length_drop]
    omega
  have hwsPart : (List.range (min elems.length (bs - 1))).map
      (fun j => ws.getD (bs * b + 1 + j) 0 + b * 256) =
      elems.take (min elems.length (bs - 1)) := by
    have h1 : (List.range (min elems.length (bs - 1))).map
        (fun j => ws.getD (bs * b + 1 + j) 0 + b * 256) =
        (List.range (min elems.length (bs - 1))).map (fun j => elems.getD j 0) := by
      apply List.map_congr_left
      intro j hj
      rw [List.mem_range] at hj
      rw [hslots j hj]
      have hjlen : j < elems.length := by omega
      have hmem : elems.getD j 0 ∈ elems := by
        rw [getD_eq_getElem_of_lt _ _ hjlen]
        exact List.getElem_mem hjlen
      have hdiv := hinb _ hmem
      rw [← hdiv]
      exact Nat.mod_add_div' _ _
    rw [h1, map_range_getD _ _ (by omega)]
  constructor
  · simp only [bucketKeysFull]
    rw [hcount, hwsPart]
    rw [show elems.length - min elems.length (bs - 1) =
      ((elems.drop (bs - 1)).insertionSort (· ≤ ·)).length by omega]
    rw [List.take_left, List.drop_left]
  · apply insertionSort_eq_of_perm
    by_cases hc : elems.length ≤ bs - 1
    · rw [show min elems.length (bs - 1) = elems.length by omega]
      rw [List.take_of_length_le (by omega), List.drop_of_length_le (by omega)]
      simp
    · rw [show min elems.length (bs - 1) = bs - 1 by omega]
      refine (List.Perm.append_left _ (List.perm_insertionSort _ _)).trans ?_
      rw [List.take_append_drop]

theorem bucketKeysLow_spec (ws : List Byte) (bs b : Nat) (elems suffix : List Nat)
    (hcount : ws.getD (bs * b) 0 = elems.length)
    (hslots : ∀ j, j < min elems.length (bs - 1) →
      ws.getD (bs * b + 1 + j) 0 = elems.getD j 0 % 256)
    (hinb : ∀ i ∈ elems, i / 256 = b) :
    bucketKeysLow ws bs b ((elems.drop (bs - 1)).insertionSort (· ≤ ·) ++ suffix) =
      ((elems.take (min elems.length (bs - 1))).map (· % 256) ++
        ((elems.drop (bs - 1)).insertionSort (· ≤ ·)).map (· % 256), suffix) ∧
    ((elems.take (min elems.length (bs - 1))).map (· % 256) ++
        ((elems.drop (bs - 1)).insertionSort (· ≤ ·)).map (· % 256)).insertionSort (· ≤ ·) =
      (elems.insertionSort (· ≤ ·)).map (· % 256) := by
  have hglen : ((elems.drop (bs - 1)).insertionSort (· ≤ ·)).length =
      elems.length - min elems.length (bs - 1) := by
    rw [List.length_insertionSort, List.length_drop]
    omega
  have hwsPart : (List.range (min elems.length (bs - 1))).map
      (fun j => ws.getD (bs * b + 1 + j) 0) =
      (elems.take (min elems.length (bs - 1))).map (· % 256) := by
    have h1 : (List.range (min elems.length (bs - 1))).map
        (fun j => ws.getD (bs * b + 1 + j) 0) =
        (List.range (min elems.length (bs - 1))).map
          (fun j => (fun v => v % 256) (elems.getD j 0)) := by
      apply List.map_congr_left
      intro j hj
      rw [List.mem_range] at hj
      exact hslots j hj
    have h2 : (List.range (min elems.length (bs - 1))).map
        (fun j => (fun v => v % 256) (elems.getD j 0)) =
        ((List.range (min elems.length (bs - 1))).map (fun j => elems.getD j 0)).map
          (fun v => v % 256) := by
      rw [List.map_map]
      rfl
    rw [h1, h2, map_range_getD _ _ (by omega)]
  constructor
  · simp only [bucketKeysLow]
    rw [hcount, hwsPart]
    rw [show elems.length - min elems.length (bs - 1) =
      ((elems.drop (bs - 1)).insertionSort (· ≤ ·)).length by omega]
    rw [List.take_left, List.drop_left]
  · have hperm : ((elems.take (min elems.length (bs - 1))).map (· % 256) ++
        ((elems.drop (bs - 1)).insertionSort (· ≤ ·)).map (· % 256)).Perm
        (elems.map (· % 256)) := by
      rw [← List.map_append]
      apply List.Perm.map
      by_cases hc : elems.length ≤ bs - 1
      · rw [show min elems.length (bs - 1) = elems.length by omega]
        rw [List.take_of_length_le (by omega), List.drop_of_length_le (by omega)]
        simp
      · rw [show min elems.length (bs - 1) = bs - 1 by omega]
        refine (List.Perm.append_left _ (List.perm_insertionSort _ _)).trans ?_
        rw [List.take_append_drop]
    rw [insertionSort_eq_of_perm _ _ hperm]
    exact insertionSort_map_mod elems b hinb

/-! ## The varint / varint-plus / pForDelta `Finish` loops as gap streams -/

theorem gapsList_append (xs ys : List Nat) : ∀ l0,
    gapsList l0 (xs ++ ys) = gapsList l0 xs ++ gapsList (xs.getLastD l0) ys := by
  induction xs with
  | nil => intro l0; rfl
  | cons x xs ih =>
    intro l0
    show dist64 x l0 :: gapsList x (xs ++ ys) = _
    rw [ih x, List.getLastD_cons]
    rfl

theorem gapsList_length (l0 : Nat) (xs : List Nat) : (gapsList l0 xs).length = xs.length := by
  induction xs generalizing l0 with
  | nil => rfl
  | cons x xs ih =>
    show (dist64 x l0 :: gapsList x xs).length = _
    simp [ih x]

theorem emitGaps_spec (enc : Nat → List Byte) (xs : List Nat) : ∀ l0,
    emitGaps enc l0 xs = (((gapsList l0 xs).map enc).flatten, xs.getLastD l0) := by
  induction xs with
  | nil => intro l0; rfl
  | cons x xs ih =>
    intro l0
    show (enc (dist64 x l0) ++ (emitGaps enc x xs).1, (emitGaps enc x xs).2) = _
    rw [ih x]
    show (enc (dist64 x l0) ++ _, xs.getLastD x) = _
    rw [List.getLastD_cons]
    show _ = (((dist64 x l0 :: gapsList x xs).map enc).flatten, xs.getLastD x)
    rw [List.map_cons, List.flatten_cons]

theorem gapFinishGo_spec (enc : Nat → List Byte) (ws : List Byte) (bs : Nat)
    (l : List Nat) :
    ∀ (blist : List Nat),
    (∀ b ∈ blist, ws.getD (bs * b) 0 = (bucketElems b l).length) →
    (∀ b ∈ blist, ∀ j, j < min (bucketElems b l).length (bs - 1) →
      ws.getD (bs * b + 1 + j) 0 = (bucketElems b l).getD j 0 % 256) →
    ∀ lastOne,
    gapFinishGo enc ws bs blist
      ((blist.map fun b =>
        ((bucketElems b l).drop (bs - 1)).insertionSort (· ≤ ·)).flatten) lastOne =
    ((gapsList lastOne
      ((blist.map fun b => (bucketElems b l).insertionSort (· ≤ ·)).flatten)).map
        enc).flatten := by
  intro blist
  induction blist with
  | nil => intro _ _ lastOne; rfl
  | cons b rest ih =>
    intro hcount hslots lastOne
    rw [List.map_cons, List.flatten_cons]
    obtain ⟨hbk, hsort⟩ := bucketKeysFull_spec ws bs b (bucketElems b l)
      ((rest.map fun b =>
        ((bucketElems b l).drop (bs - 1)).insertionSort (· ≤ ·)).flatten)
      (hcount b (by simp)) (hslots b (by simp))
      (fun i hi => (bucketElems_mem b i l hi).2)
    show (let p := bucketKeysFull ws bs b _
      let sorted := p.1.insertionSort (· ≤ ·)
      let q := emitGaps enc lastOne sorted
      q.1 ++ gapFinishGo enc ws bs rest p.2 q.2) = _
    rw [hbk]
    dsimp only
    rw [hsort, emitGaps_spec]
    dsimp only
    rw [ih (fun x hx => hcount x (by simp [hx])) (fun x hx => hslots x (by simp [hx]))]
    rw [List.map_cons, List.flatten_cons, gapsList_append, List.map_append,
      List.flatten_append]

theorem varintFinish_spec (kb nk : Nat) (l : List Nat) (hkb : 8 ≤ kb)
    (hbound : ∀ i ∈ l, i < 2 ^ kb)
    (hcap : ∀ b, (bucketElems b l).length ≤ 255) :
    varintFinish (l.foldl cfmtSet (cfmtReset kb nk)) =
      ((gapsList 0 (l.insertionSort (· ≤ ·))).map varintEnc).flatten := by
  obtain ⟨hkB, hbn, hbs, hlen, hcnt, hslot, hov⟩ :=
    cfmt_stage kb nk l hkb hbound hcap (l.foldl cfmtSet (cfmtReset kb nk)) rfl
  set st := l.foldl cfmtSet (cfmtReset kb nk) with hst
  have hdiv : ∀ i ∈ l, i / 256 < 2 ^ (kb - 8) := fun i hi =>
    div256_lt i kb hkb (hbound i hi)
  have hovdiv : ∀ i ∈ st.overflowed, i / 256 < 2 ^ (kb - 8) := by
    intro i hi
    have hmem : i ∈ bucketElems (i / 256) st.overflowed := by
      simp [bucketElems, hi]
    rw [hov (i / 256)] at hmem
    have : i ∈ bucketElems (i / 256) l := List.mem_of_mem_drop hmem
    exact hdiv i (bucketElems_mem _ _ _ this).1
  have hovsorted : st.overflowed.insertionSort (· ≤ ·) =
      ((List.range st.bucketNum).map fun b =>
        ((bucketElems b l).drop (st.bucketSize - 1)).insertionSort (· ≤ ·)).flatten := by
    rw [insertionSort_partition st.bucketNum st.overflowed (by rw [hbn]; exact hovdiv)]
    congr 1
    apply List.map_congr_left
    intro b _
    rw [hov b]
  unfold varintFinish
  rw [hovsorted]
  rw [gapFinishGo_spec varintEnc st.workingSpace st.bucketSize l (List.range st.bucketNum)
    (fun b _ => by rw [Nat.mul_comm]; exact hcnt b)
    (fun b _ j hj => by rw [Nat.mul_comm]; exact hslot b j hj) 0]
  congr 2
  rw [← insertionSort_partition st.bucketNum l (by rw [hbn]; exact hdiv)]

theorem varintPlusFinish_spec (kb nk : Nat) (l : List Nat) (hkb : 8 ≤ kb)
    (hbound : ∀ i ∈ l, i < 2 ^ kb)
    (hcap : ∀ b, (bucketElems b l).length ≤ 255) :
    varintPlusFinish (l.foldl cfmtSet (cfmtReset kb nk)) =
      ((gapsList 0 (l.insertionSort (· ≤ ·))).map varintPlusEnc).flatten := by
  obtain ⟨hkB, hbn, hbs, hlen, hcnt, hslot, hov⟩ :=
    cfmt_stage kb nk l hkb hbound hcap (l.foldl cfmtSet (cfmtReset kb nk)) rfl
  set st := l.foldl cfmtSet (cfmtReset kb nk) with hst
  have hdiv : ∀ i ∈ l, i / 256 < 2 ^ (kb - 8) := fun i hi =>
    div256_lt i kb hkb (hbound i hi)
  have hovdiv : ∀ i ∈ st.overflowed, i / 256 < 2 ^ (kb - 8) := by
    intro i hi
    have hmem : i ∈ bucketElems (i / 256) st.overflowed := by
      simp [bucketElems, hi]
    rw [hov (i / 256)] at hmem
    have : i ∈ bucketElems (i / 256) l := List.mem_of_mem_drop hmem
    exact hdiv i (bucketElems_mem _ _ _ this).1
  have hovsorted : st.overflowed.insertionSort (· ≤ ·) =
      ((List.range st.bucketNum).map fun b =>
        ((bucketElems b l).drop (st.bucketSize - 1)).insertionSort (· ≤ ·)).flatten := by
    rw [insertionSort_partition st.bucketNum st.overflowed (by rw [hbn]; exact hovdiv)]
    congr 1
    apply List.map_congr_left
    intro b _
    rw [hov b]
  unfold varintPlusFinish
  rw [hovsorted]
  rw [gapFinishGo_spec varintPlusEnc st.workingSpace st.bucketSize l
    (List.range st.bucketNum)
    (fun b _ => by rw [Nat.mul_comm]; exact hcnt b)
    (fun b _ j hj => by rw [Nat.mul_comm]; exact hslot b j hj) 0]
  congr 2
  rw [← insertionSort_partition st.bucketNum l (by rw [hbn]; exact hdiv)]

/-! ## Cohort chunking for pForDelta -/

theorem chunksFull_small (s : List Nat) (h : s.length < 128) : chunksFull s = [] := by
  rw [chunksFull]
  simp [h]

theorem chunksFull_step (s : List Nat) (h : ¬ s.length < 128) :
    chunksFull s = s.take 128 :: chunksFull (s.drop 128) := by
  conv_lhs => rw [chunksFull]
  simp [h]

theorem chunksRem_small (s : List Nat) (h : s.length < 128) : chunksRem s = s := by
  rw [chunksRem]
  simp [h]

theorem chunksRem_step (s : List Nat) (h : ¬ s.length < 128) :
    chunksRem s = chunksRem (s.drop 128) := by
  conv_lhs => rw [chunksRem]
  simp [h]

theorem chunksRem_length (s : List Nat) : (chunksRem s).length < 128 := by
  induction s using chunksRem.induct with
  | case1 s h => rw [chunksRem_small s h]; exact h
  | case2 s h ih => rw [chunksRem_step s h]; exact ih

theorem chunks128_nil : chunks128 [] = [] := by
  rw [chunks128]
  simp

theorem chunks128_small (s : List Nat) (hne : s ≠ []) (h : s.length < 128) :
    chunks128 s = [s] := by
  rw [chunks128]
  simp [hne, h]

theorem chunks128_step (s : List Nat) (h : ¬ s.length < 128) :
    chunks128 s = s.take 128 :: chunks128 (s.drop 128) := by
  have hne : s ≠ [] := by
    intro hc
    rw [hc] at h
    simp at h
  conv_lhs => rw [chunks128]
  simp [hne, h]

theorem chunks128_split (s t : List Nat) :
    chunks128 (s ++ t) = chunksFull s ++ chunks128 (chunksRem s ++ t) := by
  induction s using chunksFull.induct with
  | case1 s h =>
    rw [chunksFull_small s h, chunksRem_small s h]
    rfl
  | case2 s h ih =>
    have h128 : ¬ (s ++ t).length < 128 := by
      rw [List.length_append]
      omega
    rw [chunks128_step _ h128, List.take_append_of_le_length (by omega),
      List.drop_append_of_le_length (by omega), ih,
      chunksFull_step s h, chunksRem_step s h, List.cons_append]

theorem pfdEmit_spec (xs : List Nat) : ∀ (l0 : Nat) (c : List Nat), c.length < 128 →
    pfdEmit xs l0 c =
      (((chunksFull (c ++ gapsList l0 xs)).map encodingCohort).flatten,
        xs.getLastD l0, chunksRem (c ++ gapsList l0 xs)) := by
  induction xs with
  | nil =>
    intro l0 c hc
    show ([], l0, c) = _
    rw [show gapsList l0 [] = [] from rfl, List.append_nil,
      chunksFull_small c hc, chunksRem_small c hc]
    rfl
  | cons x xs ih =>
    intro l0 c hc
    show (if (c ++ [dist64 x l0]).length = 128 then _ else _) = _
    have hgl : gapsList l0 (x :: xs) = dist64 x l0 :: gapsList x xs := rfl
    have hassoc : c ++ gapsList l0 (x :: xs) = (c ++ [dist64 x l0]) ++ gapsList x xs := by
      rw [hgl, List.append_assoc]
      rfl
    by_cases h128 : (c ++ [dist64 x l0]).length = 128
    · rw [if_pos h128]
      rw [ih x [] (by norm_num)]
      show (encodingCohort (c ++ [dist64 x l0]) ++ _, xs.getLastD x, _) = _
      rw [hassoc, List.getLastD_cons]
      have hlen : ¬ ((c ++ [dist64 x l0]) ++ gapsList x xs).length < 128 := by
        rw [List.length_append, h128]
        omega
      rw [chunksFull_step _ hlen, chunksRem_step _ hlen,
        List.take_append_of_le_length (by omega),
        List.drop_append_of_le_length (by omega)]
      rw [show (c ++ [dist64 x l0]).take 128 = c ++ [dist64 x l0] from
        List.take_of_length_le (by omega)]
      rw [show (c ++ [dist64 x l0]).drop 128 = [] from
        List.drop_of_length_le (by omega)]
      rw [List.map_cons, List.flatten_cons]
    · rw [if_neg h128]
      have hc' : (c ++ [dist64 x l0]).length < 128 := by
        rw [List.length_append] at h128 ⊢
        simp only [List.length_cons, List.length_nil] at h128 ⊢
        omega
      rw [ih x (c ++ [dist64 x l0]) hc', hassoc, List.getLastD_cons]

theorem pfdFinishGo_spec (ws : List Byte) (bs : Nat) (l : List Nat) :
    ∀ (blist : List Nat),
    (∀ b ∈ blist, ws.getD (bs * b) 0 = (bucketElems b l).length) →
    (∀ b ∈ blist, ∀ j, j < min (bucketElems b l).length (bs - 1) →
      ws.getD (bs * b + 1 + j) 0 = (bucketElems b l).getD j 0 % 256) →
    ∀ (lastOne : Nat) (c : List Nat), c.length < 128 →
    pfdFinishGo ws bs blist
      ((blist.map fun b =>
        ((bucketElems b l).drop (bs - 1)).insertionSort (· ≤ ·)).flatten) lastOne c =
    ((chunks128 (c ++ gapsList lastOne
      ((blist.map fun b => (bucketElems b l).insertionSort (· ≤ ·)).flatten))).map
        encodingCohort).flatten := by
  intro blist
  induction blist with
  | nil =>
    intro _ _ lastOne c hc
    show (if c.length > 0 then encodingCohort c else []) = _
    simp only [List.map_nil, List.flatten_nil]
    rw [show gapsList lastOne [] = [] from rfl, List.append_nil]
    rcases c with _ | ⟨a, t⟩
    · rw [chunks128_nil]
      rfl
    · rw [chunks128_small _ (by simp) hc]
      rw [if_pos (by simp)]
      simp
  | cons b rest ih =>
    intro hcount hslots lastOne c hc
    rw [List.map_cons, List.flatten_cons]
    obtain ⟨hbk, hsort⟩ := bucketKeysFull_spec ws bs b (bucketElems b l)
      ((rest.map fun b =>
        ((bucketElems b l).drop (bs - 1)).insertionSort (· ≤ ·)).flatten)
      (hcount b (by simp)) (hslots b (by simp))
      (fun i hi => (bucketElems_mem b i l hi).2)
    show (let p := bucketKeysFull ws bs b _
      let sorted := p.1.insertionSort (· ≤ ·)
      let q := pfdEmit sorted lastOne c
      q.1 ++ pfdFinishGo ws bs rest p.2 q.2.1 q.2.2) = _
    rw [hbk]
    dsimp only
    rw [hsort, pfdEmit_spec _ lastOne c hc]
    dsimp only
    rw [ih (fun x hx => hcount x (by simp [hx])) (fun x hx => hslots x (by simp [hx]))
      _ _ (chunksRem_length _)]
    rw [List.map_cons, List.flatten_cons, gapsList_append, ← List.append_assoc]
    conv_rhs => rw [chunks128_split, List.map_append, List.flatten_append]

theorem pForDeltaFinish_spec (kb nk : Nat) (l : List Nat) (hkb : 8 ≤ kb)
    (hbound : ∀ i ∈ l, i < 2 ^ kb)
    (hcap : ∀ b, (bucketElems b l).length ≤ 255) :
    pForDeltaFinish (l.foldl cfmtSet (cfmtReset kb nk)) =
      ((chunks128 (gapsList 0 (l.insertionSort (· ≤ ·)))).map encodingCohort).flatten := by
  obtain ⟨hkB, hbn, hbs, hlen, hcnt, hslot, hov⟩ :=
    cfmt_stage kb nk l hkb hbound hcap (l.foldl cfmtSet (cfmtReset kb nk)) rfl
  set st := l.foldl cfmtSet (cfmtReset kb nk) with hst
  have hdiv : ∀ i ∈ l, i / 256 < 2 ^ (kb - 8) := fun i hi =>
    div256_lt i kb hkb (hbound i hi)
  have hovdiv : ∀ i ∈ st.overflowed, i / 256 < 2 ^ (kb - 8) := by
    intro i hi
    have hmem : i ∈ bucketElems (i / 256) st.overflowed := by
      simp [bucketElems, hi]
    rw [hov (i / 256)] at hmem
    have : i ∈ bucketElems (i / 256) l := List.mem_of_mem_drop hmem
    exact hdiv i (bucketElems_mem _ _ _ this).1
  have hovsorted : st.overflowed.insertionSort (· ≤ ·) =
      ((List.range st.bucketNum).map fun b =>
        ((bucketElems b l).drop (st.bucketSize - 1)).insertionSort (· ≤ ·)).flatten := by
    rw [insertionSort_partition st.bucketNum st.overflowed (by rw [hbn]; exact hovdiv)]
    congr 1
    apply List.map_congr_left
    intro b _
    rw [hov b]
  unfold pForDeltaFinish
  rw [hovsorted]
  rw [pfdFinishGo_spec st.workingSpace st.bucketSize l (List.range st.bucketNum)
    (fun b _ => by rw [Nat.mul_comm]; exact hcnt b)
    (fun b _ j hj => by rw [Nat.mul_comm]; exact hslot b j hj) 0 [] (by norm_num)]
  rw [show ([] : List Nat) ++ gapsList 0 _ = gapsList 0 _ from List.nil_append _]
  congr 3
  rw [← insertionSort_partition st.bucketNum l (by rw [hbn]; exact hdiv)]

/-! ## The Roaring bucket-length bit writer -/

theorem testBit_mul_pow_add_high (b a n i : Nat) (ha : a < 2 ^ n) (hi : n ≤ i) :
    (b * 2 ^ n + a).testBit i = b.testBit (i - n) := by
  rw [Nat.testBit_to_div_mod, Nat.testBit_to_div_mod]
  congr 2
  rw [show ((2:Nat) ^ i) = 2 ^ n * 2 ^ (i - n) by rw [← pow_add]; congr 1; omega]
  rw [← Nat.div_div_eq_div_mul]
  congr 1
  rw [show b * 2 ^ n = 2 ^ n * b by ring,
    Nat.mul_add_div (Nat.pos_pow_of_pos n (by omega)), Nat.div_eq_of_lt ha, Nat.add_zero]

theorem or_mul_pow_eq_add (b a n : Nat) (ha : a < 2 ^ n) :
    (b * 2 ^ n) ||| a = b * 2 ^ n + a := by
  apply Nat.eq_of_testBit_eq
  intro i
  rw [Nat.testBit_or]
  by_cases hi : i < n
  · rw [testBit_mul_pow, if_neg (by omega), testBit_add_mul_pow_low _ _ _ _ hi]
    simp
  · rw [testBit_mul_pow, if_pos (by omega), testBit_mul_pow_add_high _ _ _ _ ha (by omega)]
    rw [Nat.testBit_lt_two_pow (lt_of_lt_of_le ha (Nat.pow_le_pow_right (by omega) (by omega)))]
    simp

theorem shiftLeft_or_distrib (a b k : Nat) :
    (a ||| b) <<< k = (a <<< k) ||| (b <<< k) := by
  apply Nat.eq_of_testBit_eq
  intro i
  rw [Nat.testBit_or, Nat.testBit_shiftLeft, Nat.testBit_shiftLeft, Nat.testBit_shiftLeft,
    Nat.testBit_or]
  cases hki : decide (k ≤ i) <;> simp [Bool.and_or_distrib_left]

theorem lenPush_fold_facts (bits : List Bool) : ∀ (sp : List Byte) (idx : Nat)
    (lb : Byte) (bi : Nat), bi ≤ 7 →
    (bits.foldl lenPush (sp, idx, lb, bi)).1.length = sp.length ∧
    (bits.foldl lenPush (sp, idx, lb, bi)).2.2.2 ≤ 7 ∧
    8 * (bits.foldl lenPush (sp, idx, lb, bi)).2.1 +
      (7 - (bits.foldl lenPush (sp, idx, lb, bi)).2.2.2) =
      8 * idx + (7 - bi) + bits.length := by
  induction bits with
  | nil => intro sp idx lb bi hbi; exact ⟨rfl, hbi, rfl⟩
  | cons bit bits ih =>
    intro sp idx lb bi hbi
    rw [List.foldl_cons]
    by_cases hbi0 : bi = 0
    · subst hbi0
      have hstep : lenPush (sp, idx, lb, 0) bit =
          (sp.set idx (lb ||| (if bit then 1 <<< 0 else 0)), idx + 1, 0, 7) := rfl
      rw [hstep]
      obtain ⟨h1, h2, h3⟩ := ih (sp.set idx (lb ||| (if bit then 1 <<< 0 else 0)))
        (idx + 1) 0 7 (by omega)
      refine ⟨?_, h2, ?_⟩
      · rw [h1, List.length_set]
      · rw [h3]
        simp only [List.length_cons]
        omega
    · have hstep : lenPush (sp, idx, lb, bi) bit =
          (sp, idx, lb ||| (if bit then 1 <<< bi else 0), bi - 1) := by
        show (if bi = 0 then _ else _) = _
        rw [if_neg hbi0]
      rw [hstep]
      obtain ⟨h1, h2, h3⟩ := ih sp idx (lb ||| (if bit then 1 <<< bi else 0))
        (bi - 1) (by omega)
      refine ⟨h1, h2, ?_⟩
      rw [h3]
      simp only [List.length_cons]
      omega

theorem lenPush_fold_append (bits : List Bool) : ∀ (sp ex : List Byte) (idx : Nat)
    (lb : Byte) (bi : Nat), bi ≤ 7 →
    8 * idx + (7 - bi) + bits.length ≤ 8 * sp.length →
    bits.foldl lenPush (sp ++ ex, idx, lb, bi) =
      ((bits.foldl lenPush (sp, idx, lb, bi)).1 ++ ex,
        (bits.foldl lenPush (sp, idx, lb, bi)).2) := by
  induction bits with
  | nil => intro sp ex idx lb bi hbi hb; rfl
  | cons bit bits ih =>
    intro sp ex idx lb bi hbi hb
    simp only [List.length_cons] at hb
    rw [List.foldl_cons, List.foldl_cons]
    by_cases hbi0 : bi = 0
    · subst hbi0
      have hidx : idx < sp.length := by omega
      have hstep1 : lenPush (sp ++ ex, idx, lb, 0) bit =
          ((sp ++ ex).set idx (lb ||| (if bit then 1 <<< 0 else 0)), idx + 1, 0, 7) := rfl
      have hstep2 : lenPush (sp, idx, lb, 0) bit =
          (sp.set idx (lb ||| (if bit then 1 <<< 0 else 0)), idx + 1, 0, 7) := rfl
      rw [hstep1, hstep2, setN_append_left _ _ _ _ hidx]
      exact ih (sp.set idx (lb ||| (if bit then 1 <<< 0 else 0))) ex (idx + 1) 0 7
        (by omega) (by rw [List.length_set]; omega)
    · have hstep1 : lenPush (sp ++ ex, idx, lb, bi) bit =
          (sp ++ ex, idx, lb ||| (if bit then 1 <<< bi else 0), bi - 1) := by
        show (if bi = 0 then _ else _) = _
        rw [if_neg hbi0]
      have hstep2 : lenPush (sp, idx, lb, bi) bit =
          (sp, idx, lb ||| (if bit then 1 <<< bi else 0), bi - 1) := by
        show (if bi = 0 then _ else _) = _
        rw [if_neg hbi0]
      rw [hstep1, hstep2]
      exact ih sp ex idx _ (bi - 1) (by omega) (by omega)

theorem lenPush_fold_noflush (c : List Bool) : ∀ (sp : List Byte) (idx : Nat)
    (lb : Byte) (bi : Nat), c.length ≤ bi →
    c.foldl lenPush (sp, idx, lb, bi) =
      (sp, idx, lb ||| (valOfBits c <<< (bi + 1 - c.length)), bi - c.length) := by
  induction c with
  | nil =>
    intro sp idx lb bi hlen
    show (sp, idx, lb, bi) = _
    rw [show valOfBits [] = 0 from rfl, Nat.zero_shiftLeft, Nat.or_zero]
    rfl
  | cons bit c ih =>
    intro sp idx lb bi hlen
    simp only [List.length_cons] at hlen
    have hbi1 : 1 ≤ bi := by omega
    have hstep : lenPush (sp, idx, lb, bi) bit =
        (sp, idx, lb ||| (if bit then 1 <<< bi else 0), bi - 1) := by
      show (if bi = 0 then _ else _) = _
      rw [if_neg (by omega)]
    show (c.foldl lenPush (lenPush (sp, idx, lb, bi) bit)) = _
    rw [hstep, ih sp idx _ (bi - 1) (by omega)]
    have hval : valOfBits (bit :: c) =
        (if bit then 1 else 0) * 2 ^ c.length + valOfBits c := valOfBits_cons bit c
    have hor : (if bit then 1 <<< bi else 0) |||
        (valOfBits c <<< (bi - 1 + 1 - c.length)) =
        valOfBits (bit :: c) <<< (bi + 1 - (c.length + 1)) := by
      have hs : bi - 1 + 1 - c.length = bi - c.length := by omega
      have hs2 : bi + 1 - (c.length + 1) = bi - c.length := by omega
      rw [hs, hs2, hval]
      have hsplit : ((if bit then 1 else 0) * 2 ^ c.length + valOfBits c) =
          ((if bit then 1 else 0) * 2 ^ c.length) ||| valOfBits c :=
        (or_mul_pow_eq_add _ _ _ (valOfBits_lt c)).symm
      rw [hsplit, shiftLeft_or_distrib]
      congr 1
      rw [Nat.shiftLeft_eq, Nat.shiftLeft_eq, Nat.mul_assoc, ← pow_add]
      cases bit
      · simp
      · simp only [if_pos]
        congr 2
        omega
    rw [show (bit :: c).length = c.length + 1 from rfl, ← hor, Nat.or_assoc]
    have hbis : bi - 1 - c.length = bi - (c.length + 1) := by omega
    rw [hbis]

theorem lenPush_fold_flush (c : List Bool) : ∀ (sp : List Byte) (idx : Nat)
    (lb : Byte) (bi : Nat), c.length = bi + 1 →
    c.foldl lenPush (sp, idx, lb, bi) =
      (sp.set idx (lb ||| valOfBits c), idx + 1, 0, 7) := by
  induction c with
  | nil => intro sp idx lb bi hlen; simp at hlen
  | cons bit c ih =>
    intro sp idx lb bi hlen
    simp only [List.length_cons] at hlen
    by_cases hbi0 : bi = 0
    · subst hbi0
      have hc : c = [] := by
        rcases c with _ | ⟨a, t⟩
        · rfl
        · simp at hlen
      subst hc
      have hstep : lenPush (sp, idx, lb, 0) bit =
          (sp.set idx (lb ||| (if bit then 1 <<< 0 else 0)), idx + 1, 0, 7) := rfl
      show lenPush (sp, idx, lb, 0) bit = _
      rw [hstep]
      have hval : valOfBits [bit] = if bit then 1 else 0 := by
        rw [valOfBits_cons]
        cases bit <;> simp [valOfBits]
      rw [hval]
      cases bit <;> simp
    · have hstep : lenPush (sp, idx, lb, bi) bit =
          (sp, idx, lb ||| (if bit then 1 <<< bi else 0), bi - 1) := by
        show (if bi = 0 then _ else _) = _
        rw [if_neg hbi0]
      show (c.foldl lenPush (lenPush (sp, idx, lb, bi) bit)) = _
      rw [hstep, ih sp idx _ (bi - 1) (by omega)]
      congr 2
      have hval : valOfBits (bit :: c) =
          (if bit then 1 else 0) * 2 ^ c.length + valOfBits c := valOfBits_cons bit c
      have hsplit : valOfBits (bit :: c) =
          ((if bit then 1 else 0) * 2 ^ c.length) ||| valOfBits c := by
        rw [hval]
        exact (or_mul_pow_eq_add _ _ _ (valOfBits_lt c)).symm
      rw [hsplit, ← Nat.or_assoc]
      congr 2
      rw [Nat.shiftLeft_eq]
      cases bit
      · simp
      · simp only [if_pos]
        rw [show c.length = bi by omega]

theorem lenPush_fold_write (bits : List Bool) : ∀ (sp : List Byte) (idx : Nat),
    idx + (bits.length + 7) / 8 ≤ sp.length →
    (if (bits.foldl lenPush (sp, idx, 0, 7)).2.2.2 ≠ 7 then
        (bits.foldl lenPush (sp, idx, 0, 7)).1.set
          (bits.foldl lenPush (sp, idx, 0, 7)).2.1
          (bits.foldl lenPush (sp, idx, 0, 7)).2.2.1
      else (bits.foldl lenPush (sp, idx, 0, 7)).1) =
      sp.take idx ++ packBits bits ++ sp.drop (idx + (packBits bits).length) := by
  induction bits using packBits.induct with
  | case1 =>
    intro sp idx h
    show (if (7:Nat) ≠ 7 then _ else sp) = _
    rw [if_neg (fun hc => hc rfl), packBits_nil]
    simp only [List.length_nil, List.nil_append, List.append_nil, Nat.add_zero]
    rw [List.take_append_drop]
  | case2 bs hne ih =>
    intro sp idx h
    have hpos : 0 < bs.length := List.length_pos.2 hne
    by_cases h8 : 8 ≤ bs.length
    · have hsplit : bs.take 8 ++ bs.drop 8 = bs := List.take_append_drop 8 bs
      have htake8 : (bs.take 8).length = 8 := by rw [List.length_take]; omega
      have hfold : bs.foldl lenPush (sp, idx, 0, 7) =
          (bs.drop 8).foldl lenPush ((bs.take 8).foldl lenPush (sp, idx, 0, 7)) := by
        conv_lhs => rw [← hsplit]
        rw [List.foldl_append]
      have hflush := lenPush_fold_flush (bs.take 8) sp idx 0 7 (by omega)
      have hidxlt : idx < sp.length := by
        have : 1 ≤ (bs.length + 7) / 8 := by omega
        omega
      have hv : (0 : Byte) ||| valOfBits (bs.take 8) = byteOfBits (bs.take 8) := by
        rw [Nat.zero_or]
        unfold byteOfBits
        rw [htake8, Nat.sub_self, Nat.shiftLeft_zero]
      rw [hfold, hflush, hv]
      rw [ih (sp.set idx (byteOfBits (bs.take 8))) (idx + 1) (by
        rw [List.length_set, List.length_drop]
        have hd : (bs.length - 8 + 7) / 8 + 1 = (bs.length + 7) / 8 := by omega
        omega)]
      rw [takeN_set_succ sp idx _ hidxlt, dropN_set_of_lt sp idx _ _ (by omega)]
      rw [packBits_cons_block bs hne]
      rw [List.length_cons]
      simp only [List.append_assoc, List.singleton_append, List.cons_append,
        List.nil_append]
      rw [show idx + 1 + (packBits (bs.drop 8)).length =
        idx + ((packBits (bs.drop 8)).length + 1) by omega]
    · have hlen7 : bs.length ≤ 7 := by omega
      rw [lenPush_fold_noflush bs sp idx 0 7 (by omega)]
      show (if 7 - bs.length ≠ 7 then
          sp.set idx (0 ||| valOfBits bs <<< (7 + 1 - bs.length)) else sp) = _
      rw [if_pos (by omega)]
      have hv : (0 : Byte) ||| valOfBits bs <<< (7 + 1 - bs.length) = byteOfBits bs := by
        rw [Nat.zero_or]
        rfl
      rw [hv]
      have hpk : packBits bs = [byteOfBits bs] := by
        rw [packBits_cons_block bs hne, List.take_of_length_le (by omega),
          List.drop_of_length_le (by omega), packBits_nil]
      rw [hpk]
      have hidxlt : idx < sp.length := by
        have : 1 ≤ (bs.length + 7) / 8 := by omega
        omega
      rw [List.set_eq_take_cons_drop _ hidxlt]
      simp

theorem roaringGo_spec (ws : List Byte) (bs w : Nat) (l : List Nat) :
    ∀ (blist : List Nat),
    (∀ b ∈ blist, ws.getD (bs * b) 0 = (bucketElems b l).length) →
    (∀ b ∈ blist, ∀ j, j < min (bucketElems b l).length (bs - 1) →
      ws.getD (bs * b + 1 + j) 0 = (bucketElems b l).getD j 0 % 256) →
    ∀ (space : List Byte) (idx : Nat) (lb : Byte) (bi : Nat),
    bi ≤ 7 →
    8 * idx + (7 - bi) +
      ((blist.map fun b => bitsValBE w (bucketElems b l).length).flatten).length ≤
      8 * space.length →
    roaringGo ws bs w blist
      ((blist.map fun b =>
        ((bucketElems b l).drop (bs - 1)).insertionSort (· ≤ ·)).flatten)
      (space, idx, lb, bi) =
      ((((blist.map fun b => bitsValBE w (bucketElems b l).length).flatten).foldl
          lenPush (space, idx, lb, bi)).1 ++
        ((blist.map fun b =>
          ((bucketElems b l).insertionSort (· ≤ ·)).map (· % 256)).flatten),
       (((blist.map fun b => bitsValBE w (bucketElems b l).length).flatten).foldl
          lenPush (space, idx, lb, bi)).2) := by
  intro blist
  induction blist with
  | nil =>
    intro _ _ space idx lb bi hbi hb
    show (space, idx, lb, bi) = _
    simp
  | cons b rest ih =>
    intro hcount hslots space idx lb bi hbi hb
    rw [List.map_cons, List.flatten_cons]
    obtain ⟨hbk, hsort⟩ := bucketKeysLow_spec ws bs b (bucketElems b l)
      ((rest.map fun b =>
        ((bucketElems b l).drop (bs - 1)).insertionSort (· ≤ ·)).flatten)
      (hcount b (by simp)) (hslots b (by simp))
      (fun i hi => (bucketElems_mem b i l hi).2)
    show (let keyNum := ws.getD (bs * b) 0
      let p := bucketKeysLow ws bs b _
      let sorted := p.1.insertionSort (· ≤ ·)
      let q := (bitsValBE w keyNum).foldl lenPush (space, idx, lb, bi)
      roaringGo ws bs w rest p.2 (q.1 ++ sorted, q.2.1, q.2.2.1, q.2.2.2)) = _
    rw [hbk, hcount b (by simp)]
    dsimp only
    rw [hsort]
    obtain ⟨hflen, hfbi, hfmeas⟩ :=
      lenPush_fold_facts (bitsValBE w (bucketElems b l).length) space idx lb bi hbi
    have hwlen : (bitsValBE w (bucketElems b l).length).length = w := bitsValBE_length _ _
    rw [List.map_cons, List.flatten_cons, List.length_append, hwlen] at hb
    set F1 := (bitsValBE w (bucketElems b l).length).foldl lenPush (space, idx, lb, bi)
      with hF1
    have hrest : 8 * F1.2.1 + (7 - F1.2.2.2) +
        ((rest.map fun b => bitsValBE w (bucketElems b l).length).flatten).length ≤
        8 * (F1.1 ++
          ((bucketElems b l).insertionSort (· ≤ ·)).map (· % 256)).length := by
      rw [List.length_append, hflen]
      rw [hwlen] at hfmeas
      omega
    have hgoal := ih (fun x hx => hcount x (by simp [hx]))
      (fun x hx => hslots x (by simp [hx]))
      (F1.1 ++ ((bucketElems b l).insertionSort (· ≤ ·)).map (· % 256))
      F1.2.1 F1.2.2.1 F1.2.2.2 hfbi hrest
    rw [show (F1.1 ++ ((bucketElems b l).insertionSort (· ≤ ·)).map (· % 256),
        F1.2.1, F1.2.2.1, F1.2.2.2) =
      (F1.1 ++ ((bucketElems b l).insertionSort (· ≤ ·)).map (· % 256), F1.2) from rfl]
      at hgoal
    rw [hgoal]
    have happ := lenPush_fold_append
      ((rest.map fun b => bitsValBE w (bucketElems b l).length).flatten)
      F1.1 (((bucketElems b l).insertionSort (· ≤ ·)).map (· % 256))
      F1.2.1 F1.2.2.1 F1.2.2.2 hfbi (by
        rw [hflen]
        rw [hwlen] at hfmeas
        omega)
    rw [show (F1.1 ++ ((bucketElems b l).insertionSort (· ≤ ·)).map (· % 256),
        F1.2.1, F1.2.2.1, F1.2.2.2) =
      (F1.1 ++ ((bucketElems b l).insertionSort (· ≤ ·)).map (· % 256), F1.2) from rfl]
      at happ
    rw [show (F1.1, F1.2.1, F1.2.2.1, F1.2.2.2) = (F1.1, F1.2) from rfl] at happ
    rw [happ]
    have hmerge : ∀ (bits2 : List Bool),
        bits2.foldl lenPush (F1.1, F1.2) =
        ((bitsValBE w (bucketElems b l).length ++ bits2).foldl lenPush
          (space, idx, lb, bi)) := by
      intro bits2
      rw [List.foldl_append]
    rw [hmerge]
    simp only [List.map_cons, List.flatten_cons, List.append_assoc]

theorem flatten_map_bits_length (blist : List Nat) (f : Nat → Nat) (w : Nat) :
    ((blist.map fun b => bitsValBE w (f b)).flatten).length = blist.length * w := by
  induction blist with
  | nil => simp
  | cons b rest ih =>
    rw [List.map_cons, List.flatten_cons, List.length_append, bitsValBE_length, ih,
      List.length_cons]
    ring

theorem roaringFinish_spec (kb nk : Nat) (l : List Nat) (hkb : 8 ≤ kb)
    (hbound : ∀ i ∈ l, i < 2 ^ kb)
    (hcap : ∀ b, (bucketElems b l).length ≤ 255) :
    roaringFinish (l.foldl roaringSet (roaringReset kb nk)) =
      leftMostOneBit ((l.foldl roaringSet (roaringReset kb nk)).maxBit) ::
        (packBits (((List.range (2 ^ (kb - 8))).map fun b =>
          bitsValBE (leftMostOneBit ((l.foldl roaringSet (roaringReset kb nk)).maxBit))
            (bucketElems b l).length).flatten) ++
        ((List.range (2 ^ (kb - 8))).map fun b =>
          ((bucketElems b l).insertionSort (· ≤ ·)).map (· % 256)).flatten) := by
  set stR := l.foldl roaringSet (roaringReset kb nk) with hstR
  have hcfeq : stR.cf = l.foldl cfmtSet (cfmtReset kb nk) :=
    roaringFold_cf l (roaringReset kb nk)
  obtain ⟨hkB, hbn, hbs, hlen, hcnt, hslot, hov⟩ :=
    cfmt_stage kb nk l hkb hbound hcap stR.cf hcfeq
  set w := leftMostOneBit stR.maxBit with hw
  have hdiv : ∀ i ∈ l, i / 256 < 2 ^ (kb - 8) := fun i hi =>
    div256_lt i kb hkb (hbound i hi)
  have hovdiv : ∀ i ∈ stR.cf.overflowed, i / 256 < 2 ^ (kb - 8) := by
    intro i hi
    have hmem : i ∈ bucketElems (i / 256) stR.cf.overflowed := by
      simp [bucketElems, hi]
    rw [hov (i / 256)] at hmem
    have : i ∈ bucketElems (i / 256) l := List.mem_of_mem_drop hmem
    exact hdiv i (bucketElems_mem _ _ _ this).1
  have hovsorted : stR.cf.overflowed.insertionSort (· ≤ ·) =
      ((List.range stR.cf.bucketNum).map fun b =>
        ((bucketElems b l).drop (stR.cf.bucketSize - 1)).insertionSort (· ≤ ·)).flatten := by
    rw [insertionSort_partition stR.cf.bucketNum stR.cf.overflowed
      (by rw [hbn]; exact hovdiv)]
    congr 1
    apply List.map_congr_left
    intro b _
    rw [hov b]
  set bn := stR.cf.bucketNum with hbndef
  set space0 := (List.replicate (1 + (w * bn + 7) / 8) 0).set 0 w with hspace0
  have hsp0len : space0.length = 1 + (w * bn + 7) / 8 := by
    rw [hspace0, List.length_set, List.length_replicate]
  have hlenbits : ((List.range bn).map fun b =>
      bitsValBE w (bucketElems b l).length).flatten.length = bn * w := by
    rw [flatten_map_bits_length, List.length_range]
  have hb0 : 8 * 1 + (7 - 7) +
      ((List.range bn).map fun b => bitsValBE w (bucketElems b l).length).flatten.length ≤
      8 * space0.length := by
    rw [hlenbits, hsp0len]
    have hcomm : w * bn = bn * w := Nat.mul_comm w bn
    omega
  have hgo := roaringGo_spec stR.cf.workingSpace stR.cf.bucketSize w l (List.range bn)
    (fun b _ => by rw [Nat.mul_comm]; exact hcnt b)
    (fun b _ j hj => by rw [Nat.mul_comm]; exact hslot b j hj)
    space0 1 0 7 (by omega) hb0
  show (let q := (roaringGo stR.cf.workingSpace stR.cf.bucketSize w (List.range bn)
        (stR.cf.overflowed.insertionSort (· ≤ ·)) (space0, 1, 0, 7));
      if q.2.2.2 ≠ 7 then q.1.set q.2.1 q.2.2.1 else q.1) = _
  rw [hovsorted, hgo]
  dsimp only
  set F := (((List.range bn).map fun b =>
    bitsValBE w (bucketElems b l).length).flatten).foldl lenPush (space0, 1, 0, 7)
    with hF
  obtain ⟨hFlen, hFbi, hFmeas⟩ := lenPush_fold_facts _ space0 1 0 7 (by omega)
  rw [← hF] at hFlen hFbi hFmeas
  rw [hlenbits] at hFmeas
  have hfactor : (if F.2.2.2 ≠ 7 then
      (F.1 ++ ((List.range bn).map fun b =>
        ((bucketElems b l).insertionSort (· ≤ ·)).map (· % 256)).flatten).set
        F.2.1 F.2.2.1
    else F.1 ++ ((List.range bn).map fun b =>
        ((bucketElems b l).insertionSort (· ≤ ·)).map (· % 256)).flatten) =
      (if F.2.2.2 ≠ 7 then F.1.set F.2.1 F.2.2.1 else F.1) ++
        ((List.range bn).map fun b =>
          ((bucketElems b l).insertionSort (· ≤ ·)).map (· % 256)).flatten := by
    by_cases hq : F.2.2.2 ≠ 7
    · rw [if_pos hq, if_pos hq]
      apply setN_append_left
      rw [hFlen, hsp0len]
      have hcomm : w * bn = bn * w := Nat.mul_comm w bn
      omega
    · rw [if_neg hq, if_neg hq]
  rw [hfactor]
  have hwrite := lenPush_fold_write
    (((List.range bn).map fun b => bitsValBE w (bucketElems b l).length).flatten)
    space0 1 (by
      rw [hlenbits, hsp0len]
      have hcomm : w * bn = bn * w := Nat.mul_comm w bn
      omega)
  rw [← hF] at hwrite
  rw [hwrite]
  have htake : space0.take 1 = [w] := by
    rw [hspace0]
    rw [takeN_set_succ _ _ _ (by rw [List.length_replicate]; omega)]
    rw [List.take_zero, List.nil_append]
  have hpblen : (packBits (((List.range bn).map fun b =>
      bitsValBE w (bucketElems b l).length).flatten)).length = (bn * w + 7) / 8 := by
    rw [packBits_length, hlenbits]
  have hdrop : space0.drop (1 + (packBits (((List.range bn).map fun b =>
      bitsValBE w (bucketElems b l).length).flatten)).length) = [] := by
    apply List.drop_of_length_le
    rw [hsp0len, hpblen]
    have hcomm : w * bn = bn * w := Nat.mul_comm w bn
    omega
  rw [htake, hdrop]
  rw [show bn = 2 ^ (kb - 8) from hbn]
  simp

theorem setN_append_last (l1 : List Nat) (a v : Nat) :
    (l1 ++ [a]).set l1.length v = l1 ++ [v] := by
  induction l1 with
  | nil => rfl
  | cons x t ih =>
    show x :: (t ++ [a]).set t.length v = _
    rw [ih]
    rfl

theorem eq_range_map (ll : List Nat) (n : Nat) (f : Nat → Nat) (hlen : ll.length = n)
    (hget : ∀ p, p < n → ll.getD p 0 = f p) : ll = (List.range n).map f := by
  apply List.ext_getElem (by simp [hlen])
  intro i h1 h2
  rw [List.getElem_map, List.getElem_range]
  rw [← getD_eq_getElem_of_lt ll i (by omega)]
  exact hget i (by omega)

theorem flatten_map_pair_length (L : List Nat) (f g : Nat → Nat) :
    ((L.map fun p => [f p, g p]).flatten).length = 2 * L.length := by
  induction L with
  | nil => simp
  | cons x t ih =>
    rw [List.map_cons, List.flatten_cons, List.length_append, ih, List.length_cons]
    simp only [List.length_cons, List.length_nil]
    ring

theorem writeSumsGo_spec (sums : List Nat) : ∀ (space : List Byte) (i : Nat),
    2 * i + 2 * sums.length ≤ space.length →
    writeSumsGo space sums i =
      space.take (2 * i) ++
        (sums.map fun s => [s % 256, s / 256 % 256]).flatten ++
        space.drop (2 * i + 2 * sums.length) := by
  induction sums with
  | nil =>
    intro space i h
    show space = _
    simp [List.take_append_drop]
  | cons s rest ih =>
    intro space i h
    simp only [List.length_cons] at h
    have hp0 : 2 * i < space.length := by omega
    have hp1 : 2 * i + 1 < space.length := by omega
    show writeSumsGo ((space.set (2 * i) (s % 256)).set (2 * i + 1) (s / 256 % 256))
      rest (i + 1) = _
    rw [ih _ (i + 1) (by rw [List.length_set, List.length_set]; omega)]
    have htake : ((space.set (2 * i) (s % 256)).set (2 * i + 1) (s / 256 % 256)).take
        (2 * (i + 1)) = space.take (2 * i) ++ [s % 256, s / 256 % 256] := by
      rw [show 2 * (i + 1) = (2 * i + 1) + 1 by ring]
      rw [takeN_set_succ _ _ _ (by rw [List.length_set]; omega)]
      rw [show (2 : Nat) * i + 1 = (2 * i) + 1 from rfl]
      rw [takeN_set_succ _ _ _ hp0]
      rw [List.append_assoc]
      rfl
    have hdrop : ((space.set (2 * i) (s % 256)).set (2 * i + 1) (s / 256 % 256)).drop
        (2 * (i + 1) + 2 * rest.length) = space.drop (2 * i + 2 * (rest.length + 1)) := by
      rw [dropN_set_of_lt _ _ _ _ (by omega), dropN_set_of_lt _ _ _ _ (by omega)]
      congr 1
      ring
    rw [htake, hdrop, List.map_cons, List.flatten_cons]
    simp only [List.append_assoc]
    rfl

theorem pRoaringFinish_spec (kb nk : Nat) (l : List Nat) (hkb : 16 ≤ kb)
    (hbound : ∀ i ∈ l, i < 2 ^ kb)
    (hcap : ∀ b, (bucketElems b l).length ≤ 255)
    (hpart : ∀ p, (l.filter (fun i => i / 65536 = p)).length ≤ 65535) :
    pRoaringFinish (l.foldl pRoaringSet (pRoaringReset kb nk)) =
      ((List.range (2 ^ (kb - 16))).map fun p =>
        [(l.filter (fun i => i / 65536 = p)).length % 256,
          (l.filter (fun i => i / 65536 = p)).length / 256 % 256]).flatten ++
      leftMostOneBit ((l.foldl pRoaringSet (pRoaringReset kb nk)).maxBit) ::
        (packBits (((List.range (2 ^ (kb - 8))).map fun b =>
          bitsValBE (leftMostOneBit ((l.foldl pRoaringSet (pRoaringReset kb nk)).maxBit))
            (bucketElems b l).length).flatten) ++
        ((List.range (2 ^ (kb - 8))).map fun b =>
          ((bucketElems b l).insertionSort (· ≤ ·)).map (· % 256)).flatten) := by
  have hkb8 : 8 ≤ kb := by omega
  set stR := l.foldl pRoaringSet (pRoaringReset kb nk) with hstR
  have hcfeq : stR.cf = l.foldl cfmtSet (cfmtReset kb nk) :=
    pRoaringFold_cf l (pRoaringReset kb nk)
  obtain ⟨hkB, hbn, hbs, hlen, hcnt, hslot, hov⟩ :=
    cfmt_stage kb nk l hkb8 hbound hcap stR.cf hcfeq
  obtain ⟨hmcnt, hm255, hpn, hslen, hsget⟩ :=
    pRoaringFold_stage kb nk l hkb hbound hcap hpart
  rw [← hstR] at hmcnt hm255 hpn hslen hsget
  set w := leftMostOneBit stR.maxBit with hw
  have hdiv : ∀ i ∈ l, i / 256 < 2 ^ (kb - 8) := fun i hi =>
    div256_lt i kb hkb8 (hbound i hi)
  have hovdiv : ∀ i ∈ stR.cf.overflowed, i / 256 < 2 ^ (kb - 8) := by
    intro i hi
    have hmem : i ∈ bucketElems (i / 256) stR.cf.overflowed := by
      simp [bucketElems, hi]
    rw [hov (i / 256)] at hmem
    have : i ∈ bucketElems (i / 256) l := List.mem_of_mem_drop hmem
    exact hdiv i (bucketElems_mem _ _ _ this).1
  have hovsorted : stR.cf.overflowed.insertionSort (· ≤ ·) =
      ((List.range stR.cf.bucketNum).map fun b =>
        ((bucketElems b l).drop (stR.cf.bucketSize - 1)).insertionSort (· ≤ ·)).flatten := by
    rw [insertionSort_partition stR.cf.bucketNum stR.cf.overflowed
      (by rw [hbn]; exact hovdiv)]
    congr 1
    apply List.map_congr_left
    intro b _
    rw [hov b]
  set bn := stR.cf.bucketNum with hbndef
  set pn := stR.partitionNum with hpndef
  have hsums : stR.partitionSum = (List.range pn).map
      (fun p => (l.filter (fun i => i / 65536 = p)).length) := by
    apply eq_range_map _ _ _ (by rw [hslen, hpn])
    intro p hp
    exact hsget p
  have hsumbytes : writeSumsGo (List.replicate (2 * pn + 1) 0) stR.partitionSum 0 =
      ((List.range pn).map fun p =>
        [(l.filter (fun i => i / 65536 = p)).length % 256,
          (l.filter (fun i => i / 65536 = p)).length / 256 % 256]).flatten ++ [0] := by
    rw [hsums, writeSumsGo_spec _ _ 0 (by
      rw [List.length_replicate, List.length_map, List.length_range]
      omega)]
    rw [List.take_zero, List.nil_append, List.map_map]
    have hdrop : (List.replicate (2 * pn + 1) (0 : Byte)).drop
        (2 * 0 + 2 * ((List.range pn).map
          (fun p => (l.filter (fun i => i / 65536 = p)).length)).length) = [0] := by
      rw [List.length_map, List.length_range, List.drop_replicate]
      rw [show 2 * pn + 1 - (2 * 0 + 2 * pn) = 1 by omega]
      rfl
    rw [hdrop]
    rfl
  set sumBytes := ((List.range pn).map fun p =>
    [(l.filter (fun i => i / 65536 = p)).length % 256,
      (l.filter (fun i => i / 65536 = p)).length / 256 % 256]).flatten with hsb
  have hsblen : sumBytes.length = 2 * pn := by
    rw [hsb, flatten_map_pair_length, List.length_range]
  have hspace1 : (writeSumsGo (List.replicate (2 * pn + 1) 0) stR.partitionSum 0).set
      (2 * pn) w = sumBytes ++ [w] := by
    rw [hsumbytes, ← hsblen, setN_append_last]
  show (let q := (roaringGo stR.cf.workingSpace stR.cf.bucketSize w (List.range bn)
        (stR.cf.overflowed.insertionSort (· ≤ ·))
        (((writeSumsGo (List.replicate (2 * pn + 1) 0) stR.partitionSum 0).set
          (2 * pn) w) ++ List.replicate ((w * bn + 7) / 8) 0, 2 * pn + 1, 0, 7));
      if q.2.2.2 ≠ 7 then q.1.set q.2.1 q.2.2.1 else q.1) = _
  rw [hspace1, hovsorted]
  set space2 := (sumBytes ++ [w]) ++ List.replicate ((w * bn + 7) / 8) 0 with hsp2
  have hsp2len : space2.length = 2 * pn + 1 + (w * bn + 7) / 8 := by
    rw [hsp2, List.length_append, List.length_append, List.length_replicate, hsblen]
    simp
  have hlenbits : ((List.range bn).map fun b =>
      bitsValBE w (bucketElems b l).length).flatten.length = bn * w := by
    rw [flatten_map_bits_length, List.length_range]
  have hb0 : 8 * (2 * pn + 1) + (7 - 7) +
      ((List.range bn).map fun b => bitsValBE w (bucketElems b l).length).flatten.length ≤
      8 * space2.length := by
    rw [hlenbits, hsp2len]
    have hcomm : w * bn = bn * w := Nat.mul_comm w bn
    omega
  have hgo := roaringGo_spec stR.cf.workingSpace stR.cf.bucketSize w l (List.range bn)
    (fun b _ => by rw [Nat.mul_comm]; exact hcnt b)
    (fun b _ j hj => by rw [Nat.mul_comm]; exact hslot b j hj)
    space2 (2 * pn + 1) 0 7 (by omega) hb0
  rw [hgo]
  dsimp only
  set F := (((List.range bn).map fun b =>
    bitsValBE w (bucketElems b l).length).flatten).foldl lenPush (space2, 2 * pn + 1, 0, 7)
    with hF
  obtain ⟨hFlen, hFbi, hFmeas⟩ := lenPush_fold_facts _ space2 (2 * pn + 1) 0 7 (by omega)
  rw [← hF] at hFlen hFbi hFmeas
  rw [hlenbits] at hFmeas
  have hfactor : (if F.2.2.2 ≠ 7 then
      (F.1 ++ ((List.range bn).map fun b =>
        ((bucketElems b l).insertionSort (· ≤ ·)).map (· % 256)).flatten).set
        F.2.1 F.2.2.1
    else F.1 ++ ((List.range bn).map fun b =>
        ((bucketElems b l).insertionSort (· ≤ ·)).map (· % 256)).flatten) =
      (if F.2.2.2 ≠ 7 then F.1.set F.2.1 F.2.2.1 else F.1) ++
        ((List.range bn).map fun b =>
          ((bucketElems b l).insertionSort (· ≤ ·)).map (· % 256)).flatten := by
    by_cases hq : F.2.2.2 ≠ 7
    · rw [if_pos hq, if_pos hq]
      apply setN_append_left
      rw [hFlen, hsp2len]
      have hcomm : w * bn = bn * w := Nat.mul_comm w bn
      omega
    · rw [if_neg hq, if_neg hq]
  rw [hfactor]
  have hwrite := lenPush_fold_write
    (((List.range bn).map fun b => bitsValBE w (bucketElems b l).length).flatten)
    space2 (2 * pn + 1) (by
      rw [hlenbits, hsp2len]
      have hcomm : w * bn = bn * w := Nat.mul_comm w bn
      omega)
  rw [← hF] at hwrite
  rw [hwrite]
  have htake : space2.take (2 * pn + 1) = sumBytes ++ [w] := by
    rw [hsp2]
    rw [show 2 * pn + 1 = (sumBytes ++ [w]).length by
      rw [List.length_append, hsblen]; simp]
    rw [List.take_left]
  have hpblen : (packBits (((List.range bn).map fun b =>
      bitsValBE w (bucketElems b l).length).flatten)).length = (bn * w + 7) / 8 := by
    rw [packBits_length, hlenbits]
  have hdrop : space2.drop (2 * pn + 1 + (packBits (((List.range bn).map fun b =>
      bitsValBE w (bucketElems b l).length).flatten)).length) = [] := by
    apply List.drop_of_length_le
    rw [hsp2len, hpblen]
    have hcomm : w * bn = bn * w := Nat.mul_comm w bn
    omega
  rw [htake, hdrop]
  rw [show bn = 2 ^ (kb - 8) from hbn]
  rw [show pn = 2 ^ (kb - 16) from hpn] at hsb
  rw [hsb]
  simp

/-! ## Decoder correctness: shared gap-scan semantics -/

theorem lt_two_pow_lmb (n : Nat) : n < 2 ^ leftMostOneBit n := by
  rcases Nat.eq_zero_or_pos n with h | h
  · subst h
    rw [leftMostOneBit, if_pos rfl]
    omega
  · exact (leftMostOneBit_bounds n h).2

theorem lmb_pos (n : Nat) (h : n ≠ 0) : 0 < leftMostOneBit n := by
  rw [leftMostOneBit, if_neg h]
  omega

theorem dist64_eq (x l0 : Nat) (h1 : l0 ≤ x) (h2 : x < 18446744073709551616) :
    dist64 x l0 = x - l0 := by
  unfold dist64
  rw [show 18446744073709551616 + x - l0 = 18446744073709551616 + (x - l0) by omega,
    Nat.add_mod_left, Nat.mod_eq_of_lt (by omega)]

theorem gapRun_append (bit : Nat) (gs1 gs2 : List Nat) : ∀ idx,
    gapRun bit (gs1 ++ gs2) idx =
      match gapRun bit gs1 idx with
      | Sum.inl r => Sum.inl r
      | Sum.inr i' => gapRun bit gs2 i' := by
  induction gs1 with
  | nil => intro idx; rfl
  | cons g gs ih =>
    intro idx
    show (if idx + g = bit then Sum.inl true
      else if bit < idx + g then Sum.inl false
      else gapRun bit (gs ++ gs2) (idx + g)) = _
    by_cases h1 : idx + g = bit
    · rw [if_pos h1]
      show _ = (match (if idx + g = bit then Sum.inl true else _ : Bool ⊕ Nat) with
        | Sum.inl r => Sum.inl r
        | Sum.inr i' => gapRun bit gs2 i')
      rw [if_pos h1]
    · rw [if_neg h1]
      by_cases h2 : bit < idx + g
      · rw [if_pos h2]
        show _ = (match (if idx + g = bit then Sum.inl true
            else if bit < idx + g then Sum.inl false else _ : Bool ⊕ Nat) with
          | Sum.inl r => Sum.inl r
          | Sum.inr i' => gapRun bit gs2 i')
        rw [if_neg h1, if_pos h2]
      · rw [if_neg h2, ih (idx + g)]
        show _ = (match (if idx + g = bit then Sum.inl true
            else if bit < idx + g then Sum.inl false
            else gapRun bit gs (idx + g) : Bool ⊕ Nat) with
          | Sum.inl r => Sum.inl r
          | Sum.inr i' => gapRun bit gs2 i')
        rw [if_neg h1, if_neg h2]

theorem gapScan_append (bit : Nat) (gs1 gs2 : List Nat) (idx : Nat) :
    gapScan bit (gs1 ++ gs2) idx =
      match gapRun bit gs1 idx with
      | Sum.inl r => r
      | Sum.inr i' => gapScan bit gs2 i' := by
  unfold gapScan
  rw [gapRun_append]
  rcases gapRun bit gs1 idx with r | i' <;> rfl

theorem gapRun_inr (bit : Nat) (gs : List Nat) : ∀ idx i',
    gapRun bit gs idx = Sum.inr i' → idx ≤ i' ∧ (gs ≠ [] → i' < bit) := by
  induction gs with
  | nil =>
    intro idx i' h
    refine ⟨?_, fun hc => absurd rfl hc⟩
    show idx ≤ i'
    have h2 : idx = i' := Sum.inr.inj h
    omega

  | cons g gs ih =>
    intro idx i' h
    show idx ≤ i' ∧ _
    rw [show gapRun bit (g :: gs) idx = (if idx + g = bit then Sum.inl true
      else if bit < idx + g then Sum.inl false
      else gapRun bit gs (idx + g)) from rfl] at h
    by_cases h1 : idx + g = bit
    · rw [if_pos h1] at h
      exact absurd h (by simp)
    · rw [if_neg h1] at h
      by_cases h2 : bit < idx + g
      · rw [if_pos h2] at h
        exact absurd h (by simp)
      · rw [if_neg h2] at h
        rcases gs with _ | ⟨g2, gs2⟩
        · have hi : idx + g = i' := by
            have : (Sum.inr (idx + g) : Bool ⊕ Nat) = Sum.inr i' := h
            simpa using this
          exact ⟨by omega, fun _ => by omega⟩
        · obtain ⟨ha, hb⟩ := ih (idx + g) i' h
          exact ⟨by omega, fun _ => hb (by simp)⟩

theorem gapScan_gapsList (bit : Nat) (xs : List Nat) : ∀ l0,
    xs.Sorted (· < ·) → (∀ x ∈ xs, x < 18446744073709551616) →
    (∀ x ∈ xs, l0 ≤ x) →
    gapScan bit (gapsList l0 xs) l0 = decide (bit ∈ xs) := by
  induction xs with
  | nil => intro l0 _ _ _; simp [gapScan, gapsList, gapRun]
  | cons x xs ih =>
    intro l0 hsorted hbound hl0
    obtain ⟨hhead, htail⟩ := List.sorted_cons.1 hsorted
    have hd : dist64 x l0 = x - l0 :=
      dist64_eq x l0 (hl0 x (by simp)) (hbound x (by simp))
    show gapScan bit (dist64 x l0 :: gapsList x xs) l0 = _
    have hsum : l0 + dist64 x l0 = x := by
      rw [hd]
      have := hl0 x (by simp)
      omega
    rw [show gapScan bit (dist64 x l0 :: gapsList x xs) l0 =
      (if l0 + dist64 x l0 = bit then true
       else if bit < l0 + dist64 x l0 then false
       else gapScan bit (gapsList x xs) (l0 + dist64 x l0)) from by
        unfold gapScan
        show (match (if l0 + dist64 x l0 = bit then Sum.inl true
          else if bit < l0 + dist64 x l0 then Sum.inl false
          else gapRun bit (gapsList x xs) (l0 + dist64 x l0) : Bool ⊕ Nat) with
          | Sum.inl r => r
          | Sum.inr _ => false) = _
        split_ifs <;> rfl]
    rw [hsum]
    by_cases h1 : x = bit
    · rw [if_pos h1]
      subst h1
      simp
    · rw [if_neg h1]
      by_cases h2 : bit < x
      · rw [if_pos h2]
        have hnot : bit ∉ x :: xs := by
          intro hc
          rcases List.mem_cons.1 hc with hc | hc
          · omega
          · have := hhead bit hc
            omega
        simp [hnot]
      · rw [if_neg h2]
        rw [ih x htail (fun y hy => hbound y (by simp [hy]))
          (fun y hy => le_of_lt (hhead y hy))]
        have hne : (bit ∈ x :: xs) ↔ (bit ∈ xs) := by
          rw [List.mem_cons]
          constructor
          · rintro (hc | hc)
            · omega
            · exact hc
          · intro hc
            right
            exact hc
        exact decide_eq_decide.2 hne.symm

/-! ## Varint and varint-plus decoding -/

theorem and_128_eq (b : Nat) : b &&& 128 = (b.testBit 7).toNat * 128 := by
  rw [show (128 : Nat) = 2 ^ 7 by norm_num, Nat.and_two_pow]

theorem and_127_eq (b : Nat) : b &&& 127 = b % 128 := by
  rw [show (127 : Nat) = 2 ^ 7 - 1 by norm_num, Nat.and_pow_two_sub_one_eq_mod]

theorem testBit7_of_lt (b : Nat) (h : b < 128) : b.testBit 7 = false :=
  Nat.testBit_lt_two_pow (by norm_num; omega)

theorem testBit7_of_ge (b : Nat) (h1 : 128 ≤ b) (h2 : b < 256) : b.testBit 7 = true := by
  rw [Nat.testBit_to_div_mod]
  have : b / 2 ^ 7 = 1 := by
    rw [show (2:Nat) ^ 7 = 128 by norm_num]
    omega
  rw [this]
  decide

theorem varintEnc_length_pos (d : Nat) : 1 ≤ (varintEnc d).length := by
  rw [varintEnc]
  split <;> simp

theorem varintVal_enc (d : Nat) : ∀ (rest : List Byte) (s : Nat),
    varintVal (varintEnc d ++ rest) s = d <<< s := by
  induction d using varintEnc.induct with
  | case1 d hd =>
    intro rest s
    rw [varintEnc, if_pos hd]
    show varintVal (d :: rest) s = _
    rw [show varintVal (d :: rest) s = (if d &&& 128 ≠ 0 then
      ((d &&& 127) <<< s) + varintVal rest (s + 7) else d <<< s) from rfl]
    rw [if_neg (by rw [and_128_eq, testBit7_of_lt d hd]; simp)]
  | case2 d hd ih =>
    intro rest s
    rw [varintEnc, if_neg hd]
    show varintVal ((d % 128 + 128) :: (varintEnc (d / 128) ++ rest)) s = _
    rw [show varintVal ((d % 128 + 128) :: (varintEnc (d / 128) ++ rest)) s =
      (if (d % 128 + 128) &&& 128 ≠ 0 then
        (((d % 128 + 128) &&& 127) <<< s) + varintVal (varintEnc (d / 128) ++ rest) (s + 7)
      else (d % 128 + 128) <<< s) from rfl]
    rw [if_pos (by
      rw [and_128_eq, testBit7_of_ge _ (by omega) (by omega)]
      simp)]
    rw [ih rest (s + 7), and_127_eq]
    rw [Nat.shiftLeft_eq, Nat.shiftLeft_eq, Nat.shiftLeft_eq]
    have hm : (d % 128 + 128) % 128 = d % 128 := by omega
    rw [hm]
    have hdm := Nat.div_add_mod d 128
    have hpow : (2:Nat) ^ (s + 7) = 128 * 2 ^ s := by
      rw [pow_add]
      norm_num
      ring
    rw [hpow]
    have : d % 128 * 2 ^ s + d / 128 * (128 * 2 ^ s) =
        (d % 128 + 128 * (d / 128)) * 2 ^ s := by ring
    rw [this]
    congr 1
    omega

theorem vContLen_enc (d : Nat) : ∀ (rest : List Byte),
    vContLen (varintEnc d ++ rest) + 1 = (varintEnc d).length := by
  induction d using varintEnc.induct with
  | case1 d hd =>
    intro rest
    rw [varintEnc, if_pos hd]
    show vContLen (d :: rest) + 1 = 1
    rw [show vContLen (d :: rest) = if d &&& 128 ≠ 0 then 1 + vContLen rest else 0
      from rfl]
    rw [if_neg (by rw [and_128_eq, testBit7_of_lt d hd]; simp)]
  | case2 d hd ih =>
    intro rest
    rw [varintEnc, if_neg hd]
    show vContLen ((d % 128 + 128) :: (varintEnc (d / 128) ++ rest)) + 1 = _
    rw [show vContLen ((d % 128 + 128) :: (varintEnc (d / 128) ++ rest)) =
      if (d % 128 + 128) &&& 128 ≠ 0 then 1 + vContLen (varintEnc (d / 128) ++ rest)
      else 0 from rfl]
    rw [if_pos (by
      rw [and_128_eq, testBit7_of_ge _ (by omega) (by omega)]
      simp)]
    have := ih rest
    simp only [List.length_cons]
    omega

theorem varintTestGo_gaps (bit : Nat) (gs : List Nat) : ∀ (index : Nat),
    varintTestGo bit ((gs.map varintEnc).flatten) index = gapScan bit gs index := by
  induction gs with
  | nil =>
    intro index
    show varintTestGo bit [] index = _
    rw [varintTestGo]
    rfl
  | cons g gs ih =>
    intro index
    rw [List.map_cons, List.flatten_cons]
    rcases henc : varintEnc g with _ | ⟨b, tl⟩
    · have := varintEnc_length_pos g
      rw [henc] at this
      simp at this
    · have hval : varintVal ((b :: tl) ++ (gs.map varintEnc).flatten) 0 = g := by
        rw [← henc, varintVal_enc]
        exact Nat.shiftLeft_zero
      have hcont : vContLen ((b :: tl) ++ (gs.map varintEnc).flatten) + 1 =
          (b :: tl).length := by
        rw [← henc, vContLen_enc, henc]
      have hdrop : ((b :: tl) ++ (gs.map varintEnc).flatten).drop
          (vContLen ((b :: tl) ++ (gs.map varintEnc).flatten) + 1) =
          (gs.map varintEnc).flatten := by
        rw [hcont, List.drop_left]
      show varintTestGo bit (b :: (tl ++ (gs.map varintEnc).flatten)) index = _
      rw [varintTestGo]
      show (if index + varintVal (b :: tl ++ (gs.map varintEnc).flatten) 0 = bit then true
        else if bit < index + varintVal (b :: tl ++ (gs.map varintEnc).flatten) 0 then false
        else varintTestGo bit ((b :: tl ++ (gs.map varintEnc).flatten).drop
          (vContLen (b :: tl ++ (gs.map varintEnc).flatten) + 1))
          (index + varintVal (b :: tl ++ (gs.map varintEnc).flatten) 0)) = _
      rw [show b :: tl ++ (gs.map varintEnc).flatten =
        (b :: tl) ++ (gs.map varintEnc).flatten from rfl]
      rw [hval, hdrop, ih (index + g)]
      show _ = gapScan bit (g :: gs) index
      unfold gapScan
      show _ = (match (if index + g = bit then Sum.inl true
        else if bit < index + g then Sum.inl false
        else gapRun bit gs (index + g) : Bool ⊕ Nat) with
        | Sum.inl r => r
        | Sum.inr _ => false)
      split_ifs <;> rfl

theorem varintPlusTestGo_gaps (bit : Nat) (gs : List Nat) : ∀ (index : Nat),
    varintPlusTestGo bit ((gs.map varintPlusEnc).flatten) index = gapScan bit gs index := by
  induction gs with
  | nil =>
    intro index
    show varintPlusTestGo bit [] index = _
    rw [varintPlusTestGo]
    rfl
  | cons g gs ih =>
    intro index
    rw [List.map_cons, List.flatten_cons]
    have hfin : ∀ runLen rest', runLen = g → rest' = (gs.map varintPlusEnc).flatten →
        (if index + runLen = bit then true
         else if bit < index + runLen then false
         else varintPlusTestGo bit rest' (index + runLen)) = gapScan bit (g :: gs) index := by
      intro runLen rest' h1 h2
      subst h2
      rw [h1, ih (index + g)]
      unfold gapScan
      show _ = (match (if index + g = bit then Sum.inl true
        else if bit < index + g then Sum.inl false
        else gapRun bit gs (index + g) : Bool ⊕ Nat) with
        | Sum.inl r => r
        | Sum.inr _ => false)
      split_ifs <;> rfl
    by_cases hg : g ≤ 254
    · have henc : varintPlusEnc g = [g] := by rw [varintPlusEnc, if_pos hg]
      rw [henc]
      show varintPlusTestGo bit (g :: (gs.map varintPlusEnc).flatten) index = _
      rw [varintPlusTestGo]
      have hne : g ≠ 255 := by omega
      rw [if_pos hne, if_pos hne]
      exact hfin g _ rfl rfl
    · have henc : varintPlusEnc g = 255 :: varintEnc (g - 254) := by
        rw [varintPlusEnc, if_neg hg]
      rw [henc]
      show varintPlusTestGo bit (255 :: (varintEnc (g - 254) ++
        (gs.map varintPlusEnc).flatten)) index = _
      rw [varintPlusTestGo]
      rw [if_neg (by decide : ¬ (255 : Byte) ≠ 255),
        if_neg (by decide : ¬ (255 : Byte) ≠ 255)]
      have hval : 254 + varintVal (varintEnc (g - 254) ++ (gs.map varintPlusEnc).flatten) 0
          = g := by
        rw [varintVal_enc, Nat.shiftLeft_zero]
        omega
      have hdrop : (varintEnc (g - 254) ++ (gs.map varintPlusEnc).flatten).drop
          (vContLen (varintEnc (g - 254) ++ (gs.map varintPlusEnc).flatten) + 1) =
          (gs.map varintPlusEnc).flatten := by
        rw [vContLen_enc, List.drop_left]
      rw [hval, hdrop]
      exact hfin g _ rfl rfl

/-! ## pForDelta decoding -/

theorem flatten_map_bitsValBE_length (c : List Nat) (w : Nat) :
    ((c.map fun d => bitsValBE w d).flatten).length = c.length * w := by
  induction c with
  | nil => simp
  | cons d rest ih =>
    rw [List.map_cons, List.flatten_cons, List.length_append, bitsValBE_length, ih,
      List.length_cons]
    ring

theorem le_foldl_or (c : List Nat) : ∀ (a : Nat),
    a ≤ c.foldl (· ||| ·) a ∧ ∀ d ∈ c, d ≤ c.foldl (· ||| ·) a := by
  induction c with
  | nil => intro a; exact ⟨le_refl a, by simp⟩
  | cons x c ih =>
    intro a
    obtain ⟨h1, h2⟩ := ih (a ||| x)
    constructor
    · exact le_trans (nat_le_or_left a x) h1
    · intro d hd
      rcases List.mem_cons.1 hd with hd | hd
      · subst hd
        exact le_trans (nat_le_or_right a d) h1
      · exact h2 d hd

theorem pfdReadVals_exact (w bit : Nat) (c : List Nat) : ∀ (more : List Bool) (index : Nat),
    (∀ d ∈ c, d < 2 ^ w) →
    pfdReadVals w bit c.length ((c.map fun d => bitsValBE w d).flatten ++ more) index =
      gapRun bit c index := by
  induction c with
  | nil => intro more index _; rfl
  | cons d c ih =>
    intro more index hd
    rw [List.map_cons, List.flatten_cons, List.append_assoc]
    show pfdReadVals w bit (c.length + 1) _ _ = _
    rw [show c.length + 1 = Nat.succ c.length from rfl]
    rw [pfdReadVals]
    have hlen : (bitsValBE w d ++ ((c.map fun d => bitsValBE w d).flatten ++ more)).length =
        w + ((c.map fun d => bitsValBE w d).flatten ++ more).length := by
      rw [List.length_append, bitsValBE_length]
    rw [if_neg (by rw [hlen]; omega)]
    have htake : (bitsValBE w d ++ ((c.map fun d => bitsValBE w d).flatten ++ more)).take w
        = bitsValBE w d := List.take_left' (bitsValBE_length w d)
    have hdropw : (bitsValBE w d ++ ((c.map fun d => bitsValBE w d).flatten ++ more)).drop w
        = (c.map fun d => bitsValBE w d).flatten ++ more :=
      List.drop_left' (bitsValBE_length w d)
    rw [htake, hdropw]
    rw [valOfBits_bitsValBE, Nat.mod_eq_of_lt (hd d (by simp))]
    dsimp only
    show _ = gapRun bit (d :: c) index
    rw [show gapRun bit (d :: c) index = (if index + d = bit then Sum.inl true
      else if bit < index + d then Sum.inl false
      else gapRun bit c (index + d)) from rfl]
    split_ifs with h1 h2
    · rfl
    · rfl
    · exact ih more (index + d) (fun x hx => hd x (by simp [hx]))

theorem pfdReadVals_zeros (w bit : Nat) : ∀ (cnt pad index : Nat),
    cnt * w ≤ pad → index < bit →
    pfdReadVals w bit cnt (List.replicate pad false) index = Sum.inr index := by
  intro cnt
  induction cnt with
  | zero => intro pad index _ _; rfl
  | succ c ih =>
    intro pad index hcnt hlt
    rw [pfdReadVals]
    rw [if_neg (by
      rw [List.length_replicate]
      have : w ≤ pad := by
        have : 1 * w ≤ (c + 1) * w := Nat.mul_le_mul_right w (by omega)
        omega
      omega)]
    have htake : (List.replicate pad (false : Bool)).take w = List.replicate w false := by
      rw [List.take_replicate]
      congr 1
      have : 1 * w ≤ (c + 1) * w := Nat.mul_le_mul_right w (by omega)
      omega
    rw [htake, valOfBits_replicate_false]
    rw [if_neg (by omega), if_neg (by omega)]
    rw [List.drop_replicate]
    have := ih (pad - w) index (by
      have hc : c * w + w = (c + 1) * w := by ring
      omega) hlt
    rw [Nat.add_zero]
    exact this

theorem pfdReadVals_padded (w bit : Nat) (c : List Nat) : ∀ (extra pad index : Nat),
    (∀ d ∈ c, d < 2 ^ w) → extra * w ≤ pad →
    (∀ i', gapRun bit c index = Sum.inr i' → i' < bit) →
    pfdReadVals w bit (c.length + extra)
      ((c.map fun d => bitsValBE w d).flatten ++ List.replicate pad false) index =
      gapRun bit c index := by
  induction c with
  | nil =>
    intro extra pad index _ hextra hg
    rw [show ([] : List Nat).length + extra = extra by simp]
    show pfdReadVals w bit extra (List.replicate pad false) index = _
    rw [pfdReadVals_zeros w bit extra pad index hextra (hg index rfl)]
    rfl
  | cons d c ih =>
    intro extra pad index hd hextra hg
    rw [List.map_cons, List.flatten_cons, List.append_assoc]
    show pfdReadVals w bit (c.length + 1 + extra) _ _ = _
    rw [show c.length + 1 + extra = Nat.succ (c.length + extra) by omega]
    rw [pfdReadVals]
    have hlen : (bitsValBE w d ++ ((c.map fun d => bitsValBE w d).flatten ++
        List.replicate pad false)).length =
        w + ((c.map fun d => bitsValBE w d).flatten ++ List.replicate pad false).length := by
      rw [List.length_append, bitsValBE_length]
    rw [if_neg (by rw [hlen]; omega)]
    have htake : (bitsValBE w d ++ ((c.map fun d => bitsValBE w d).flatten ++
        List.replicate pad false)).take w = bitsValBE w d :=
      List.take_left' (bitsValBE_length w d)
    have hdropw : (bitsValBE w d ++ ((c.map fun d => bitsValBE w d).flatten ++
        List.replicate pad false)).drop w =
        (c.map fun d => bitsValBE w d).flatten ++ List.replicate pad false :=
      List.drop_left' (bitsValBE_length w d)
    rw [htake, hdropw]
    rw [valOfBits_bitsValBE, Nat.mod_eq_of_lt (hd d (by simp))]
    dsimp only
    have hgr : gapRun bit (d :: c) index = (if index + d = bit then Sum.inl true
      else if bit < index + d then Sum.inl false
      else gapRun bit c (index + d)) := rfl
    rw [hgr]
    split_ifs with h1 h2
    · rfl
    · rfl
    · exact ih extra pad (index + d) (fun x hx => hd x (by simp [hx])) hextra
        (fun i' hi' => hg i' (by rw [hgr, if_neg h1, if_neg h2]; exact hi'))

theorem getD_drop_add (l : List Nat) (i j : Nat) :
    (l.drop i).getD j 0 = l.getD (i + j) 0 := by
  rw [List.getD_eq_getElem?_getD, List.getD_eq_getElem?_getD, List.getElem?_drop]

theorem pfdTestGo_chunks (bit : Nat) : ∀ (s : List Nat) (index : Nat),
    (∀ c ∈ chunks128 s, c.foldl (· ||| ·) 0 ≠ 0) →
    pForDeltaTestGo bit (((chunks128 s).map encodingCohort).flatten) index =
      gapScan bit s index := by
  intro s
  induction s using chunks128.induct with
  | case1 =>
    intro index _
    rw [chunks128_nil]
    show pForDeltaTestGo bit [] index = _
    rw [pForDeltaTestGo]
    rfl
  | case2 s hne hlen =>
    intro index hor
    rw [chunks128_small s hne hlen]
    have hormem : s.foldl (· ||| ·) 0 ≠ 0 := hor s (by
      rw [chunks128_small s hne hlen]; simp)
    set w := leftMostOneBit (s.foldl (· ||| ·) 0) with hw
    have hwpos : 0 < w := lmb_pos _ hormem
    have hd : ∀ d ∈ s, d < 2 ^ w := fun d hd =>
      lt_of_le_of_lt ((le_foldl_or s 0).2 d hd) (lt_two_pow_lmb _)
    have hclpos : 0 < s.length := List.length_pos.2 hne
    set cbits := (s.map fun d => bitsValBE w d).flatten with hcbits
    have hcblen : cbits.length = s.length * w := flatten_map_bitsValBE_length s w
    set body := packBits cbits with hbody
    have hbodylen : body.length = (s.length * w + 7) / 8 := by
      rw [hbody, packBits_length, hcblen]
    show pForDeltaTestGo bit (encodingCohort s ++ []) index = _
    rw [List.append_nil]
    show pForDeltaTestGo bit (w :: body) index = _
    rw [pForDeltaTestGo]
    set cnt := min 128 (body.length * 8 / w) with hcnt
    have hclcnt : s.length ≤ cnt := by
      rw [hcnt]
      refine le_min (by omega) ?_
      rw [Nat.le_div_iff_mul_le hwpos, hbodylen]
      omega
    have hcntw : cnt * w ≤ 8 * body.length := by
      have h1 : cnt ≤ body.length * 8 / w := by rw [hcnt]; exact min_le_right _ _
      have h2 := (Nat.le_div_iff_mul_le hwpos).1 h1
      omega
    set pad := 8 * ((cbits.length + 7) / 8) - cbits.length with hpad
    have hextra : (cnt - s.length) * w ≤ pad := by
      rw [Nat.sub_mul, hpad, hcblen]
      rw [hbodylen] at hcntw
      exact Nat.sub_le_sub_right hcntw _
    have hbits : bitsOfBytes body = cbits ++ List.replicate pad false := by
      rw [hbody, bitsOfBytes_packBits, hpad]
    rw [hbits]
    rw [show cnt = s.length + (cnt - s.length) by omega]
    rw [pfdReadVals_padded w bit s (cnt - s.length) pad index hd hextra
      (fun i' hi' => ((gapRun_inr bit s index i' hi').2) hne)]
    rcases hrun : gapRun bit s index with r | i'
    · show r = gapScan bit s index
      unfold gapScan
      rw [hrun]
    · have hdrop : body.drop (((s.length + (cnt - s.length)) * w + 7) / 8) = [] := by
        apply List.drop_of_length_le
        rw [hbodylen]
        apply Nat.div_le_div_right
        have : s.length * w ≤ (s.length + (cnt - s.length)) * w :=
          Nat.mul_le_mul_right w (by omega)
        omega
      rw [hdrop]
      show pForDeltaTestGo bit [] i' = gapScan bit s index
      rw [pForDeltaTestGo]
      unfold gapScan
      rw [hrun]
  | case3 s hne hlen ih =>
    intro index hor
    rw [chunks128_step s hlen]
    have hc1mem : s.take 128 ∈ chunks128 s := by
      rw [chunks128_step s hlen]; simp
    have hormem : (s.take 128).foldl (· ||| ·) 0 ≠ 0 := hor _ hc1mem
    set c1 := s.take 128 with hc1
    set w := leftMostOneBit (c1.foldl (· ||| ·) 0) with hw
    have hwpos : 0 < w := lmb_pos _ hormem
    have hd : ∀ d ∈ c1, d < 2 ^ w := fun d hd =>
      lt_of_le_of_lt ((le_foldl_or c1 0).2 d hd) (lt_two_pow_lmb _)
    have hc1len : c1.length = 128 := by
      rw [hc1, List.length_take]
      omega
    set cbits := (c1.map fun d => bitsValBE w d).flatten with hcbits
    have hcblen : cbits.length = 128 * w := by
      rw [hcbits, flatten_map_bitsValBE_length, hc1len]
    set body := packBits cbits with hbody
    have hbodylen : body.length = 16 * w := by
      rw [hbody, packBits_length, hcblen]
      omega
    set restEnc := ((chunks128 (s.drop 128)).map encodingCohort).flatten with hrest
    rw [List.map_cons, List.flatten_cons]
    show pForDeltaTestGo bit (w :: (body ++ restEnc)) index = _
    rw [pForDeltaTestGo]
    have hcnt : min 128 ((body ++ restEnc).length * 8 / w) = 128 := by
      rw [List.length_append, hbodylen]
      have heq : (16 * w + restEnc.length) * 8 = w * 128 + 8 * restEnc.length := by ring
      rw [heq, Nat.mul_add_div hwpos]
      exact Nat.min_eq_left (Nat.le_add_right _ _)
    rw [hcnt]
    have hbits : bitsOfBytes (body ++ restEnc) = cbits ++ bitsOfBytes restEnc := by
      rw [bitsOfBytes_append, hbody, bitsOfBytes_packBits, hcblen]
      rw [show 8 * ((128 * w + 7) / 8) - 128 * w = 0 by omega]
      simp
    rw [hbits]
    rw [show (128 : Nat) = c1.length from hc1len.symm]
    rw [pfdReadVals_exact w bit c1 (bitsOfBytes restEnc) index hd]
    have hsplit : s = c1 ++ s.drop 128 := (List.take_append_drop 128 s).symm
    have hrestor : ∀ c ∈ chunks128 (s.drop 128), c.foldl (· ||| ·) 0 ≠ 0 := by
      intro c hc
      exact hor c (by rw [chunks128_step s hlen]; simp [hc])
    rcases hrun : gapRun bit c1 index with r | i'
    · show r = gapScan bit s index
      conv_rhs => rw [hsplit]
      rw [gapScan_append, hrun]
    · have hdrop : (body ++ restEnc).drop ((c1.length * w + 7) / 8) = restEnc := by
        rw [hc1len, show (128 * w + 7) / 8 = 16 * w by omega, ← hbodylen, List.drop_left]
      rw [hdrop]
      show pForDeltaTestGo bit restEnc i' = gapScan bit s index
      rw [ih i' hrestor]
      conv_rhs => rw [hsplit]
      rw [gapScan_append, hrun]

theorem getD_take_lt (l : List Nat) (n j : Nat) (h : j < n) :
    (l.take n).getD j 0 = l.getD j 0 := by
  rw [List.getD_eq_getElem?_getD, List.getD_eq_getElem?_getD, List.getElem?_take,
    if_pos h]

theorem getD_mem (l : List Nat) (j : Nat) (h : j < l.length) : l.getD j 0 ∈ l := by
  rw [getD_eq_getElem_of_lt _ _ h]
  exact List.getElem_mem h

theorem gapsList_getD_all_pos (xs : List Nat) : ∀ (l0 : Nat),
    xs.Sorted (· < ·) → (∀ x ∈ xs, x < 18446744073709551616) →
    (∀ y ∈ xs, l0 < y) →
    ∀ j, j < xs.length → (gapsList l0 xs).getD j 0 ≠ 0 := by
  induction xs with
  | nil => intro l0 _ _ _ j hj; simp at hj
  | cons x xs ih =>
    intro l0 hsorted hbound hl0 j hj
    obtain ⟨hhead, htail⟩ := List.sorted_cons.1 hsorted
    show (dist64 x l0 :: gapsList x xs).getD j 0 ≠ 0
    cases j with
    | zero =>
      rw [List.getD_cons_zero, dist64_eq x l0 (le_of_lt (hl0 x (by simp)))
        (hbound x (by simp))]
      have := hl0 x (by simp)
      omega
    | succ j =>
      rw [List.getD_cons_succ]
      exact ih x htail (fun y hy => hbound y (by simp [hy])) hhead j (by simpa using hj)

theorem chunks128_or_pos : ∀ (s : List Nat),
    (∀ j, 0 < j → j < s.length → s.getD j 0 ≠ 0) →
    (s ≠ [] → s.getD 0 0 = 0 → 1 < s.length) →
    ∀ c ∈ chunks128 s, c.foldl (· ||| ·) 0 ≠ 0 := by
  intro s
  induction s using chunks128.induct with
  | case1 =>
    intro _ _ c hc
    rw [chunks128_nil] at hc
    simp at hc
  | case2 s hne hlen =>
    intro hnz hfirst c hc
    rw [chunks128_small s hne hlen] at hc
    rcases List.mem_cons.1 hc with hc | hc
    · subst hc
      have hspos : 0 < c.length := List.length_pos.2 hne
      have hd : ∃ d ∈ c, d ≠ 0 := by
        by_cases h0 : c.getD 0 0 = 0
        · have h2 := hfirst hne h0
          exact ⟨c.getD 1 0, getD_mem c 1 (by omega), hnz 1 (by omega) (by omega)⟩
        · exact ⟨c.getD 0 0, getD_mem c 0 hspos, h0⟩
      obtain ⟨d, hdm, hdne⟩ := hd
      have := (le_foldl_or c 0).2 d hdm
      omega
    · simp at hc
  | case3 s hne hlen ih =>
    intro hnz hfirst c hc
    rw [chunks128_step s hlen] at hc
    rcases List.mem_cons.1 hc with hc | hc
    · subst hc
      have hd1 : (s.take 128).getD 1 0 ≠ 0 := by
        rw [getD_take_lt s 128 1 (by omega)]
        exact hnz 1 (by omega) (by omega)
      have hmem : (s.take 128).getD 1 0 ∈ s.take 128 :=
        getD_mem _ 1 (by rw [List.length_take]; omega)
      have := (le_foldl_or (s.take 128) 0).2 _ hmem
      omega
    · refine ih ?_ ?_ c hc
      · intro j hj hjlen
        rw [getD_drop_add]
        exact hnz (128 + j) (by omega) (by rw [List.length_drop] at hjlen; omega)
      · intro hrne h0
        rw [getD_drop_add] at h0
        have hrlen : 0 < (s.drop 128).length := List.length_pos.2 hrne
        rw [List.length_drop] at hrlen
        exact absurd h0 (hnz 128 (by omega) (by omega))

/-! ## Per-format exactness -/

theorem bmFold_testBit_none (ps : List Nat) : ∀ (sp : List Byte) (j r : Nat),
    (∀ b ∈ ps, ¬ (b / 8 = j ∧ b % 8 = r)) →
    ((ps.foldl (fun sp b => orByte sp (b / 8) (1 <<< (b % 8))) sp).getD j 0).testBit r =
      (sp.getD j 0).testBit r := by
  induction ps with
  | nil => intro sp j r _; rfl
  | cons p ps ih =>
    intro sp j r h
    rw [List.foldl_cons, ih _ j r (fun b hb => h b (by simp [hb]))]
    by_cases hpj : p / 8 = j
    · by_cases hin : p / 8 < sp.length
      · rw [← hpj, orByte_getD_self sp _ _ hin, Nat.testBit_or, one_shiftLeft_eq_pow,
          Nat.testBit_two_pow]
        have hne : p % 8 ≠ r := fun hc => h p (by simp) ⟨hpj, hc⟩
        simp [hne]
      · rw [← hpj, orByte_getD_oob sp _ _ hin]
    · rw [orByte_getD_ne sp _ _ j (Ne.symm hpj)]

theorem sortedL_sorted_lt (l : List Nat) (hnd : l.Nodup) :
    (l.insertionSort (· ≤ ·)).Sorted (· < ·) :=
  sorted_lt_of_nodup_sorted _ ((List.perm_insertionSort _ l).nodup_iff.2 hnd)
    (List.sorted_insertionSort _ l)

theorem sortedL_mem (l : List Nat) (x : Nat) :
    x ∈ l.insertionSort (· ≤ ·) ↔ x ∈ l :=
  List.mem_insertionSort _

theorem decide_mem_sortedL (l : List Nat) (bit : Nat) :
    decide (bit ∈ l.insertionSort (· ≤ ·)) = decide (bit ∈ l) := by
  by_cases h : bit ∈ l
  · simp [h, (sortedL_mem l bit).2 h]
  · simp [h, fun hc => h ((sortedL_mem l bit).1 hc)]

theorem uncompressedTest_exact (kb nk : Nat) (l : List Nat) (bit : Nat) (hkb : 8 ≤ kb)
    (hbound : ∀ i ∈ l, i < 2 ^ kb) (hbit : bit < 2 ^ kb) :
    uncompressedTest bit kb (bitmapRun .kUncompressedBitmap kb nk l) = decide (bit ∈ l) := by
  have hlen : (bitmapRun .kUncompressedBitmap kb nk l).length = (2 ^ kb + 7) / 8 := by
    show (l.foldl (fun sp i => orByte sp (i / 8) (1 <<< (i % 8)))
      (List.replicate ((2 ^ kb + 7) / 8) 0)).length = _
    rw [probeFold_length, List.length_replicate]
  have h8 : (8 : Nat) ≤ 2 ^ kb := by
    calc (8 : Nat) = 2 ^ 3 := by norm_num
      _ ≤ 2 ^ kb := Nat.pow_le_pow_right (by omega) (by omega)
  unfold uncompressedTest
  rw [if_pos (by rw [hlen]; omega)]
  show decide ((bitmapRun .kUncompressedBitmap kb nk l).getD (bit / 8) 0 &&&
    (1 <<< (bit % 8)) ≠ 0) = _
  rw [show (1 : Nat) <<< (bit % 8) = 2 ^ (bit % 8) from one_shiftLeft_eq_pow _]
  by_cases hmem : bit ∈ l
  · have hset : ((bitmapRun .kUncompressedBitmap kb nk l).getD (bit / 8) 0).testBit
        (bit % 8) = true := by
      show ((l.foldl (fun sp i => orByte sp (i / 8) (1 <<< (i % 8)))
        (List.replicate ((2 ^ kb + 7) / 8) 0)).getD (bit / 8) 0).testBit (bit % 8) = true
      apply probeFold_sets l _ bit hmem
      rw [List.length_replicate]
      have h1 : bit / 8 ≤ 2 ^ kb / 8 := Nat.div_le_div_right (le_of_lt hbit)
      omega
    have h1 : (bitmapRun .kUncompressedBitmap kb nk l).getD (bit / 8) 0 &&&
        2 ^ (bit % 8) ≠ 0 := (and_pow_ne_zero_iff _ _).2 hset
    rw [List.getD_eq_getElem?_getD] at h1
    simp [h1, hmem]
  · have hnone : ((bitmapRun .kUncompressedBitmap kb nk l).getD (bit / 8) 0).testBit
        (bit % 8) = false := by
      show ((l.foldl (fun sp i => orByte sp (i / 8) (1 <<< (i % 8)))
        (List.replicate ((2 ^ kb + 7) / 8) 0)).getD (bit / 8) 0).testBit (bit % 8) = false
      rw [bmFold_testBit_none l _ _ _ (by
        intro b hb hc
        apply hmem
        have hd1 := Nat.div_add_mod b 8
        have hd2 := Nat.div_add_mod bit 8
        have : b = bit := by omega
        rwa [← this])]
      rw [replicate_getD_zero]
      exact Nat.zero_testBit _
    have h2 : ¬ ((bitmapRun .kUncompressedBitmap kb nk l).getD (bit / 8) 0 &&&
        2 ^ (bit % 8) ≠ 0) := by
      intro hc
      rw [(and_pow_ne_zero_iff _ _).1 hc] at hnone
      exact absurd hnone (by simp)
    rw [List.getD_eq_getElem?_getD] at h2
    simp [h2, hmem]

theorem varintTest_exact (kb nk : Nat) (l : List Nat) (bit : Nat) (hkb : 8 ≤ kb)
    (hkb31 : kb ≤ 31) (hnd : l.Nodup) (hbound : ∀ i ∈ l, i < 2 ^ kb)
    (hcap : ∀ b, (bucketElems b l).length ≤ 255) :
    varintTest bit kb (bitmapRun .kVarintBitmap kb nk l) = decide (bit ∈ l) := by
  show varintTestGo bit (varintFinish (l.foldl cfmtSet (cfmtReset kb nk))) 0 = _
  rw [varintFinish_spec kb nk l hkb hbound hcap]
  rw [varintTestGo_gaps]
  rw [gapScan_gapsList bit _ 0 (sortedL_sorted_lt l hnd)
    (fun x hx => by
      have h1 := hbound x ((sortedL_mem l x).1 hx)
      have h2 : (2:Nat) ^ kb ≤ 2 ^ 31 := Nat.pow_le_pow_right (by omega) hkb31
      have h3 : (2:Nat) ^ 31 < 18446744073709551616 := by norm_num
      omega)
    (fun x _ => Nat.zero_le x)]
  exact decide_mem_sortedL l bit

theorem varintPlusTest_exact (kb nk : Nat) (l : List Nat) (bit : Nat) (hkb : 8 ≤ kb)
    (hkb31 : kb ≤ 31) (hnd : l.Nodup) (hbound : ∀ i ∈ l, i < 2 ^ kb)
    (hcap : ∀ b, (bucketElems b l).length ≤ 255) :
    varintPlusTest bit kb (bitmapRun .kVarintPlusBitmap kb nk l) = decide (bit ∈ l) := by
  show varintPlusTestGo bit (varintPlusFinish (l.foldl cfmtSet (cfmtReset kb nk))) 0 = _
  rw [varintPlusFinish_spec kb nk l hkb hbound hcap]
  rw [varintPlusTestGo_gaps]
  rw [gapScan_gapsList bit _ 0 (sortedL_sorted_lt l hnd)
    (fun x hx => by
      have h1 := hbound x ((sortedL_mem l x).1 hx)
      have h2 : (2:Nat) ^ kb ≤ 2 ^ 31 := Nat.pow_le_pow_right (by omega) hkb31
      have h3 : (2:Nat) ^ 31 < 18446744073709551616 := by norm_num
      omega)
    (fun x _ => Nat.zero_le x)]
  exact decide_mem_sortedL l bit

theorem pForDeltaTest_exact (kb nk : Nat) (l : List Nat) (bit : Nat) (hkb : 8 ≤ kb)
    (hkb31 : kb ≤ 31) (hnd : l.Nodup) (hbound : ∀ i ∈ l, i < 2 ^ kb)
    (hcap : ∀ b, (bucketElems b l).length ≤ 255) (hne0 : l ≠ [0]) :
    pForDeltaTest bit kb (bitmapRun .kPForDeltaBitmap kb nk l) = decide (bit ∈ l) := by
  have hbound64 : ∀ x ∈ l.insertionSort (· ≤ ·), x < 18446744073709551616 := by
    intro x hx
    have h1 := hbound x ((sortedL_mem l x).1 hx)
    have h2 : (2:Nat) ^ kb ≤ 2 ^ 31 := Nat.pow_le_pow_right (by omega) hkb31
    have h3 : (2:Nat) ^ 31 < 18446744073709551616 := by norm_num
    omega
  have hsne0 : l.insertionSort (· ≤ ·) ≠ [0] := by
    intro hc
    apply hne0
    have hperm : l.Perm [0] := (List.perm_insertionSort _ l).symm.trans (by rw [hc])
    exact List.perm_singleton.1 hperm
  have hsorted := sortedL_sorted_lt l hnd
  show pForDeltaTestGo bit (pForDeltaFinish (l.foldl cfmtSet (cfmtReset kb nk))) 0 = _
  rw [pForDeltaFinish_spec kb nk l hkb hbound hcap]
  rw [pfdTestGo_chunks bit _ 0 ?hor]
  case hor =>
    apply chunks128_or_pos
    · intro j hj hjlen
      rcases hsl : l.insertionSort (· ≤ ·) with _ | ⟨x, tail⟩
      · rw [hsl] at hjlen
        simp [gapsList] at hjlen
      · rw [hsl] at hjlen
        show (dist64 x 0 :: gapsList x tail).getD j 0 ≠ 0
        cases j with
        | zero => omega
        | succ j =>
          rw [List.getD_cons_succ]
          rw [hsl] at hsorted hbound64
          obtain ⟨hhead, htail⟩ := List.sorted_cons.1 hsorted
          apply gapsList_getD_all_pos tail x htail
            (fun y hy => hbound64 y (by simp [hy])) hhead
          rw [gapsList_length, List.length_cons] at hjlen
          simpa using hjlen
    · intro hne h0
      rcases hsl : l.insertionSort (· ≤ ·) with _ | ⟨x, tail⟩
      · rw [hsl] at hne
        exact absurd rfl hne
      · rw [hsl] at h0 hbound64
        have hx0 : x = 0 := by
          have hd0 : dist64 x 0 = x := by
            rw [dist64_eq x 0 (by omega) (hbound64 x (by simp))]
            omega
          show _
          rw [show (gapsList 0 (x :: tail)).getD 0 0 = dist64 x 0 from rfl, hd0] at h0
          exact h0
        have htne : tail ≠ [] := by
          intro hc
          apply hsne0
          rw [hsl, hc, hx0]
        rw [gapsList_length, List.length_cons]
        have := List.length_pos.2 htne
        omega
  rw [gapScan_gapsList bit _ 0 hsorted hbound64 (fun x _ => Nat.zero_le x)]
  exact decide_mem_sortedL l bit

/-! ## Roaring decoding -/

theorem flatten_uniform_length (L : List (List Bool)) (w : Nat)
    (hw : ∀ c ∈ L, c.length = w) : L.flatten.length = L.length * w := by
  induction L with
  | nil => simp
  | cons c rest ih =>
    rw [List.flatten_cons, List.length_append, hw c (by simp),
      ih (fun x hx => hw x (by simp [hx])), List.length_cons]
    ring

theorem flatten_chunk_extract (L : List (List Bool)) (extra : List Bool) (w : Nat)
    (hw : ∀ c ∈ L, c.length = w) (t : Nat) (ht : t < L.length) :
    ((L.flatten ++ extra).drop (t * w)).take w = L.getD t [] := by
  have hlen : L.flatten.length = L.length * w := flatten_uniform_length L w hw
  have htw : (t + 1) * w ≤ L.length * w := Nat.mul_le_mul_right w (by omega)
  rw [List.drop_append_of_le_length (by
    rw [hlen]
    exact le_trans (Nat.mul_le_mul_right w (Nat.le_succ t)) htw)]
  rw [List.take_append_of_le_length (by
    rw [List.length_drop, hlen]
    have : (t + 1) * w = t * w + w := by ring
    omega)]
  exact flatten_uniform_take L w hw t ht

theorem getD_map_range (f : Nat → List Byte) (n k : Nat) (hk : k < n) :
    ((List.range n).map f).getD k [] = f k := by
  have h1 : k < ((List.range n).map f).length := by simp [hk]
  rw [List.getD_eq_getElem?_getD, List.getElem?_eq_getElem h1]
  simp

theorem getD_map_range_bits (f : Nat → List Bool) (n k : Nat) (hk : k < n) :
    ((List.range n).map f).getD k [] = f k := by
  have h1 : k < ((List.range n).map f).length := by simp [hk]
  rw [List.getD_eq_getElem?_getD, List.getElem?_eq_getElem h1]
  simp

theorem sumVals_counts (w : Nat) (stream : List Bool) (cnt : Nat → Nat) (bn : Nat)
    (hchunk : ∀ t, t < bn → (stream.drop (t * w)).take w = bitsValBE w (cnt t))
    (hlt : ∀ t, t < bn → cnt t < 2 ^ w) :
    ∀ n, n ≤ bn → sumVals w stream n = ((List.range n).map cnt).sum := by
  intro n
  induction n with
  | zero => intro _; rfl
  | succ n ih =>
    intro hn
    show sumVals w stream n + valOfBits ((stream.drop (n * w)).take w) = _
    rw [ih (by omega), hchunk n (by omega), valOfBits_bitsValBE,
      Nat.mod_eq_of_lt (hlt n (by omega)), List.range_succ, List.map_append,
      List.sum_append]
    simp

theorem flatten_getD_seg (L : List (List Byte)) (k : Nat) (hk : k < L.length) (t : Nat)
    (ht : t < (L.getD k []).length) :
    L.flatten.getD ((((L.take k).map List.length).sum) + t) 0 = (L.getD k []).getD t 0 := by
  rw [← getD_drop_add, flatten_drop_sum]
  have hdk : L.drop k = L.getD k [] :: L.drop (k + 1) := by
    rw [List.drop_eq_getElem_cons hk]
    congr 1
    exact (List.getD_eq_getElem L [] hk).symm
  rw [hdk, List.flatten_cons, getDN_append_left _ _ t ht]

theorem roaringScan_seg (target : Nat) (input : List Byte) (seg : List Byte) :
    ∀ (start : Nat), (∀ t, t < seg.length → input.getD (start + t) 0 = seg.getD t 0) →
    seg.Sorted (· ≤ ·) →
    roaringScan target input start seg.length = decide (target ∈ seg) := by
  induction seg with
  | nil => intro start _ _; rfl
  | cons s0 seg ih =>
    intro start hread hsorted
    obtain ⟨hhead, htail⟩ := List.sorted_cons.1 hsorted
    have h0 : input.getD start 0 = s0 := by
      have := hread 0 (by simp)
      simpa using this
    show (if input.getD start 0 = target then true
      else if target < input.getD start 0 then false
      else roaringScan target input (start + 1) seg.length) = _
    rw [h0]
    by_cases h1 : s0 = target
    · rw [if_pos h1]
      subst h1
      simp
    · rw [if_neg h1]
      by_cases h2 : target < s0
      · rw [if_pos h2]
        have hnot : target ∉ s0 :: seg := by
          intro hc
          rcases List.mem_cons.1 hc with hc | hc
          · exact h1 hc.symm
          · have hle : s0 ≤ target := hhead target hc
            exact Nat.lt_irrefl _ (Nat.lt_of_lt_of_le h2 hle)
        simp [hnot]
      · rw [if_neg h2]
        rw [ih (start + 1) (fun t htl => by
          have := hread (1 + t) (by rw [List.length_cons]; omega)
          rw [show start + (1 + t) = start + 1 + t by omega] at this
          rw [this, show 1 + t = t + 1 by omega, List.getD_cons_succ]) htail]
        have hmemiff : (target ∈ s0 :: seg) ↔ (target ∈ seg) := by
          rw [List.mem_cons]
          constructor
          · rintro (hc | hc)
            · exact absurd hc.symm h1
            · exact hc
          · intro hc; right; exact hc
        exact decide_eq_decide.2 hmemiff.symm

theorem mem_lowbytes (l : List Nat) (bit : Nat) :
    (bit % 256 ∈ ((bucketElems (bit / 256) l).insertionSort (· ≤ ·)).map (· % 256)) ↔
      bit ∈ l := by
  constructor
  · intro h
    rcases List.mem_map.1 h with ⟨y, hy, hymod⟩
    have hyel := (sortedL_mem _ y).1 hy
    obtain ⟨hyl, hydiv⟩ := bucketElems_mem _ y l hyel
    have hd1 := Nat.div_add_mod y 256
    have hd2 := Nat.div_add_mod bit 256
    have : y = bit := by omega
    rwa [← this]
  · intro h
    apply List.mem_map.2
    refine ⟨bit, ?_, rfl⟩
    apply (sortedL_mem _ bit).2
    simp [bucketElems, h]

theorem seg_sorted (l : List Nat) (b : Nat) :
    (((bucketElems b l).insertionSort (· ≤ ·)).map (· % 256)).Sorted (· ≤ ·) := by
  rw [← insertionSort_map_mod _ b (fun i hi => (bucketElems_mem b i l hi).2)]
  exact List.sorted_insertionSort _ _

theorem roaringTest_unfold (bit keyBits : Nat) (input : List Byte) :
    roaringTest bit keyBits input =
      roaringScan (bit % 256) input
        (1 + ((1 <<< (keyBits - 8)) * input.getD 0 0 + 7) / 8 +
          sumVals (input.getD 0 0) (bitsOfBytes (input.drop 1)) (bit >>> 8))
        (valOfBits (((bitsOfBytes (input.drop 1)).drop
          ((bit >>> 8) * input.getD 0 0)).take (input.getD 0 0))) := rfl

theorem roaringTest_exact (kb nk : Nat) (l : List Nat) (bit : Nat) (hkb : 8 ≤ kb)
    (hbound : ∀ i ∈ l, i < 2 ^ kb)
    (hcap : ∀ b, (bucketElems b l).length ≤ 255) (hbit : bit < 2 ^ kb) :
    roaringTest bit kb (bitmapRun .kRoaringBitmap kb nk l) = decide (bit ∈ l) := by
  set stR := l.foldl roaringSet (roaringReset kb nk) with hstR
  obtain ⟨hmcnt, hm255⟩ := roaringFold_maxBit kb nk l hkb hbound hcap
  rw [← hstR] at hmcnt hm255
  set w := leftMostOneBit stR.maxBit with hw
  set bn := 2 ^ (kb - 8) with hbn
  have hcntlt : ∀ b, (bucketElems b l).length < 2 ^ w := fun b =>
    lt_of_le_of_lt (hmcnt b) (lt_two_pow_lmb _)
  have hblob : bitmapRun .kRoaringBitmap kb nk l =
      w :: (packBits (((List.range bn).map fun b =>
        bitsValBE w (bucketElems b l).length).flatten) ++
      ((List.range bn).map fun b =>
        ((bucketElems b l).insertionSort (· ≤ ·)).map (· % 256)).flatten) := by
    show roaringFinish stR = _
    rw [hstR, roaringFinish_spec kb nk l hkb hbound hcap]
  set lenbits := ((List.range bn).map fun b =>
    bitsValBE w (bucketElems b l).length).flatten with hlb
  set bodies := ((List.range bn).map fun b =>
    ((bucketElems b l).insertionSort (· ≤ ·)).map (· % 256)).flatten with hbod
  have hlblen : lenbits.length = bn * w := by
    rw [hlb, flatten_map_bits_length, List.length_range]
  have hpblen : (packBits lenbits).length = (bn * w + 7) / 8 := by
    rw [packBits_length, hlblen]
  have hbIdx : bit >>> 8 = bit / 256 := by
    rw [Nat.shiftRight_eq_div_pow]
  have hbIdxlt : bit / 256 < bn := div256_lt bit kb hkb hbit
  rw [hblob, roaringTest_unfold]
  have hg0 : (w :: (packBits lenbits ++ bodies)).getD 0 0 = w := rfl
  have hd1 : (w :: (packBits lenbits ++ bodies)).drop 1 = packBits lenbits ++ bodies := rfl
  rw [hg0, hd1]
  have hstream : bitsOfBytes (packBits lenbits ++ bodies) =
      lenbits ++ (List.replicate (8 * ((lenbits.length + 7) / 8) - lenbits.length) false ++
        bitsOfBytes bodies) := by
    rw [bitsOfBytes_append, bitsOfBytes_packBits, List.append_assoc]
  rw [hstream]
  have hchunk : ∀ t, t < bn →
      (((lenbits ++ (List.replicate (8 * ((lenbits.length + 7) / 8) - lenbits.length) false
        ++ bitsOfBytes bodies)).drop (t * w)).take w) =
      bitsValBE w (bucketElems t l).length := by
    intro t ht
    rw [hlb]
    rw [flatten_chunk_extract _ _ w (by
      intro c hc
      rcases List.mem_map.1 hc with ⟨b, _, rfl⟩
      exact bitsValBE_length w _) t (by rw [List.length_map, List.length_range]; exact ht)]
    exact getD_map_range_bits _ bn t ht
  have hsum : sumVals w (lenbits ++
      (List.replicate (8 * ((lenbits.length + 7) / 8) - lenbits.length) false ++
        bitsOfBytes bodies)) (bit >>> 8) =
      ((List.range (bit / 256)).map fun b => (bucketElems b l).length).sum := by
    rw [hbIdx]
    exact sumVals_counts w _ _ bn hchunk (fun t _ => hcntlt t) (bit / 256)
      (le_of_lt hbIdxlt)
  have hbsize : valOfBits (((lenbits ++
      (List.replicate (8 * ((lenbits.length + 7) / 8) - lenbits.length) false ++
        bitsOfBytes bodies)).drop ((bit >>> 8) * w)).take w) =
      (bucketElems (bit / 256) l).length := by
    rw [hbIdx, hchunk (bit / 256) hbIdxlt, valOfBits_bitsValBE,
      Nat.mod_eq_of_lt (hcntlt _)]
  rw [hsum, hbsize]
  set seg := ((bucketElems (bit / 256) l).insertionSort (· ≤ ·)).map (· % 256) with hseg
  have hseglen : seg.length = (bucketElems (bit / 256) l).length := by
    rw [hseg, List.length_map, List.length_insertionSort]
  have hoffread : ∀ t, t < seg.length →
      (w :: (packBits lenbits ++ bodies)).getD
        (1 + ((1 <<< (kb - 8)) * w + 7) / 8 +
          ((List.range (bit / 256)).map fun b => (bucketElems b l).length).sum + t) 0 =
      seg.getD t 0 := by
    intro t ht
    rw [one_shiftLeft_eq_pow, ← hbn]
    have hsumtake : ((((List.range bn).map fun b =>
        ((bucketElems b l).insertionSort (· ≤ ·)).map (· % 256)).take (bit / 256)).map
          List.length).sum =
        ((List.range (bit / 256)).map fun b => (bucketElems b l).length).sum := by
      rw [← List.map_take, List.take_range,
        show min (bit / 256) bn = bit / 256 by omega, List.map_map]
      congr 1
      apply List.map_congr_left
      intro b _
      show (((bucketElems b l).insertionSort (· ≤ ·)).map (· % 256)).length = _
      rw [List.length_map, List.length_insertionSort]
    have hidx : 1 + (bn * w + 7) / 8 +
        ((List.range (bit / 256)).map fun b => (bucketElems b l).length).sum + t =
        ((packBits lenbits).length +
          (((((List.range bn).map fun b =>
            ((bucketElems b l).insertionSort (· ≤ ·)).map (· % 256)).take
              (bit / 256)).map List.length).sum + t)) + 1 := by
      rw [hpblen, hsumtake]
      omega
    rw [hidx]
    rw [List.getD_cons_succ]
    rw [getDN_append_right]
    rw [hbod, flatten_getD_seg _ (bit / 256)
      (by rw [List.length_map, List.length_range]; exact hbIdxlt) t (by
        rw [getD_map_range]
        · rw [← hseg]
          exact ht
        · exact hbIdxlt)]
    rw [getD_map_range _ _ _ hbIdxlt]
  rw [← hseglen]
  rw [roaringScan_seg (bit % 256) _ seg _ hoffread (by rw [hseg]; exact seg_sorted l _)]
  have hsegmem : (bit % 256 ∈ seg) ↔ bit ∈ l := by
    rw [hseg]
    exact mem_lowbytes l bit
  exact decide_eq_decide.2 hsegmem

/-! ## Partitioned-Roaring decode (`PRoaringFormat::Test`) -/

theorem and_ff00_shift (bit : Nat) : (bit &&& 65280) >>> 8 = bit / 256 % 256 := by
  apply Nat.eq_of_testBit_eq
  intro i
  rw [Nat.testBit_shiftRight, Nat.testBit_and]
  rw [show (65280 : Nat) = 255 * 2 ^ 8 by norm_num]
  rw [testBit_mul_pow, if_pos (by omega : 8 ≤ 8 + i), show 8 + i - 8 = i by omega]
  rw [show (256 : Nat) = 2 ^ 8 by norm_num]
  rw [Nat.testBit_mod_two_pow]
  rw [← Nat.shiftRight_eq_div_pow, Nat.testBit_shiftRight]
  rw [show (255 : Nat) = 2 ^ 8 - 1 by norm_num, Nat.testBit_two_pow_sub_one]
  exact Bool.and_comm _ _

theorem lmb_le_8 (n : Nat) (h : n ≤ 255) : leftMostOneBit n ≤ 8 := by
  by_cases h0 : n = 0
  · simp [leftMostOneBit, h0]
  · have h2 : Nat.log2 n < 8 := (Nat.log2_lt h0).2 (by omega)
    simp only [leftMostOneBit, if_neg h0]
    omega

theorem pair_flatten_getD (f g : Nat → Nat) (n : Nat) : ∀ (i : Nat), i < n →
    (((List.range n).map fun p => [f p, g p]).flatten).getD (2 * i) 0 = f i ∧
    (((List.range n).map fun p => [f p, g p]).flatten).getD (2 * i + 1) 0 = g i := by
  induction n with
  | zero => intro i hi; omega
  | succ n ih =>
    intro i hi
    have hlen : (((List.range n).map fun p => [f p, g p]).flatten).length = 2 * n := by
      rw [flatten_map_pair_length, List.length_range]
    rw [List.range_succ, List.map_append, List.flatten_append]
    by_cases h : i < n
    · exact ⟨by rw [getDN_append_left _ _ _ (by omega)]; exact (ih i h).1,
        by rw [getDN_append_left _ _ _ (by omega)]; exact (ih i h).2⟩
    · have hieq : i = n := by omega
      rw [hieq]
      refine ⟨?_, ?_⟩
      · have h2 := getDN_append_right (((List.range n).map fun p => [f p, g p]).flatten)
          ((([n]).map fun p => [f p, g p]).flatten) 0
        rw [hlen] at h2
        simpa using h2
      · have h2 := getDN_append_right (((List.range n).map fun p => [f p, g p]).flatten)
          ((([n]).map fun p => [f p, g p]).flatten) 1
        rw [hlen] at h2
        simpa using h2

theorem partOffset_succ (input : List Byte) (p : Nat) :
    partOffset input (p + 1) = partOffset input p +
      (asSigned (input.getD (2 * p) 0) + asSigned (input.getD (2 * p + 1) 0) * 256) := by
  show List.foldl _ 0 (List.range (p + 1)) = _
  rw [List.range_succ, List.foldl_append]
  rfl

theorem partOffset_blob (sfun : Nat → Nat) (pn : Nat) (rest : List Byte)
    (hs : ∀ p, p < pn → sfun p % 256 < 128 ∧ sfun p < 32768) :
    ∀ p, p ≤ pn →
    partOffset ((((List.range pn).map fun q =>
        [sfun q % 256, sfun q / 256 % 256]).flatten) ++ rest) p =
      (((List.range p).map sfun).sum : Int) := by
  intro p
  induction p with
  | zero => intro _; rfl
  | succ p ih =>
    intro hp
    have hplt : p < pn := by omega
    have h1 := (hs p hplt).1
    have h2 := (hs p hplt).2
    have hlen : ((((List.range pn).map fun q =>
        [sfun q % 256, sfun q / 256 % 256]).flatten)).length = 2 * pn := by
      rw [flatten_map_pair_length, List.length_range]
    have hg1 : (((((List.range pn).map fun q =>
        [sfun q % 256, sfun q / 256 % 256]).flatten)) ++ rest).getD (2 * p) 0 =
        sfun p % 256 := by
      rw [getDN_append_left _ _ _ (by omega)]
      exact (pair_flatten_getD (fun q => sfun q % 256)
        (fun q => sfun q / 256 % 256) pn p hplt).1
    have hg2 : (((((List.range pn).map fun q =>
        [sfun q % 256, sfun q / 256 % 256]).flatten)) ++ rest).getD (2 * p + 1) 0 =
        sfun p / 256 % 256 := by
      rw [getDN_append_left _ _ _ (by omega)]
      exact (pair_flatten_getD (fun q => sfun q % 256)
        (fun q => sfun q / 256 % 256) pn p hplt).2
    rw [partOffset_succ, ih (by omega), hg1, hg2]
    rw [List.range_succ, List.map_append, List.sum_append]
    simp only [List.map_cons, List.map_nil, List.sum_cons, List.sum_nil]
    simp only [asSigned]
    rw [if_pos h1, if_pos (by omega : sfun p / 256 % 256 < 128)]
    push_cast
    omega

theorem pRoaringTest_exact (kb nk : Nat) (l : List Nat) (bit : Nat) (hkb : 16 ≤ kb)
    (hkb31 : kb ≤ 31)
    (hbound : ∀ i ∈ l, i < 2 ^ kb)
    (hcap : ∀ b, (bucketElems b l).length ≤ 255)
    (hps : ∀ p, (l.filter (fun i => i / 65536 = p)).length % 256 < 128 ∧
      (l.filter (fun i => i / 65536 = p)).length < 32768)
    (hbit : bit < 2 ^ kb) :
    pRoaringTest bit kb (bitmapRun .kPRoaringBitmap kb nk l) = decide (bit ∈ l) := by
  have hkb8 : 8 ≤ kb := by omega
  have hpart : ∀ p, (l.filter (fun i => i / 65536 = p)).length ≤ 65535 := by
    intro p; have := (hps p).2; omega
  set stR := l.foldl pRoaringSet (pRoaringReset kb nk) with hstR
  obtain ⟨hmcnt, hm255, _, _, _⟩ := pRoaringFold_stage kb nk l hkb hbound hcap hpart
  rw [← hstR] at hmcnt hm255
  set w := leftMostOneBit stR.maxBit with hw
  have hcntlt : ∀ b, (bucketElems b l).length < 2 ^ w := fun b =>
    lt_of_le_of_lt (hmcnt b) (lt_two_pow_lmb _)
  have hwle : w ≤ 8 := lmb_le_8 _ hm255
  have hblob : bitmapRun .kPRoaringBitmap kb nk l =
      (((List.range (2 ^ (kb - 16))).map fun p =>
        [(l.filter (fun i => i / 65536 = p)).length % 256,
          (l.filter (fun i => i / 65536 = p)).length / 256 % 256]).flatten) ++
      w :: (packBits (((List.range (2 ^ (kb - 8))).map fun b =>
          bitsValBE w (bucketElems b l).length).flatten) ++
        ((List.range (2 ^ (kb - 8))).map fun b =>
          ((bucketElems b l).insertionSort (· ≤ ·)).map (· % 256)).flatten) := by
    show pRoaringFinish stR = _
    rw [hstR, pRoaringFinish_spec kb nk l hkb hbound hcap hpart]
  set sumBytes := ((List.range (2 ^ (kb - 16))).map fun p =>
    [(l.filter (fun i => i / 65536 = p)).length % 256,
      (l.filter (fun i => i / 65536 = p)).length / 256 % 256]).flatten with hsb
  set lenbits := ((List.range (2 ^ (kb - 8))).map fun b =>
    bitsValBE w (bucketElems b l).length).flatten with hlb
  set bodies := ((List.range (2 ^ (kb - 8))).map fun b =>
    ((bucketElems b l).insertionSort (· ≤ ·)).map (· % 256)).flatten with hbod
  have hsblen : sumBytes.length = 2 * 2 ^ (kb - 16) := by
    rw [hsb, flatten_map_pair_length, List.length_range]
  have hlblen : lenbits.length = 2 ^ (kb - 8) * w := by
    rw [hlb, flatten_map_bits_length, List.length_range]
  have hpblen : (packBits lenbits).length = (2 ^ (kb - 8) * w + 7) / 8 := by
    rw [packBits_length, hlblen]
  have hpIdxlt : bit / 65536 < 2 ^ (kb - 16) := div65536_lt bit kb hkb hbit
  have hbIdxlt2 : bit / 256 < 2 ^ (kb - 8) := div256_lt bit kb hkb8 hbit
  have hbn256 : (2 : Nat) ^ (kb - 8) = 256 * 2 ^ (kb - 16) := by
    rw [show (256 : Nat) = 2 ^ 8 by norm_num, ← pow_add]
    congr 1
    omega
  have hsplit : 256 * (bit / 65536) + bit / 256 % 256 = bit / 256 := by
    rw [show (65536 : Nat) = 256 * 256 by norm_num, ← Nat.div_div_eq_div_mul]
    exact Nat.div_add_mod (bit / 256) 256
  rw [hblob]
  simp only [pRoaringTest]
  rw [one_shiftLeft_eq_pow]
  rw [pow_shiftRight_8 (kb - 8) (by omega)]
  rw [show kb - 8 - 8 = kb - 16 by omega]
  rw [(by rw [Nat.shiftRight_eq_div_pow] : bit >>> 16 = bit / 65536)]
  rw [and_ff00_shift]
  have hw0 : (sumBytes ++ w :: (packBits lenbits ++ bodies)).getD (2 * 2 ^ (kb - 16)) 0
      = w := by
    have h2 := getDN_append_right sumBytes (w :: (packBits lenbits ++ bodies)) 0
    rw [hsblen, Nat.add_zero] at h2
    exact h2
  rw [hw0]
  rw [show (w * (bit / 65536)) <<< 5 = w * (bit / 65536) * 32 by
    rw [Nat.shiftLeft_eq]]
  have hdropB : (sumBytes ++ w :: (packBits lenbits ++ bodies)).drop
      (2 * 2 ^ (kb - 16) + 1 + w * (bit / 65536) * 32) =
      (packBits lenbits ++ bodies).drop (w * (bit / 65536) * 32) := by
    rw [show sumBytes ++ w :: (packBits lenbits ++ bodies) =
      (sumBytes ++ [w]) ++ (packBits lenbits ++ bodies) by simp]
    rw [show 2 * 2 ^ (kb - 16) + 1 + w * (bit / 65536) * 32 =
      (sumBytes ++ [w]).length + w * (bit / 65536) * 32 by
        rw [List.length_append, hsblen]; rfl]
    rw [List.drop_append]
  rw [hdropB]
  rw [bitsOfBytes_drop]
  have hstream : bitsOfBytes (packBits lenbits ++ bodies) =
      lenbits ++ (List.replicate (8 * ((lenbits.length + 7) / 8) - lenbits.length) false ++
        bitsOfBytes bodies) := by
    rw [bitsOfBytes_append, bitsOfBytes_packBits, List.append_assoc]
  rw [hstream]
  rw [show (8 : Nat) * (w * (bit / 65536) * 32) = 256 * (bit / 65536) * w by ring]
  have hchunk : ∀ t, t < 2 ^ (kb - 8) →
      (((lenbits ++ (List.replicate (8 * ((lenbits.length + 7) / 8) - lenbits.length) false
        ++ bitsOfBytes bodies)).drop (t * w)).take w) =
      bitsValBE w (bucketElems t l).length := by
    intro t ht
    rw [hlb]
    rw [flatten_chunk_extract _ _ w (by
      intro c hc
      rcases List.mem_map.1 hc with ⟨b, _, rfl⟩
      exact bitsValBE_length w _) t (by rw [List.length_map, List.length_range]; exact ht)]
    exact getD_map_range_bits _ (2 ^ (kb - 8)) t ht
  have hchunk2 : ∀ t, t < 256 →
      ((((lenbits ++ (List.replicate (8 * ((lenbits.length + 7) / 8) - lenbits.length) false
        ++ bitsOfBytes bodies)).drop (256 * (bit / 65536) * w)).drop (t * w)).take w) =
      bitsValBE w (bucketElems (256 * (bit / 65536) + t) l).length := by
    intro t ht
    rw [List.drop_drop,
      show 256 * (bit / 65536) * w + t * w = (256 * (bit / 65536) + t) * w by ring]
    exact hchunk _ (by omega)
  have hsum : sumVals w ((lenbits ++
      (List.replicate (8 * ((lenbits.length + 7) / 8) - lenbits.length) false ++
        bitsOfBytes bodies)).drop (256 * (bit / 65536) * w)) (bit / 256 % 256) =
      ((List.range (bit / 256 % 256)).map fun t =>
        (bucketElems (256 * (bit / 65536) + t) l).length).sum :=
    sumVals_counts w _ (fun t => (bucketElems (256 * (bit / 65536) + t) l).length) 256
      hchunk2 (fun t _ => hcntlt _) (bit / 256 % 256) (le_of_lt (Nat.mod_lt _ (by omega)))
  have hbsize : valOfBits ((((lenbits ++
      (List.replicate (8 * ((lenbits.length + 7) / 8) - lenbits.length) false ++
        bitsOfBytes bodies)).drop (256 * (bit / 65536) * w)).drop
      ((bit / 256 % 256) * w)).take w) = (bucketElems (bit / 256) l).length := by
    rw [hchunk2 (bit / 256 % 256) (Nat.mod_lt _ (by omega)), hsplit]
    rw [valOfBits_bitsValBE, Nat.mod_eq_of_lt (hcntlt _)]
  have hoff : partOffset (sumBytes ++ w :: (packBits lenbits ++ bodies)) (bit / 65536) =
      (((List.range (bit / 65536)).map fun p =>
        (l.filter (fun i => i / 65536 = p)).length).sum : Int) := by
    rw [hsb]
    exact partOffset_blob (fun p => (l.filter (fun i => i / 65536 = p)).length)
      (2 ^ (kb - 16)) _ (fun p _ => hps p) (bit / 65536) (le_of_lt hpIdxlt)
  rw [hsum, hbsize, hoff]
  set S := ((List.range (bit / 65536)).map fun p =>
    (l.filter (fun i => i / 65536 = p)).length).sum with hSdef
  set offB := ((List.range (bit / 256 % 256)).map fun t =>
    (bucketElems (256 * (bit / 65536) + t) l).length).sum with hoffBdef
  have hoffBle : offB ≤ 65280 := by
    rw [hoffBdef]
    have h1 := List.sum_le_card_nsmul ((List.range (bit / 256 % 256)).map fun t =>
      (bucketElems (256 * (bit / 65536) + t) l).length) 255 (by
        intro x hx
        rcases List.mem_map.1 hx with ⟨t, _, rfl⟩
        exact hcap _)
    rw [List.length_map, List.length_range, smul_eq_mul] at h1
    have h2 : bit / 256 % 256 < 256 := Nat.mod_lt _ (by omega)
    omega
  have hSle : S ≤ 1073741824 := by
    rw [hSdef]
    have h1 := List.sum_le_card_nsmul ((List.range (bit / 65536)).map fun p =>
      (l.filter (fun i => i / 65536 = p)).length) 32768 (by
        intro x hx
        rcases List.mem_map.1 hx with ⟨p, _, rfl⟩
        have := (hps p).2
        omega)
    rw [List.length_map, List.length_range, smul_eq_mul] at h1
    have hpnle : (2 : Nat) ^ (kb - 16) ≤ 32768 := by
      calc (2 : Nat) ^ (kb - 16) ≤ 2 ^ 15 := Nat.pow_le_pow_right (by omega) (by omega)
        _ = 32768 := by norm_num
    have h2 : bit / 65536 ≤ 32768 := by omega
    omega
  have hbnd : 2 * 2 ^ (kb - 16) + 1 + (2 ^ (kb - 8) * w + 7) / 8 + offB + S <
      18446744073709551616 := by
    have hpnle : (2 : Nat) ^ (kb - 16) ≤ 32768 := by
      calc (2 : Nat) ^ (kb - 16) ≤ 2 ^ 15 := Nat.pow_le_pow_right (by omega) (by omega)
        _ = 32768 := by norm_num
    have hbnle : (2 : Nat) ^ (kb - 8) ≤ 8388608 := by
      calc (2 : Nat) ^ (kb - 8) ≤ 2 ^ 23 := Nat.pow_le_pow_right (by omega) (by omega)
        _ = 8388608 := by norm_num
    have hbw : 2 ^ (kb - 8) * w ≤ 8388608 * 8 := Nat.mul_le_mul hbnle hwle
    omega
  have hstart : ((((2 * 2 ^ (kb - 16) + 1 + (2 ^ (kb - 8) * w + 7) / 8 + offB : Nat) : Int) +
      ((S : Nat) : Int)) % (18446744073709551616 : Int)).toNat =
      2 * 2 ^ (kb - 16) + 1 + (2 ^ (kb - 8) * w + 7) / 8 + offB + S := by
    rw [show ((2 * 2 ^ (kb - 16) + 1 + (2 ^ (kb - 8) * w + 7) / 8 + offB : Nat) : Int) +
        ((S : Nat) : Int) =
        ((2 * 2 ^ (kb - 16) + 1 + (2 ^ (kb - 8) * w + 7) / 8 + offB + S : Nat) : Int) by
      push_cast; ring]
    rw [Int.emod_eq_of_lt (Int.natCast_nonneg _) (by exact_mod_cast hbnd)]
    exact Int.toNat_natCast _
  rw [hstart]
  have hOS : S + offB = ((List.range (bit / 256)).map fun b =>
      (bucketElems b l).length).sum := by
    rw [hSdef, hoffBdef]
    have e1 : ((List.range (bit / 65536)).map fun p =>
        (l.filter (fun i => i / 65536 = p)).length).sum =
        l.countP (fun i => decide (i / 65536 < bit / 65536)) :=
      sum_bucket_counts (fun i => i / 65536) l (bit / 65536)
    have e2 : ((List.range (256 * (bit / 65536))).map fun b =>
        (bucketElems b l).length).sum =
        l.countP (fun i => decide (i / 256 < 256 * (bit / 65536))) :=
      sum_bucket_counts (fun i => i / 256) l (256 * (bit / 65536))
    have e3 := countP_div_div l (bit / 65536)
    rw [e1, ← e3, ← e2]
    conv_rhs => rw [← hsplit]
    rw [List.range_add, List.map_append, List.sum_append, List.map_map]
    congr 1
  set seg := ((bucketElems (bit / 256) l).insertionSort (· ≤ ·)).map (· % 256) with hseg
  have hseglen : seg.length = (bucketElems (bit / 256) l).length := by
    rw [hseg, List.length_map, List.length_insertionSort]
  have hoffread : ∀ t, t < seg.length →
      (sumBytes ++ w :: (packBits lenbits ++ bodies)).getD
        (2 * 2 ^ (kb - 16) + 1 + (2 ^ (kb - 8) * w + 7) / 8 + offB + S + t) 0 =
      seg.getD t 0 := by
    intro t ht
    have hsumtake : ((((List.range (2 ^ (kb - 8))).map fun b =>
        ((bucketElems b l).insertionSort (· ≤ ·)).map (· % 256)).take (bit / 256)).map
          List.length).sum =
        ((List.range (bit / 256)).map fun b => (bucketElems b l).length).sum := by
      rw [← List.map_take, List.take_range,
        show min (bit / 256) (2 ^ (kb - 8)) = bit / 256 by omega, List.map_map]
      congr 1
      apply List.map_congr_left
      intro b _
      show (((bucketElems b l).insertionSort (· ≤ ·)).map (· % 256)).length = _
      rw [List.length_map, List.length_insertionSort]
    have hidx : 2 * 2 ^ (kb - 16) + 1 + (2 ^ (kb - 8) * w + 7) / 8 + offB + S + t =
        (sumBytes ++ [w]).length + ((packBits lenbits).length +
          (((((List.range (2 ^ (kb - 8))).map fun b =>
            ((bucketElems b l).insertionSort (· ≤ ·)).map (· % 256)).take
              (bit / 256)).map List.length).sum + t)) := by
      rw [List.length_append, hsblen, List.length_singleton, hpblen, hsumtake]
      omega
    rw [show sumBytes ++ w :: (packBits lenbits ++ bodies) =
      (sumBytes ++ [w]) ++ (packBits lenbits ++ bodies) by simp]
    rw [hidx, getDN_append_right, getDN_append_right]
    rw [hbod]
    rw [flatten_getD_seg _ (bit / 256)
      (by rw [List.length_map, List.length_range]; exact hbIdxlt2) t (by
        rw [getD_map_range _ _ _ hbIdxlt2, List.length_map, List.length_insertionSort]
        rw [hseglen] at ht
        exact ht)]
    rw [getD_map_range _ _ _ hbIdxlt2]
  rw [← hseglen]
  rw [roaringScan_seg (bit % 256) (sumBytes ++ w :: (packBits lenbits ++ bodies)) seg
    (2 * 2 ^ (kb - 16) + 1 + (2 ^ (kb - 8) * w + 7) / 8 + offB + S) hoffread
    (by rw [hseg]; exact seg_sorted l _)]
  have hsegmem2 : (bit % 256 ∈ seg) ↔ bit ∈ l := by
    rw [hseg]
    exact mem_lowbytes l bit
  exact decide_eq_decide.2 hsegmem2

/-! ## The C1 claim: exactness of every bitmap filter -/

/-- **C1** (corrected): for every bitmap format and every duplicate-free index
set drawn from `[0, 2^key_bits)` (`8 ≤ key_bits ≤ 31`) in which no 256-bucket
receives more than 255 indices (otherwise the `uint8` per-bucket counter of
the five compressed formats wraps, see the counterexample), with the set
`{0}` excluded for pForDelta (whose encoding of `{0}` divides by zero in
`Test`) and, for partitioned Roaring, `key_bits ≥ 16` and every `uint16`
partition counter having a low byte below 128 and a value below 32768 (the
partition table is read back through a plain signed `char`), a finished
`BitmapBlock` is exact: `BitmapKeyMustMatch` returns true for a key whose
derived 32-bit index is in the set and false for a key whose derived index is
in the domain but not in the set. -/
theorem bitmapBlock_exact (fmt : BitmapFormatType) (kb nk : Nat) (idxs : List Nat)
    (key : List Byte)
    (hkb : 8 ≤ kb) (hkb31 : kb ≤ 31) (hnd : idxs.Nodup)
    (hbound : ∀ i ∈ idxs, i < 2 ^ kb)
    (hcap : ∀ b, (bucketElems b idxs).length ≤ 255)
    (hpfd : fmt = .kPForDeltaBitmap → idxs ≠ [0])
    (hpr : fmt = .kPRoaringBitmap → 16 ≤ kb ∧
      ∀ p, (idxs.filter (fun i => i / 65536 = p)).length % 256 < 128 ∧
        (idxs.filter (fun i => i / 65536 = p)).length < 32768)
    (hq : bitmapIndexOf key < 2 ^ kb) :
    bitmapKeyMustMatch key (bitmapBlockFinish fmt kb nk idxs) =
      decide (bitmapIndexOf key ∈ idxs) := by
  have hlen : (bitmapBlockFinish fmt kb nk idxs).length =
      (bitmapRun fmt kb nk idxs).length + 2 := by
    simp [bitmapBlockFinish]
  obtain ⟨ha, hb⟩ := getD_append_two (bitmapRun fmt kb nk idxs) kb (bitmapFormatByte fmt)
  have htake : (bitmapBlockFinish fmt kb nk idxs).take
      ((bitmapBlockFinish fmt kb nk idxs).length - 2) = bitmapRun fmt kb nk idxs := by
    rw [hlen, Nat.add_sub_cancel]
    show (bitmapRun fmt kb nk idxs ++ [kb, bitmapFormatByte fmt]).take
      (bitmapRun fmt kb nk idxs).length = _
    exact List.take_left _ _
  have hkbyte : (bitmapBlockFinish fmt kb nk idxs).getD
      ((bitmapBlockFinish fmt kb nk idxs).length - 2) 0 = kb := by
    rw [hlen, Nat.add_sub_cancel]
    exact ha
  have hfbyte : (bitmapBlockFinish fmt kb nk idxs).getD
      ((bitmapBlockFinish fmt kb nk idxs).length - 1) 0 = bitmapFormatByte fmt := by
    rw [hlen, show (bitmapRun fmt kb nk idxs).length + 2 - 1 =
      (bitmapRun fmt kb nk idxs).length + 1 by omega]
    exact hb
  unfold bitmapKeyMustMatch
  rw [if_neg (by omega : ¬ (bitmapBlockFinish fmt kb nk idxs).length < 2)]
  dsimp only
  rw [hkbyte, hfbyte, htake]
  rw [if_neg (by omega : ¬ 2 ^ kb ≤ bitmapIndexOf key)]
  cases fmt with
  | kUncompressedBitmap =>
    rw [if_pos rfl]
    exact uncompressedTest_exact kb nk idxs _ hkb hbound hq
  | kVarintBitmap =>
    rw [if_neg (by decide), if_pos rfl]
    exact varintTest_exact kb nk idxs _ hkb hkb31 hnd hbound hcap
  | kVarintPlusBitmap =>
    rw [if_neg (by decide), if_neg (by decide), if_pos rfl]
    exact varintPlusTest_exact kb nk idxs _ hkb hkb31 hnd hbound hcap
  | kPForDeltaBitmap =>
    rw [if_neg (by decide), if_neg (by decide), if_neg (by decide), if_pos rfl]
    exact pForDeltaTest_exact kb nk idxs _ hkb hkb31 hnd hbound hcap (hpfd rfl)
  | kRoaringBitmap =>
    rw [if_neg (by decide), if_neg (by decide), if_neg (by decide), if_neg (by decide),
      if_pos rfl]
    exact roaringTest_exact kb nk idxs _ hkb hbound hcap hq
  | kPRoaringBitmap =>
    rw [if_neg (by decide), if_neg (by decide), if_neg (by decide), if_neg (by decide),
      if_neg (by decide), if_pos rfl]
    obtain ⟨hkb16, hps⟩ := hpr rfl
    exact pRoaringTest_exact kb nk idxs _ hkb16 hkb31 hbound hcap hps hq

/-- A concrete instance of the C1 theorem: the varint filter over `{1}` with
8 key bits, queried with the key `[1, 0, 0, 0]` (index 1, in the set). -/
theorem bitmapBlock_exact_witness :
    bitmapIndexOf [1, 0, 0, 0] < 2 ^ 8 ∧
    bitmapKeyMustMatch [1, 0, 0, 0] (bitmapBlockFinish .kVarintBitmap 8 1 [1]) =
      decide (bitmapIndexOf [1, 0, 0, 0] ∈ ([1] : List Nat)) :=
  ⟨by decide,
    bitmapBlock_exact .kVarintBitmap 8 1 [1] [1, 0, 0, 0] (by decide) (by decide)
      (by decide)
      (by intro i hi; rw [List.mem_singleton] at hi; omega)
      (fun b => le_trans (List.length_filter_le _ _) (by decide))
      (fun h => absurd h (by decide))
      (fun h => absurd h (by decide))
      (by decide)⟩
